import Mathlib

set_option maxHeartbeats 1000000

namespace OSP

/-- Undirected graph with adjacency and weight matrices, as in `graph.h` of the
server build: fields `V`, `E`, `adj`, `w`.  The C `int**` matrices are modelled
as total functions on `Nat` indices; all live entries sit at indices below `V`.
Matrix entries and `E` are C `int`s, modelled as `Int`. -/
structure Graph where
  V : Nat
  E : Int
  adj : Nat → Nat → Int
  w : Nat → Nat → Int

/-- `create_graph` from `server.c`: `V` vertices, `E = 0`, zero-initialized
adjacency and weight matrices (`calloc`). -/
def create_graph (V : Nat) : Graph :=
  { V := V, E := 0, adj := fun _ _ => 0, w := fun _ _ => 0 }

/-- Update of a single matrix cell (one C assignment `m[a][b] = x`). -/
def setCell (m : Nat → Nat → Int) (a b : Nat) (x : Int) : Nat → Nat → Int :=
  fun i j => if i = a ∧ j = b then x else m i j

/-- The successful branch of `add_edge_w`: set both symmetric adjacency cells
to 1, both weight cells to `wt`, and increment `E`. -/
def insertEdge (g : Graph) (a b : Nat) (wt : Int) : Graph :=
  { V := g.V
    E := g.E + 1
    adj := setCell (setCell g.adj a b 1) b a 1
    w := setCell (setCell g.w a b wt) b a wt }

/-- `add_edge_w` from `server.c` (lines 719-729): validate-and-insert with an
explicit weight.  Returns the updated graph together with the C `int` return
value (1 = inserted, 0 = rejected).  The guards are checked in source order:
out-of-range endpoint, self-loop, non-positive weight, existing edge. -/
def add_edge_w (g : Graph) (u v wt : Int) : Graph × Int :=
  if u < 0 ∨ v < 0 ∨ (g.V : Int) ≤ u ∨ (g.V : Int) ≤ v then (g, 0)
  else if u = v then (g, 0)
  else if wt ≤ 0 then (g, 0)
  else if g.adj u.toNat v.toNat ≠ 0 then (g, 0)
  else (insertEdge g u.toNat v.toNat wt, 1)

/-- `degree` from `server.c`: sum of the `u`-th adjacency row. -/
def degree (g : Graph) (u : Nat) : Int :=
  (List.range g.V).foldl (fun d v => d + g.adj u v) 0

/-- The set of strictly-above-diagonal 1-entries of the adjacency matrix:
the edge set of the graph, one representative `(i, j)` with `i < j` per edge. -/
def edgePairs (g : Graph) : Finset (Nat × Nat) :=
  (Finset.range g.V ×ˢ Finset.range g.V).filter
    (fun p => p.1 < p.2 ∧ g.adj p.1 p.2 = 1)

/-- The data-model invariants of §3 of the spec, as maintained by
`create_graph` / `add_edge_w`:  zero diagonal, symmetric 0/1 adjacency,
symmetric weights that are positive on edges, no out-of-range entries, and
`E` equal to the number of 1-entries strictly above the diagonal. -/
structure WF (g : Graph) : Prop where
  symm : ∀ i j, g.adj i j = g.adj j i
  diag : ∀ i, g.adj i i = 0
  binary : ∀ i j, g.adj i j = 0 ∨ g.adj i j = 1
  support : ∀ i j, (g.V ≤ i ∨ g.V ≤ j) → g.adj i j = 0
  wsymm : ∀ i j, g.w i j = g.w j i
  wpos : ∀ i j, g.adj i j ≠ 0 → 0 < g.w i j
  ecount : g.E = (edgePairs g).card

/-- A graph built by `create_graph` followed by an arbitrary sequence of
`add_edge_w` calls (each triple is the `(u, v, w)` arguments of one call;
rejected insertions leave the graph as they found it). -/
def buildGraph (V : Nat) (ops : List (Int × Int × Int)) : Graph :=
  ops.foldl (fun g t => (add_edge_w g t.1 t.2.1 t.2.2).1) (create_graph V)

theorem create_graph_WF (V : Nat) : WF (create_graph V) := by
  refine ⟨?_, ?_, ?_, ?_, ?_, ?_, ?_⟩ <;>
    simp [create_graph, edgePairs, Finset.filter_false_of_mem]

theorem setCell_ne (m : Nat → Nat → Int) (a b : Nat) (x : Int) (i j : Nat)
    (h : ¬(i = a ∧ j = b)) : setCell m a b x i j = m i j := by
  simp [setCell, h]

theorem setCell_eq (m : Nat → Nat → Int) (a b : Nat) (x : Int) :
    setCell m a b x a b = x := by
  simp [setCell]

theorem insertEdge_WF (g : Graph) (a b : Nat) (wt : Int) (hg : WF g)
    (hab : a ≠ b) (haV : a < g.V) (hbV : b < g.V) (hwt : 0 < wt)
    (hadj0 : g.adj a b = 0) : WF (insertEdge g a b wt) := by
  have hadj0' : g.adj b a = 0 := by rw [hg.symm]; exact hadj0
  constructor
  · -- symm
    intro i j
    simp only [insertEdge, setCell]
    by_cases h1 : i = b ∧ j = a
    · obtain ⟨rfl, rfl⟩ := h1
      simp [hab, Ne.symm hab]
    · by_cases h2 : i = a ∧ j = b
      · obtain ⟨rfl, rfl⟩ := h2
        simp [hab, Ne.symm hab]
      · have h1' : ¬(j = a ∧ i = b) := by
          intro hx
          exact h1 ⟨hx.2, hx.1⟩
        have h2' : ¬(j = b ∧ i = a) := by
          intro hx
          exact h2 ⟨hx.2, hx.1⟩
        simp only [if_neg h1, if_neg h2, if_neg h1', if_neg h2']
        exact hg.symm i j
  · -- diag
    intro i
    simp only [insertEdge, setCell]
    have h1 : ¬(i = b ∧ i = a) := by
      intro hx
      exact hab (hx.2 ▸ hx.1 ▸ rfl)
    have h2 : ¬(i = a ∧ i = b) := by
      intro hx
      exact hab (hx.1 ▸ hx.2 ▸ rfl)
    simp only [if_neg h1, if_neg h2]
    exact hg.diag i
  · -- binary
    intro i j
    simp only [insertEdge, setCell]
    split
    · right; rfl
    · split
      · right; rfl
      · exact hg.binary i j
  · -- support
    intro i j hij
    simp only [insertEdge] at hij
    simp only [insertEdge, setCell]
    have h1 : ¬(i = b ∧ j = a) := by
      rintro ⟨rfl, rfl⟩
      omega
    have h2 : ¬(i = a ∧ j = b) := by
      rintro ⟨rfl, rfl⟩
      omega
    simp only [if_neg h1, if_neg h2]
    exact hg.support i j hij
  · -- wsymm
    intro i j
    simp only [insertEdge, setCell]
    by_cases h1 : i = b ∧ j = a
    · obtain ⟨rfl, rfl⟩ := h1
      simp [hab, Ne.symm hab]
    · by_cases h2 : i = a ∧ j = b
      · obtain ⟨rfl, rfl⟩ := h2
        simp [hab, Ne.symm hab]
      · have h1' : ¬(j = a ∧ i = b) := by
          intro hx
          exact h1 ⟨hx.2, hx.1⟩
        have h2' : ¬(j = b ∧ i = a) := by
          intro hx
          exact h2 ⟨hx.2, hx.1⟩
        simp only [if_neg h1, if_neg h2, if_neg h1', if_neg h2']
        exact hg.wsymm i j
  · -- wpos
    intro i j hij
    simp only [insertEdge, setCell] at hij ⊢
    by_cases h1 : i = b ∧ j = a
    · obtain ⟨rfl, rfl⟩ := h1
      simp only [if_pos (And.intro rfl rfl)]
      exact hwt
    · by_cases h2 : i = a ∧ j = b
      · obtain ⟨rfl, rfl⟩ := h2
        simp only [if_neg h1, if_pos (And.intro rfl rfl)]
        exact hwt
      · simp only [if_neg h1, if_neg h2] at hij ⊢
        exact hg.wpos i j hij
  · -- ecount
    have key : edgePairs (insertEdge g a b wt) =
        insert (if a < b then (a, b) else (b, a)) (edgePairs g) := by
      ext p
      simp only [edgePairs, insertEdge, Finset.mem_filter, Finset.mem_insert,
        Finset.mem_product, Finset.mem_range]
      constructor
      · rintro ⟨⟨hp1, hp2⟩, hlt, hadj⟩
        by_cases hpa : p = (a, b)
        · subst hpa
          left
          simp only at hlt
          rw [if_pos hlt]
        · by_cases hpb : p = (b, a)
          · subst hpb
            left
            simp only at hlt
            rw [if_neg (by omega)]
          · right
            refine ⟨⟨hp1, hp2⟩, hlt, ?_⟩
            have h1 : ¬(p.1 = b ∧ p.2 = a) := by
              intro hx
              exact hpb (Prod.ext hx.1 hx.2)
            have h2 : ¬(p.1 = a ∧ p.2 = b) := by
              intro hx
              exact hpa (Prod.ext hx.1 hx.2)
            rwa [setCell_ne _ _ _ _ _ _ h1, setCell_ne _ _ _ _ _ _ h2] at hadj
      · rintro (hp | ⟨⟨hp1, hp2⟩, hlt, hadj⟩)
        · subst hp
          split
          · rename_i hab'
            refine ⟨⟨haV, hbV⟩, hab', ?_⟩
            have h1 : ¬(a = b ∧ b = a) := by
              intro hx
              exact hab hx.1
            rw [setCell_ne _ _ _ _ _ _ h1, setCell_eq]
          · rename_i hab'
            refine ⟨⟨hbV, haV⟩, by omega, ?_⟩
            rw [setCell_eq]
        · refine ⟨⟨hp1, hp2⟩, hlt, ?_⟩
          have h1 : ¬(p.1 = b ∧ p.2 = a) := by
            rintro ⟨rfl, rfl⟩
            rw [hg.symm] at hadj
            omega
          have h2 : ¬(p.1 = a ∧ p.2 = b) := by
            rintro ⟨rfl, rfl⟩
            omega
          rw [setCell_ne _ _ _ _ _ _ h1, setCell_ne _ _ _ _ _ _ h2]
          exact hadj
    have hnotmem : (if a < b then (a, b) else (b, a)) ∉ edgePairs g := by
      split
      · simp only [edgePairs, Finset.mem_filter]
        rintro ⟨-, -, h⟩
        omega
      · simp only [edgePairs, Finset.mem_filter]
        rintro ⟨-, -, h⟩
        rw [hg.symm] at h
        omega
    have hE : (insertEdge g a b wt).E = g.E + 1 := rfl
    rw [hE, key, Finset.card_insert_of_not_mem hnotmem, hg.ecount]
    push_cast
    ring

theorem add_edge_w_WF (g : Graph) (u v wt : Int) (hg : WF g) :
    WF (add_edge_w g u v wt).1 := by
  unfold add_edge_w
  split
  · exact hg
  split
  · exact hg
  split
  · exact hg
  split
  · exact hg
  rename_i hrange hne hwt hdup
  push_neg at hrange hwt hdup
  obtain ⟨hu0, hv0, huV, hvV⟩ := hrange
  exact insertEdge_WF g u.toNat v.toNat wt hg (by omega) (by omega) (by omega)
    hwt hdup

theorem add_edge_w_V (g : Graph) (u v wt : Int) :
    (add_edge_w g u v wt).1.V = g.V := by
  unfold add_edge_w
  split
  · rfl
  split
  · rfl
  split
  · rfl
  split
  · rfl
  rfl

/-- WF is preserved by any sequence of insertions. -/
theorem buildGraph_WF (V : Nat) (ops : List (Int × Int × Int)) :
    WF (buildGraph V ops) := by
  have main : ∀ (ops : List (Int × Int × Int)) (g : Graph), WF g →
      WF (ops.foldl (fun g t => (add_edge_w g t.1 t.2.1 t.2.2).1) g) := by
    intro ops
    induction ops with
    | nil => intro g hg; exact hg
    | cons t rest ih =>
        intro g hg
        exact ih _ (add_edge_w_WF g t.1 t.2.1 t.2.2 hg)
  exact main ops _ (create_graph_WF V)

theorem buildGraph_V (V : Nat) (ops : List (Int × Int × Int)) :
    (buildGraph V ops).V = V := by
  have main : ∀ (ops : List (Int × Int × Int)) (g : Graph),
      (ops.foldl (fun g t => (add_edge_w g t.1 t.2.1 t.2.2).1) g).V = g.V := by
    intro ops
    induction ops with
    | nil => intro g; rfl
    | cons t rest ih =>
        intro g
        rw [List.foldl_cons, ih, add_edge_w_V]
  exact main ops _

/-- C6: every graph obtained from `create_graph V` (`V ≥ 1`) by a sequence of
`add_edge_w` calls has zero diagonal, symmetric adjacency and weight matrices,
positive weights wherever `adj = 1`, no out-of-range entries, and `E` equal to
the number of 1-entries strictly above the diagonal. -/
theorem claim_C6_invariants (V : Nat) (ops : List (Int × Int × Int))
    (_hV : 1 ≤ V) :
    (∀ i, (buildGraph V ops).adj i i = 0) ∧
    (∀ i j, (buildGraph V ops).adj i j = (buildGraph V ops).adj j i) ∧
    (∀ i j, (buildGraph V ops).w i j = (buildGraph V ops).w j i) ∧
    (∀ i j, (buildGraph V ops).adj i j ≠ 0 → 0 < (buildGraph V ops).w i j) ∧
    (∀ i j, (V ≤ i ∨ V ≤ j) → (buildGraph V ops).adj i j = 0) ∧
    (buildGraph V ops).E = (edgePairs (buildGraph V ops)).card := by
  have h := buildGraph_WF V ops
  refine ⟨h.diag, h.symm, h.wsymm, h.wpos, ?_, h.ecount⟩
  intro i j hij
  apply h.support
  rw [buildGraph_V]
  exact hij

theorem claim_C6_invariants_witness :
    1 ≤ 2 ∧
    ((∀ i, (buildGraph 2 [(0, 1, 5)]).adj i i = 0) ∧
     (∀ i j, (buildGraph 2 [(0, 1, 5)]).adj i j = (buildGraph 2 [(0, 1, 5)]).adj j i) ∧
     (∀ i j, (buildGraph 2 [(0, 1, 5)]).w i j = (buildGraph 2 [(0, 1, 5)]).w j i) ∧
     (∀ i j, (buildGraph 2 [(0, 1, 5)]).adj i j ≠ 0 → 0 < (buildGraph 2 [(0, 1, 5)]).w i j) ∧
     (∀ i j, (2 ≤ i ∨ 2 ≤ j) → (buildGraph 2 [(0, 1, 5)]).adj i j = 0) ∧
     (buildGraph 2 [(0, 1, 5)]).E = (edgePairs (buildGraph 2 [(0, 1, 5)])).card) :=
  ⟨by decide, claim_C6_invariants 2 [(0, 1, 5)] (by decide)⟩

/-- C10: a rejected insertion (out-of-range endpoint, self-loop, non-positive
weight, or duplicate edge) returns 0 and leaves the graph unchanged: same `V`,
same `E`, and every entry of `adj` and `w` as before the call. -/
theorem claim_C10_reject_unchanged (g : Graph) (u v wt : Int)
    (hrej : u < 0 ∨ v < 0 ∨ (g.V : Int) ≤ u ∨ (g.V : Int) ≤ v ∨ u = v ∨
      wt ≤ 0 ∨ g.adj u.toNat v.toNat ≠ 0) :
    (add_edge_w g u v wt).2 = 0 ∧
    (add_edge_w g u v wt).1.V = g.V ∧
    (add_edge_w g u v wt).1.E = g.E ∧
    (∀ i j, (add_edge_w g u v wt).1.adj i j = g.adj i j) ∧
    (∀ i j, (add_edge_w g u v wt).1.w i j = g.w i j) := by
  have hid : (add_edge_w g u v wt).1 = g ∧ (add_edge_w g u v wt).2 = 0 := by
    unfold add_edge_w
    split
    · exact ⟨rfl, rfl⟩
    split
    · exact ⟨rfl, rfl⟩
    split
    · exact ⟨rfl, rfl⟩
    split
    · exact ⟨rfl, rfl⟩
    rename_i h1 h2 h3 h4
    exfalso
    rcases hrej with h | h | h | h | h | h | h
    · exact h1 (Or.inl h)
    · exact h1 (Or.inr (Or.inl h))
    · exact h1 (Or.inr (Or.inr (Or.inl h)))
    · exact h1 (Or.inr (Or.inr (Or.inr h)))
    · exact h2 h
    · exact h3 h
    · exact h4 h
  refine ⟨hid.2, by rw [hid.1], by rw [hid.1], ?_, ?_⟩
  · intro i j
    rw [hid.1]
  · intro i j
    rw [hid.1]

/-! ### Connectivity (`dfs`, `connected_among_non_isolated`) and degree parity -/

/-- Update of a single array cell (one C assignment `f[a] = x`). -/
def setF (f : Nat → Int) (a : Nat) (x : Int) : Nat → Int :=
  fun i => if i = a then x else f i

/-- The `for (v = 0; v < V; ++v)` loop inside the recursive `dfs` of
`server.c`: scan the columns in `cols`, recursing (through `rec`, the one
level deeper `dfs`) on unvisited neighbors of `u`. -/
def dfsScanWith (g : Graph) (u : Nat) (rec : Nat → List Nat → List Nat) :
    List Nat → List Nat → List Nat
  | [], vis => vis
  | v :: cols, vis =>
      if g.adj u v ≠ 0 ∧ ¬ vis.contains v then
        dfsScanWith g u rec cols (rec v vis)
      else dfsScanWith g u rec cols vis

/-- The recursive `dfs` of `server.c` (lines 776-781): mark `u` visited, then
scan the row `adj[u][0..V-1]`, recursing on unvisited neighbors.  The visited
array is modelled as the list of marked vertices; `fuel` bounds the recursion
depth (every call marks a fresh vertex, so depth `V` always suffices). -/
def dfsGo (g : Graph) : Nat → Nat → List Nat → List Nat
  | 0, _, vis => vis
  | fuel + 1, u, vis => dfsScanWith g u (dfsGo g fuel) (List.range g.V) (u :: vis)

/-- `connected_among_non_isolated` from `server.c` (lines 783-796): find the
first vertex of positive degree; if none, answer true; otherwise DFS from it
and check that every vertex of positive degree was visited. -/
def connected_among_non_isolated (g : Graph) : Bool :=
  match (List.range g.V).find? (fun i => 0 < degree g i) with
  | none => true
  | some start =>
      let vis := dfsGo g g.V start []
      (List.range g.V).all (fun i => if 0 < degree g i then vis.contains i else true)

/-- `all_even_degrees` from `server.c`. -/
def all_even_degrees (g : Graph) : Bool :=
  (List.range g.V).all (fun i => degree g i % 2 = 0)

/-! ### Euler circuit (Hierholzer), `euler_circuit` from `server.c`/`graph.c` -/

/-- The mutable state of the `while (top > 0)` loop of `euler_circuit`:
working copy of the adjacency matrix, working degree array, the stack
(head = top), and the output in pop order. -/
structure EState where
  adjm : Nat → Nat → Int
  deg : Nat → Int
  stack : List Nat
  out : List Nat

/-- One iteration of the `while (top > 0)` loop of `euler_circuit`: look at
the top `u`; if `deg[u] > 0`, take the lowest-indexed remaining neighbor `v`,
consume the edge (decrement both matrix cells and both degrees) and push `v`;
otherwise pop `u` and append it to the output.  A state with an empty stack is
returned unchanged. -/
def stepE (V : Nat) (s : EState) : EState :=
  match s.stack with
  | [] => s
  | u :: rest =>
    match (if 0 < s.deg u then (List.range V).find? (fun w => s.adjm u w ≠ 0)
           else none) with
    | some v =>
        let a1 := setCell s.adjm u v (s.adjm u v - 1)
        let a2 := setCell a1 v u (a1 v u - 1)
        let d1 := setF s.deg u (s.deg u - 1)
        let d2 := setF d1 v (d1 v - 1)
        { adjm := a2, deg := d2, stack := v :: u :: rest, out := s.out }
    | none => { adjm := s.adjm, deg := s.deg, stack := rest, out := s.out ++ [u] }

/-- The fuelled `while (top > 0)` loop.  The C loop always terminates within
`2E + 1` iterations on the graphs it is run on (each iteration either consumes
an edge and pushes, or pops), so the caller passes fuel `2E + 2`. -/
def eulerGo (V : Nat) : Nat → EState → EState
  | 0, s => s
  | fuel + 1, s => if s.stack = [] then s else eulerGo V fuel (stepE V s)

theorem stepE_nil (V : Nat) (A : Nat → Nat → Int) (D : Nat → Int)
    (o : List Nat) : stepE V (EState.mk A D [] o) = EState.mk A D [] o := rfl

theorem stepE_cons_none (V : Nat) (A : Nat → Nat → Int) (D : Nat → Int)
    (u : Nat) (rest o : List Nat)
    (h : (if 0 < D u then (List.range V).find? (fun w => A u w ≠ 0)
          else none) = none) :
    stepE V (EState.mk A D (u :: rest) o) = EState.mk A D rest (o ++ [u]) := by
  show (match (if 0 < D u then (List.range V).find? (fun w => A u w ≠ 0)
               else none) with
    | some v =>
        EState.mk
          (setCell (setCell A u v (A u v - 1)) v u
            (setCell A u v (A u v - 1) v u - 1))
          (setF (setF D u (D u - 1)) v (setF D u (D u - 1) v - 1))
          (v :: u :: rest) o
    | none => EState.mk A D rest (o ++ [u])) = EState.mk A D rest (o ++ [u])
  rw [h]

theorem stepE_cons_some (V : Nat) (A : Nat → Nat → Int) (D : Nat → Int)
    (u v : Nat) (rest o : List Nat)
    (h : (if 0 < D u then (List.range V).find? (fun w => A u w ≠ 0)
          else none) = some v) :
    stepE V (EState.mk A D (u :: rest) o) =
      EState.mk
        (setCell (setCell A u v (A u v - 1)) v u
          (setCell A u v (A u v - 1) v u - 1))
        (setF (setF D u (D u - 1)) v (setF D u (D u - 1) v - 1))
        (v :: u :: rest) o := by
  show (match (if 0 < D u then (List.range V).find? (fun w => A u w ≠ 0)
               else none) with
    | some v =>
        EState.mk
          (setCell (setCell A u v (A u v - 1)) v u
            (setCell A u v (A u v - 1) v u - 1))
          (setF (setF D u (D u - 1)) v (setF D u (D u - 1) v - 1))
          (v :: u :: rest) o
    | none => EState.mk A D rest (o ++ [u])) = _
  rw [h]

/-- The `start` vertex of `euler_circuit`: the lowest-indexed vertex of
positive degree, or 0 if every vertex is isolated. -/
def eulerStart (g : Graph) : Nat :=
  ((List.range g.V).find? (fun i => 0 < degree g i)).getD 0

/-- The initial loop state of `euler_circuit`: a working copy of the adjacency
matrix, the degree array, the stack seeded with `start`, empty output. -/
def eulerInit (g : Graph) : EState :=
  EState.mk (fun i j => g.adj i j) (fun i => degree g i) [eulerStart g] []

/-- `euler_circuit` from `server.c` (lines 806-866): check the two
preconditions, then run Hierholzer from the lowest-indexed non-isolated vertex
(0 if all are isolated) on a working copy of the adjacency matrix.  `none`
models `return 0`, `some out` models `return 1` with `*path_out = out`. -/
def euler_circuit (g : Graph) : Option (List Nat) :=
  if ¬ connected_among_non_isolated g then none
  else if ¬ all_even_degrees g then none
  else some (eulerGo g.V (2 * g.E.toNat + 2) (eulerInit g)).out

theorem WF_E0_adj_zero (g : Graph) (hwf : WF g) (hE : g.E = 0) :
    ∀ i j, g.adj i j = 0 := by
  intro i j
  by_cases hiV : g.V ≤ i
  · exact hwf.support i j (Or.inl hiV)
  by_cases hjV : g.V ≤ j
  · exact hwf.support i j (Or.inr hjV)
  push_neg at hiV hjV
  rcases Nat.lt_trichotomy i j with hij | rfl | hij
  · rcases hwf.binary i j with h | h
    · exact h
    · exfalso
      have hmem : (i, j) ∈ edgePairs g := by
        simp only [edgePairs, Finset.mem_filter, Finset.mem_product,
          Finset.mem_range]
        exact ⟨⟨hiV, hjV⟩, hij, h⟩
      have : 0 < (edgePairs g).card := Finset.card_pos.mpr ⟨_, hmem⟩
      rw [hwf.ecount] at hE
      omega
  · exact hwf.diag i
  · rcases hwf.binary i j with h | h
    · exact h
    · exfalso
      have hmem : (j, i) ∈ edgePairs g := by
        simp only [edgePairs, Finset.mem_filter, Finset.mem_product,
          Finset.mem_range]
        exact ⟨⟨hjV, hiV⟩, hij, (hwf.symm i j) ▸ h⟩
      have : 0 < (edgePairs g).card := Finset.card_pos.mpr ⟨_, hmem⟩
      rw [hwf.ecount] at hE
      omega

theorem degree_eq_zero_of_row_zero (g : Graph) (u : Nat)
    (h : ∀ j, g.adj u j = 0) : degree g u = 0 := by
  unfold degree
  have main : ∀ (l : List Nat) (c : Int),
      l.foldl (fun d v => d + g.adj u v) c = c := by
    intro l
    induction l with
    | nil => intro c; rfl
    | cons x xs ih =>
        intro c
        rw [List.foldl_cons, h x, add_zero, ih]
  exact main _ 0

/-- C9: on a graph with `E = 0` (and `V ≥ 1`), `connected_among_non_isolated`
answers true vacuously and `euler_circuit` succeeds with the single-element
path `[start]` of length 1, where `start` stays at its initial value 0. -/
theorem claim_C9_euler_edgeless (g : Graph) (hwf : WF g) (hE : g.E = 0)
    (_hV : 1 ≤ g.V) :
    connected_among_non_isolated g = true ∧ euler_circuit g = some [0] := by
  have hadj : ∀ i j, g.adj i j = 0 := WF_E0_adj_zero g hwf hE
  have hdeg : ∀ i, degree g i = 0 := fun i =>
    degree_eq_zero_of_row_zero g i (hadj i)
  have hfind : (List.range g.V).find? (fun i => 0 < degree g i) = none := by
    apply List.find?_eq_none.mpr
    intro x _
    simp [hdeg x]
  have hcam : connected_among_non_isolated g = true := by
    unfold connected_among_non_isolated
    rw [hfind]
  have hev : all_even_degrees g = true := by
    unfold all_even_degrees
    apply List.all_eq_true.mpr
    intro x _
    simp [hdeg x]
  refine ⟨hcam, ?_⟩
  have hstart : eulerStart g = 0 := by
    unfold eulerStart
    rw [hfind]
    rfl
  have hinit : eulerInit g =
      EState.mk (fun i j => g.adj i j) (fun i => degree g i) [0] [] := by
    unfold eulerInit
    rw [hstart]
  have hstep : stepE g.V
      (EState.mk (fun i j => g.adj i j) (fun i => degree g i) [0] []) =
      EState.mk (fun i j => g.adj i j) (fun i => degree g i) [] [0] := by
    have := stepE_cons_none g.V (fun i j => g.adj i j) (fun i => degree g i)
      0 [] [] (by rw [if_neg (by simp [hdeg 0])])
    simpa using this
  have hE' : g.E.toNat = 0 := by rw [hE]; rfl
  unfold euler_circuit
  rw [hcam, hev]
  simp only [not_true_eq_false, if_false]
  rw [hE', hinit]
  show some (eulerGo g.V 2
    (EState.mk (fun i j => g.adj i j) (fun i => degree g i) [0] [])).out =
    some [0]
  unfold eulerGo
  rw [if_neg (by simp)]
  rw [hstep]
  unfold eulerGo
  rw [if_pos rfl]

/-! ### Explicit-mode edge-line parsing (`handle_client_header_and_dispatch`) -/

/-- Error outcomes of the explicit-mode edge-line loop of
`handle_client_header_and_dispatch` (server.c lines 375-388).  Each
constructor corresponds to one `ERR …` + close path. -/
inductive ParseErr where
  | shortInput : ParseErr
  | badWeight : ParseErr
  | badEdge : ParseErr
deriving DecidableEq

/-- One already-tokenized explicit-mode edge line `u v [w]`. -/
abbrev EdgeLine := Int × Int × Option Int

/-- The `for (i = 0; i < E; ++i)` edge-reading loop of
`handle_client_header_and_dispatch` (server.c lines 375-388): read one line
per announced edge; on each line validate the optional weight (positive),
then the endpoints (in range and not a self-loop, else `ERR invalid edge`),
then call `graph_add_edge` ignoring its result (duplicates are dropped
silently).  The second argument counts the edge lines still expected. -/
def processEdgeLines (V : Nat) : Graph → Nat → List EdgeLine → Except ParseErr Graph
  | g, 0, _ => .ok g
  | _, _ + 1, [] => .error .shortInput
  | g, m + 1, (u, v, some tw) :: rest =>
      if tw ≤ 0 then .error .badWeight
      else if u < 0 ∨ (V : Int) ≤ u ∨ v < 0 ∨ (V : Int) ≤ v ∨ u = v then
        .error .badEdge
      else processEdgeLines V (add_edge_w g u v tw).1 m rest
  | g, m + 1, (u, v, none) :: rest =>
      if u < 0 ∨ (V : Int) ≤ u ∨ v < 0 ∨ (V : Int) ≤ v ∨ u = v then
        .error .badEdge
      else processEdgeLines V (add_edge_w g u v 1).1 m rest

/-- C7, counterexample: a self-loop edge line is *not* silently dropped — the
parser emits `ERR invalid edge` (the `u==v` case of server.c line 386) and
aborts.  Concretely, header `… GRAPH 1 2` followed by the line `0 0`. -/
theorem claim_C7_counterexample :
    processEdgeLines 2 (create_graph 2) 1 [(0, 0, none)] =
      Except.error ParseErr.badEdge := by
  rfl

/-- C7, amended: in explicit-mode parsing, a *duplicate* edge line (endpoints
valid and distinct, weight valid, edge already in the graph) is silently
dropped: no error, the line still counts toward the announced `E` (parsing
continues with one fewer expected line), and the graph is unchanged by it.
A *self-loop* line `u == v` (with a valid weight), by contrast, aborts with
`ERR invalid edge`. -/
theorem claim_C7_duplicates_dropped_selfloop_errors (V : Nat) (g : Graph)
    (m : Nat) (rest : List EdgeLine) (u v : Int) (c : Option Int)
    (hu0 : 0 ≤ u) (huV : u < (V : Int)) (hv0 : 0 ≤ v) (hvV : v < (V : Int))
    (hne : u ≠ v) (hw : ∀ tw, c = some tw → 0 < tw)
    (hdup : g.adj u.toNat v.toNat ≠ 0) :
    processEdgeLines V g (m + 1) ((u, v, c) :: rest) =
      processEdgeLines V g m rest ∧
    processEdgeLines V g (m + 1) ((u, u, c) :: rest) =
      Except.error ParseErr.badEdge := by
  have hrange : ¬ (u < 0 ∨ (V : Int) ≤ u ∨ v < 0 ∨ (V : Int) ≤ v ∨ u = v) := by
    push_neg
    exact ⟨hu0, huV, hv0, hvV, hne⟩
  have hadd : ∀ wt : Int, (add_edge_w g u v wt).1 = g := by
    intro wt
    unfold add_edge_w
    repeat' split
    all_goals try rfl
  have hself : (u < 0 ∨ (V : Int) ≤ u ∨ u < 0 ∨ (V : Int) ≤ u ∨ u = u) :=
    Or.inr (Or.inr (Or.inr (Or.inr rfl)))
  match c with
  | none =>
      constructor
      · show (if u < 0 ∨ (V : Int) ≤ u ∨ v < 0 ∨ (V : Int) ≤ v ∨ u = v then
            Except.error ParseErr.badEdge
          else processEdgeLines V (add_edge_w g u v 1).1 m rest) =
          processEdgeLines V g m rest
        rw [if_neg hrange, hadd 1]
      · show (if u < 0 ∨ (V : Int) ≤ u ∨ u < 0 ∨ (V : Int) ≤ u ∨ u = u then
            Except.error ParseErr.badEdge
          else processEdgeLines V (add_edge_w g u u 1).1 m rest) =
          Except.error ParseErr.badEdge
        rw [if_pos hself]
  | some tw =>
      have htw : ¬ tw ≤ 0 := by
        have := hw tw rfl
        omega
      constructor
      · show (if tw ≤ 0 then Except.error ParseErr.badWeight
          else if u < 0 ∨ (V : Int) ≤ u ∨ v < 0 ∨ (V : Int) ≤ v ∨ u = v then
            Except.error ParseErr.badEdge
          else processEdgeLines V (add_edge_w g u v tw).1 m rest) =
          processEdgeLines V g m rest
        rw [if_neg htw, if_neg hrange, hadd tw]
      · show (if tw ≤ 0 then Except.error ParseErr.badWeight
          else if u < 0 ∨ (V : Int) ≤ u ∨ u < 0 ∨ (V : Int) ≤ u ∨ u = u then
            Except.error ParseErr.badEdge
          else processEdgeLines V (add_edge_w g u u tw).1 m rest) =
          Except.error ParseErr.badEdge
        rw [if_neg htw, if_pos hself]

theorem claim_C7_duplicates_dropped_selfloop_errors_witness :
    ((0 : Int) ≤ 0 ∧ (0 : Int) < 2 ∧ (0 : Int) ≤ 1 ∧ (1 : Int) < 2 ∧
      (0 : Int) ≠ 1 ∧
      (buildGraph 2 [(0, 1, 5)]).adj (0 : Int).toNat (1 : Int).toNat ≠ 0) ∧
    (processEdgeLines 2 (buildGraph 2 [(0, 1, 5)]) 1 [(0, 1, some 7)] =
        processEdgeLines 2 (buildGraph 2 [(0, 1, 5)]) 0 [] ∧
      processEdgeLines 2 (buildGraph 2 [(0, 1, 5)]) 1 [(0, 0, some 7)] =
        Except.error ParseErr.badEdge) := by
  refine ⟨⟨by decide, by decide, by decide, by decide, by decide, by decide⟩, ?_⟩
  exact claim_C7_duplicates_dropped_selfloop_errors 2 (buildGraph 2 [(0, 1, 5)])
    0 [] 0 1 (some 7) (by decide) (by decide) (by decide) (by decide)
    (by decide) (by intro tw h; injection h with h'; omega) (by decide)

theorem claim_C10_reject_unchanged_witness :
    ((0 : Int) < 0 ∨ (0 : Int) < 0 ∨ ((create_graph 2).V : Int) ≤ 0 ∨
      ((create_graph 2).V : Int) ≤ 0 ∨ (0 : Int) = (0 : Int) ∨ (5 : Int) ≤ 0 ∨
      (create_graph 2).adj (0 : Int).toNat (0 : Int).toNat ≠ 0) ∧
    ((add_edge_w (create_graph 2) 0 0 5).2 = 0 ∧
     (add_edge_w (create_graph 2) 0 0 5).1.V = (create_graph 2).V ∧
     (add_edge_w (create_graph 2) 0 0 5).1.E = (create_graph 2).E ∧
     (∀ i j, (add_edge_w (create_graph 2) 0 0 5).1.adj i j = (create_graph 2).adj i j) ∧
     (∀ i j, (add_edge_w (create_graph 2) 0 0 5).1.w i j = (create_graph 2).w i j)) :=
  ⟨by norm_num, claim_C10_reject_unchanged (create_graph 2) 0 0 5 (by norm_num)⟩

/-! ### MST (Prim, dense), `mst_weight_prim` from `server.c` lines 870-946 -/

/-- `INT_MAX / 4`, the `INF` sentinel of `mst_weight_prim`. -/
def INF : Int := 2147483647 / 4

/-- The neighbor-scanning inner loop of the iterative DFS inside
`mst_weight_prim`: for `v = 0..V-1` (`c` counts the remaining columns), push
every unvisited neighbor of `u`, marking it visited at push time.  The stack
has its top at the head. -/
def mstScan (g : Graph) (u : Nat) : Nat → Nat → (Nat → Bool) → List Nat →
    (Nat → Bool) × List Nat
  | 0, _, vis, stack => (vis, stack)
  | c + 1, v, vis, stack =>
      if g.adj u v ≠ 0 ∧ vis v = false then
        mstScan g u c (v + 1) (fun i => if i = v then true else vis i)
          (v :: stack)
      else mstScan g u c (v + 1) vis stack

/-- The iterative DFS of `mst_weight_prim` (server.c lines 885-902): pop a
vertex, push its unvisited neighbors.  Fuel `V + 1` suffices because each
vertex is pushed at most once. -/
def mstDfs (g : Graph) : Nat → List Nat → (Nat → Bool) → (Nat → Bool)
  | 0, _, vis => vis
  | _ + 1, [], vis => vis
  | fuel + 1, u :: rest, vis =>
      let p := mstScan g u g.V 0 vis rest
      mstDfs g fuel p.2 p.1

/-- The minimum-key scan of Prim's loop: `u = -1; best = INF; for i: if
(!inMST[i] && key[i] < best) { best = key[i]; u = i; }`. -/
def primFindMin (g : Graph) (key : Nat → Int) (inM : Nat → Bool) : Int × Int :=
  (List.range g.V).foldl
    (fun acc i => if inM i = false ∧ key i < acc.2 then ((i : Int), key i)
                  else acc)
    (-1, INF)

/-- The relaxation loop of Prim: for each `v` not in the MST with
`adj[u][v] ≠ 0` and `w[u][v] < key[v]`, lower `key[v]`. -/
def primRelax (g : Graph) (u : Nat) (inM : Nat → Bool) (key : Nat → Int) :
    Nat → Int :=
  (List.range g.V).foldl
    (fun k v => if inM v = false ∧ g.adj u v ≠ 0 ∧ g.w u v < k v then
        (fun i => if i = v then g.w u v else k i)
      else k)
    key

/-- The `for (it = 0; it < V; ++it)` loop of Prim (server.c lines 920-941):
pick the unincluded vertex with smallest key (`none` models the in-loop
`return -1`), include it, add its key to the total except on the first
iteration, then relax its neighbors. -/
def primLoop (g : Graph) (key : Nat → Int) (inM : Nat → Bool) (total : Int)
    (it : Nat) : Nat → Option Int
  | 0 => some total
  | r + 1 =>
      if (primFindMin g key inM).1 = -1 ∨ (primFindMin g key inM).2 = INF then
        none
      else
        primLoop g
          (primRelax g (primFindMin g key inM).1.toNat
            (fun i => if i = (primFindMin g key inM).1.toNat then true
                      else inM i)
            key)
          (fun i => if i = (primFindMin g key inM).1.toNat then true
                    else inM i)
          (total + (if it = 0 then 0 else (primFindMin g key inM).2))
          (it + 1) r

/-- `mst_weight_prim` from `server.c` (lines 870-946): 0 for `V ≤ 1`; `-1` if
some vertex is isolated or the DFS from 0 misses a vertex; otherwise run the
`O(V²)` Prim loop with `key[0] = 0`, all other keys `INF = INT_MAX/4`. -/
def mst_weight_prim (g : Graph) : Int :=
  if g.V = 0 then 0
  else if g.V = 1 then 0
  else if (List.range g.V).any (fun i => degree g i = 0) then -1
  else
    if ¬ (List.range g.V).all
        (fun i => mstDfs g (g.V + 1) [0] (fun j => j = 0) i) then -1
    else
      match primLoop g (fun i => if i = 0 then 0 else INF) (fun _ => false)
          0 0 g.V with
      | none => -1
      | some t => t

/-- Spec-side notion of spanning connectivity for an edge subset `T`:
the set of vertices reachable from 0 along edges of `T`, by `V`-fold
expansion. -/
def spanStep (V : Nat) (T : List (Nat × Nat)) (S : Finset Nat) : Finset Nat :=
  S ∪ ((Finset.range V).filter
    (fun v => ∃ p ∈ T, (p.1 ∈ S ∧ p.2 = v) ∨ (p.2 ∈ S ∧ p.1 = v)))

/-- Vertices reachable from 0 using only the edges in `T`. -/
def spanReach (V : Nat) (T : List (Nat × Nat)) : Finset Nat :=
  (spanStep V T)^[V] {0}

/-- `T` connects all of `0..V-1`. -/
def connectsAll (V : Nat) (T : List (Nat × Nat)) : Bool :=
  decide (Finset.range V ⊆ spanReach V T)

/-- The above-diagonal edge list of a graph, as concrete pairs. -/
def edgeList (g : Graph) : List (Nat × Nat) :=
  (List.range g.V).flatMap (fun i =>
    (List.range g.V).filterMap (fun j =>
      if i < j ∧ g.adj i j = 1 then some (i, j) else none))

/-- Total weight of an edge subset. -/
def subsetWeight (g : Graph) (T : List (Nat × Nat)) : Int :=
  (T.map (fun p => g.w p.1 p.2)).sum

/-- Spec-side MST weight (the value an independent Kruskal-style computation
yields): the minimum total weight over all edge subsets that connect every
vertex to vertex 0.  For positive edge weights this minimum is attained by a
spanning tree, so it equals the MST weight; `none` iff the graph is not fully
connected. -/
def mstMinWeight (g : Graph) : Option Int :=
  (((edgeList g).sublists.filter (fun T => connectsAll g.V T)).map
    (subsetWeight g)).min?

/-- C2, code bug: on the fully connected two-vertex graph whose single edge
has weight 600000000 ≥ `INT_MAX/4`, the relaxation `w < key[v]` never fires
(both sides saturate at the `INF` sentinel), so `mst_weight_prim` returns the
"disconnected" sentinel `-1` even though the graph is fully connected with
MST weight 600000000 — contradicting the contract documented in `graph.h`
("returns total MST weight, or -1 if the graph is not fully connected") and
the in-code comment "disconnected (shouldn't happen after check)". -/
theorem claim_C2_prim_inf_sentinel_bug :
    mst_weight_prim (buildGraph 2 [(0, 1, 600000000)]) = -1 ∧
    connectsAll 2 (edgeList (buildGraph 2 [(0, 1, 600000000)])) = true ∧
    mstMinWeight (buildGraph 2 [(0, 1, 600000000)]) = some 600000000 := by
  refine ⟨by decide, by decide, by decide⟩

theorem claim_C9_euler_edgeless_witness :
    WF (create_graph 1) ∧ (create_graph 1).E = 0 ∧ 1 ≤ (create_graph 1).V ∧
    (connected_among_non_isolated (create_graph 1) = true ∧
      euler_circuit (create_graph 1) = some [0]) :=
  ⟨create_graph_WF 1, rfl, by decide,
    claim_C9_euler_edgeless (create_graph 1) (create_graph_WF 1) rfl (by decide)⟩

/-! ### Maximum clique (Bron–Kerbosch with Tomita pivot), server.c 948-1136.
The C bitsets over vertex indices (width `V`) are modelled as `Finset Nat`;
a word-ascending/bit-ascending scan of a bitset is the ascending scan of the
index space `0..V-1` keeping the members. -/

/-- Ascending iteration over a width-`V` bitset: the C pattern
`for word, for bit: v = 64*word+bit, if v < nbits …` yields exactly the
members of `S` below `V` in ascending order. -/
def bsList (V : Nat) (S : Finset Nat) : List Nat :=
  (List.range V).filter (fun v => v ∈ S)

/-- `nb_build` (server.c 1002-1011): the neighbor mask `N[v]`, with bit `u`
set iff `adj[v][u] ≠ 0`. -/
def nbN (g : Graph) (v : Nat) : Finset Nat :=
  (Finset.range g.V).filter (fun u => g.adj v u ≠ 0)

/-- `choose_pivot` (server.c 1019-1043): scan `P ∪ X` in ascending order and
keep the first vertex maximizing `|P ∩ N(u)|` (strict improvement over
`best_deg`, which starts at -1); returns -1 iff `P ∪ X` is empty. -/
def choose_pivot (g : Graph) (P X : Finset Nat) : Int :=
  ((bsList g.V (P ∪ X)).foldl
    (fun acc u =>
      if acc.2 < ((P ∩ nbN g u).card : Int) then
        ((u : Int), ((P ∩ nbN g u).card : Int))
      else acc)
    (-1, -1)).1

/-- The `for each v in P \ N(u)` loop of `BK_recurse` (server.c 1068-1095):
branch on `v` (through `rec`, the one-level-deeper `BK_recurse`), then move
`v` from `P` to `X` and continue with the next snapshot element. -/
def BKLoopWith (g : Graph)
    (rec : Finset Nat → Finset Nat → Finset Nat → Nat × Finset Nat → Nat × Finset Nat) :
    Finset Nat → List Nat → Finset Nat → Finset Nat → Nat × Finset Nat →
      Nat × Finset Nat
  | _, [], _, _, best => best
  | R, v :: vs, P, X, best =>
      BKLoopWith g rec R vs (P.erase v) (insert v X)
        (rec (insert v R) (P ∩ nbN g v) (X ∩ nbN g v) best)

/-- `BK_recurse` (server.c 1052-1097): Bron–Kerbosch with Tomita pivot.  The
best-so-far `(best_size, best_R)` is threaded through; the base case records
`R` only on strict improvement.  `fuel` bounds the recursion depth (each
recursive call strictly shrinks `P`, so `V + 1` suffices from the top). -/
def BK_recurse (g : Graph) : Nat → Finset Nat → Finset Nat → Finset Nat →
    Nat × Finset Nat → Nat × Finset Nat
  | 0, _, _, _, best => best
  | fuel + 1, R, P, X, best =>
      if P = ∅ ∧ X = ∅ then
        (if best.1 < R.card then (R.card, R) else best)
      else
        BKLoopWith g (BK_recurse g fuel) R
          (bsList g.V (if 0 ≤ choose_pivot g P X then
              P \ nbN g (choose_pivot g P X).toNat
            else P))
          P X best

/-- `max_clique` (server.c 1099-1136): run `BK_recurse` with `R = X = ∅`,
`P = {0..V-1}`, then marshal `(best_size, best_R as an ascending list)`. -/
def max_clique (g : Graph) : Nat × List Nat :=
  ((BK_recurse g (g.V + 1) ∅ (Finset.range g.V) ∅ (0, ∅)).1,
   bsList g.V (BK_recurse g (g.V + 1) ∅ (Finset.range g.V) ∅ (0, ∅)).2)

/-- One line of the MAXCLIQUE response body built by `handle_maxclq`
(server.c 258-272). -/
inductive RespLine where
  | cliqueSize (k : Int) : RespLine
  | vertices (vs : List Nat) : RespLine
deriving DecidableEq

/-- The MAXCLIQUE response body of `handle_maxclq`: always the
`Max clique size = k` line; the `Vertices:` line exactly when `got > 0`. -/
def maxclqResponse (g : Graph) : List RespLine :=
  [RespLine.cliqueSize ((max_clique g).1 : Int)] ++
    (if 0 < (max_clique g).1 then [RespLine.vertices (max_clique g).2] else [])

theorem BKLoop_nil (g : Graph)
    (rec : Finset Nat → Finset Nat → Finset Nat → Nat × Finset Nat → Nat × Finset Nat)
    (R P X : Finset Nat) (best : Nat × Finset Nat) :
    BKLoopWith g rec R [] P X best = best := rfl

theorem BKLoop_cons (g : Graph)
    (rec : Finset Nat → Finset Nat → Finset Nat → Nat × Finset Nat → Nat × Finset Nat)
    (R P X : Finset Nat) (v : Nat) (vs : List Nat) (best : Nat × Finset Nat) :
    BKLoopWith g rec R (v :: vs) P X best =
      BKLoopWith g rec R vs (P.erase v) (insert v X)
        (rec (insert v R) (P ∩ nbN g v) (X ∩ nbN g v) best) := rfl

theorem BK_succ (g : Graph) (fuel : Nat) (R P X : Finset Nat)
    (best : Nat × Finset Nat) :
    BK_recurse g (fuel + 1) R P X best =
      if P = ∅ ∧ X = ∅ then
        (if best.1 < R.card then (R.card, R) else best)
      else
        BKLoopWith g (BK_recurse g fuel) R
          (bsList g.V (if 0 ≤ choose_pivot g P X then
              P \ nbN g (choose_pivot g P X).toNat
            else P))
          P X best := rfl

/-- C8, counterexample: on the edgeless graph with `V = 1` (graphs reaching
`max_clique` always have `V ≥ 1`), `max_clique` returns `k = 1` (each
singleton `{v}` reaches the `P = X = ∅` base case and is recorded), not
`k = 0`, and the response does carry a `Vertices: 0` line. -/
theorem claim_C8_counterexample :
    (max_clique (create_graph 1)).1 ≠ 0 ∧
    maxclqResponse (create_graph 1) =
      [RespLine.cliqueSize 1, RespLine.vertices [0]] := by
  decide

theorem nbN_empty_of_edgeless (g : Graph) (hadj : ∀ i j, g.adj i j = 0)
    (v : Nat) : nbN g v = ∅ := by
  unfold nbN
  apply Finset.filter_false_of_mem
  intro u _
  simp [hadj v u]

theorem BKLoop_edgeless_stable (g : Graph) (f : Nat)
    (hadj : ∀ i j, g.adj i j = 0) :
    ∀ (vs : List Nat) (P X : Finset Nat),
      BKLoopWith g (BK_recurse g (f + 1)) ∅ vs P X (1, {0}) = (1, {0}) := by
  intro vs
  induction vs with
  | nil => intro P X; rfl
  | cons v rest ih =>
      intro P X
      rw [BKLoop_cons]
      rw [nbN_empty_of_edgeless g hadj v, Finset.inter_empty, Finset.inter_empty]
      rw [BK_succ, if_pos ⟨rfl, rfl⟩]
      rw [if_neg (by simp)]
      exact ih (P.erase v) (insert v X)

theorem bsList_range (V : Nat) : bsList V (Finset.range V) = List.range V := by
  unfold bsList
  apply List.filter_eq_self.mpr
  intro x hx
  simp only [List.mem_range] at hx
  simp [Finset.mem_range, hx]

theorem bsList_singleton_zero (V : Nat) (hV : 1 ≤ V) :
    bsList V ({0} : Finset Nat) = [0] := by
  obtain ⟨n, rfl⟩ : ∃ n, V = n + 1 := ⟨V - 1, by omega⟩
  unfold bsList
  rw [List.range_succ_eq_map]
  rw [List.filter_cons_of_pos (by simp)]
  have htail : List.filter (fun v => decide (v ∈ ({0} : Finset Nat)))
      ((List.range n).map Nat.succ) = [] := by
    apply List.filter_eq_nil_iff.mpr
    intro a ha
    obtain ⟨b, -, rfl⟩ := List.mem_map.mp ha
    simp
  rw [htail]

/-- C8, amended: on every edgeless graph (`E = 0`) with `V ≥ 1` the
MAXCLIQUE computation returns `k = 1` with the single member `0` (the
lowest-indexed vertex), and the response does contain a `Vertices:` line,
namely `Vertices: 0`. -/
theorem claim_C8_empty_graph_k1 (g : Graph) (hwf : WF g) (hE : g.E = 0)
    (hV : 1 ≤ g.V) :
    max_clique g = (1, [0]) ∧
    maxclqResponse g =
      [RespLine.cliqueSize 1, RespLine.vertices [0]] := by
  have hadj : ∀ i j, g.adj i j = 0 := WF_E0_adj_zero g hwf hE
  obtain ⟨n, hn⟩ : ∃ n, g.V = n + 1 := ⟨g.V - 1, by omega⟩
  have hcard0 : ∀ (P : Finset Nat) (u : Nat),
      ((P ∩ nbN g u).card : Int) = 0 := by
    intro P u
    rw [nbN_empty_of_edgeless g hadj u, Finset.inter_empty]
    rfl
  have hpivot : choose_pivot g (Finset.range g.V) ∅ = 0 := by
    unfold choose_pivot
    have hlist : List.range g.V = 0 :: (List.range n).map Nat.succ := by
      rw [hn, List.range_succ_eq_map]
    rw [Finset.union_empty, bsList_range, hlist, List.foldl_cons, hcard0,
      if_pos (by norm_num)]
    have stable : ∀ (l : List Nat) (a : Int),
        ((l.foldl (fun acc u =>
          if acc.2 < ((Finset.range g.V ∩ nbN g u).card : Int) then
            ((u : Int), ((Finset.range g.V ∩ nbN g u).card : Int))
          else acc) (a, (0 : Int)))).1 = a := by
      intro l
      induction l with
      | nil => intro a; rfl
      | cons x xs ih =>
          intro a
          rw [List.foldl_cons, hcard0, if_neg (by norm_num)]
          exact ih a
    rw [stable ((List.range n).map Nat.succ) (((0 : Nat) : Int))]
    norm_num
  have hfuel : g.V + 1 = (n + 1) + 1 := by omega
  have hmain : BK_recurse g (g.V + 1) ∅ (Finset.range g.V) ∅ (0, ∅) =
      (1, {0}) := by
    rw [hfuel, BK_succ]
    rw [if_neg (by
      intro hcon
      have := hcon.1
      rw [hn] at this
      exact (Finset.nonempty_range_succ).ne_empty this)]
    rw [hpivot, if_pos (by norm_num)]
    have htonat : ((0 : Int)).toNat = 0 := rfl
    rw [htonat, nbN_empty_of_edgeless g hadj 0, Finset.sdiff_empty,
      bsList_range, hn, List.range_succ_eq_map, BKLoop_cons]
    rw [nbN_empty_of_edgeless g hadj 0, Finset.inter_empty, Finset.inter_empty]
    have hfirst : BK_recurse g (n + 1) (insert 0 ∅) ∅ ∅ (0, ∅) = (1, {0}) := by
      rw [BK_succ, if_pos ⟨rfl, rfl⟩, if_pos (by simp)]
      simp
    rw [hfirst]
    exact BKLoop_edgeless_stable g n hadj _ _ _
  refine ⟨?_, ?_⟩
  · unfold max_clique
    rw [hmain]
    rw [bsList_singleton_zero g.V hV]
  · unfold maxclqResponse max_clique
    rw [hmain]
    rw [bsList_singleton_zero g.V hV]
    rfl

theorem claim_C8_empty_graph_k1_witness :
    WF (create_graph 2) ∧ (create_graph 2).E = 0 ∧ 1 ≤ (create_graph 2).V ∧
    (max_clique (create_graph 2) = (1, [0]) ∧
     maxclqResponse (create_graph 2) =
       [RespLine.cliqueSize 1, RespLine.vertices [0]]) :=
  ⟨create_graph_WF 2, rfl, by decide,
    claim_C8_empty_graph_k1 (create_graph 2) (create_graph_WF 2) rfl (by decide)⟩

/-! ### Count all cliques of size ≥ 3 (server.c 1141-1199) -/

/-- The `for each v in (snapshot of P)` loop of `BK_count_all`
(server.c 1150-1177): remove `v` from `P` *before* recursing (through `rec`)
with `R ∪ {v}` and `P ∩ N(v)`, then continue the iteration on the mutated
`P`. -/
def BKCountLoopWith (g : Graph)
    (rec : Finset Nat → Nat → Finset Nat → Int → Int) :
    Finset Nat → Nat → List Nat → Finset Nat → Int → Int
  | _, _, [], _, cnt => cnt
  | R, sizeR, v :: vs, P, cnt =>
      BKCountLoopWith g rec R sizeR vs (P.erase v)
        (rec (insert v R) (sizeR + 1) ((P.erase v) ∩ nbN g v) cnt)

/-- `BK_count_all` (server.c 1141-1179): plain Bron–Kerbosch without
pivoting; every recursion node with `|R| ≥ 3` bumps the counter once.  The
iteration runs over an ascending snapshot of `P` taken at entry, while `P`
itself is mutated. -/
def BK_count_all (g : Graph) : Nat → Finset Nat → Nat → Finset Nat → Int → Int
  | 0, _, _, _, cnt => cnt
  | fuel + 1, R, sizeR, P, cnt =>
      BKCountLoopWith g (BK_count_all g fuel) R sizeR (bsList g.V P) P
        (if 3 ≤ sizeR then cnt + 1 else cnt)

/-- `count_cliques_3plus` (server.c 1181-1199): 0 for `V ≤ 2`, otherwise run
`BK_count_all` from `R = ∅`, `P = {0..V-1}`. -/
def count_cliques_3plus (g : Graph) : Int :=
  if g.V ≤ 2 then 0
  else BK_count_all g (g.V + 1) ∅ 0 (Finset.range g.V) 0

/-- A vertex subset is a clique: any two distinct members are adjacent. -/
def IsCliqueSet (g : Graph) (S : Finset Nat) : Prop :=
  ∀ a ∈ S, ∀ b ∈ S, a ≠ b → g.adj a b ≠ 0

instance (g : Graph) (S : Finset Nat) : Decidable (IsCliqueSet g S) := by
  unfold IsCliqueSet
  infer_instance

/-- The extensions counted by one `BK_count_all` node: subsets `S` of the
candidate set `P` (including `∅`) for which `R ∪ S` is a clique of total size
at least 3. -/
def cliqueExts (g : Graph) (R P : Finset Nat) : Finset (Finset Nat) :=
  P.powerset.filter (fun S => IsCliqueSet g (R ∪ S) ∧ 3 ≤ R.card + S.card)

/-- The nonempty extensions (those handled by the loop rather than by the
entry increment). -/
def cliqueExtsNE (g : Graph) (R P : Finset Nat) : Finset (Finset Nat) :=
  (cliqueExts g R P).filter (fun S => S ≠ ∅)

/-- Spec-side count: the number of vertex subsets of size ≥ 3 whose induced
subgraph is complete. -/
def cliqueCount3 (g : Graph) : Nat :=
  ((Finset.range g.V).powerset.filter
    (fun S => 3 ≤ S.card ∧ IsCliqueSet g S)).card

theorem BKCountLoop_nil (g : Graph)
    (rec : Finset Nat → Nat → Finset Nat → Int → Int)
    (R : Finset Nat) (sizeR : Nat) (P : Finset Nat) (cnt : Int) :
    BKCountLoopWith g rec R sizeR [] P cnt = cnt := rfl

theorem BKCountLoop_cons (g : Graph)
    (rec : Finset Nat → Nat → Finset Nat → Int → Int)
    (R : Finset Nat) (sizeR : Nat) (v : Nat) (vs : List Nat) (P : Finset Nat)
    (cnt : Int) :
    BKCountLoopWith g rec R sizeR (v :: vs) P cnt =
      BKCountLoopWith g rec R sizeR vs (P.erase v)
        (rec (insert v R) (sizeR + 1) ((P.erase v) ∩ nbN g v) cnt) := rfl

theorem BKCount_succ (g : Graph) (fuel : Nat) (R : Finset Nat) (sizeR : Nat)
    (P : Finset Nat) (cnt : Int) :
    BK_count_all g (fuel + 1) R sizeR P cnt =
      BKCountLoopWith g (BK_count_all g fuel) R sizeR (bsList g.V P) P
        (if 3 ≤ sizeR then cnt + 1 else cnt) := rfl

theorem bsList_mem (V : Nat) (S : Finset Nat) (x : Nat) :
    x ∈ bsList V S ↔ x < V ∧ x ∈ S := by
  unfold bsList
  simp [List.mem_filter, List.mem_range]

theorem bsList_nodup (V : Nat) (S : Finset Nat) : (bsList V S).Nodup :=
  (List.nodup_range V).filter _

theorem bsList_nil_iff (V : Nat) (S : Finset Nat) (hS : S ⊆ Finset.range V) :
    bsList V S = [] ↔ S = ∅ := by
  constructor
  · intro h
    ext x
    simp only [Finset.not_mem_empty, iff_false]
    intro hx
    have hxV : x < V := Finset.mem_range.mp (hS hx)
    have : x ∈ bsList V S := (bsList_mem V S x).mpr ⟨hxV, hx⟩
    rw [h] at this
    exact absurd this (List.not_mem_nil x)
  · intro h
    subst h
    unfold bsList
    apply List.filter_eq_nil_iff.mpr
    intro a _
    simp

theorem bsList_erase (V : Nat) (S : Finset Nat) (v : Nat) (rest : List Nat)
    (h : bsList V S = v :: rest) : bsList V (S.erase v) = rest := by
  have hnd : (bsList V S).Nodup := bsList_nodup V S
  rw [h] at hnd
  have hvrest : v ∉ rest := (List.nodup_cons.mp hnd).1
  have key : bsList V (S.erase v) = (bsList V S).filter (fun x => x ≠ v) := by
    unfold bsList
    rw [List.filter_filter]
    apply List.filter_congr
    intro x _
    simp [Finset.mem_erase]
  rw [key, h, List.filter_cons_of_neg (by simp)]
  apply List.filter_eq_self.mpr
  intro a ha
  simp only [decide_eq_true_eq]
  intro hav
  exact hvrest (hav ▸ ha)

theorem mem_cliqueExts (g : Graph) (R P S : Finset Nat) :
    S ∈ cliqueExts g R P ↔
      S ⊆ P ∧ IsCliqueSet g (R ∪ S) ∧ 3 ≤ R.card + S.card := by
  unfold cliqueExts
  simp [Finset.mem_filter, Finset.mem_powerset, and_assoc]

theorem mem_cliqueExtsNE (g : Graph) (R P S : Finset Nat) :
    S ∈ cliqueExtsNE g R P ↔
      S ⊆ P ∧ IsCliqueSet g (R ∪ S) ∧ 3 ≤ R.card + S.card ∧ S ≠ ∅ := by
  unfold cliqueExtsNE
  rw [Finset.mem_filter, mem_cliqueExts]
  tauto

/-- Partition of the nonempty clique extensions of `(R, P)` by whether they
contain `v`: those containing `v` correspond to the (possibly empty)
extensions of `(R ∪ {v}, (P \ {v}) ∩ N(v))`, the rest are the nonempty
extensions of `(R, P \ {v})`. -/
theorem cliqueExtsNE_split (g : Graph) (R P : Finset Nat) (v : Nat)
    (hv : v ∈ P) (hPrange : P ⊆ Finset.range g.V) (hvR : v ∉ R) :
    (cliqueExtsNE g R P).card =
      (cliqueExts g (insert v R) ((P.erase v) ∩ nbN g v)).card +
      (cliqueExtsNE g R (P.erase v)).card := by
  have hsplit := Finset.filter_card_add_filter_neg_card_eq_card
    (s := cliqueExtsNE g R P) (fun S => v ∈ S)
  rw [← hsplit]
  congr 1
  · -- sets containing v ≃ extensions of (insert v R, P' ∩ N v)
    apply Finset.card_nbij' (fun S => S.erase v) (fun S' => insert v S')
    · intro S hS
      rw [Finset.mem_filter, mem_cliqueExtsNE] at hS
      obtain ⟨⟨hSP, hclq, hcard, hne⟩, hvS⟩ := hS
      rw [mem_cliqueExts]
      have hveq : insert v R ∪ S.erase v = R ∪ S := by
        ext x
        by_cases hxv : x = v
        · subst hxv
          simp [hvS]
        · simp only [Finset.mem_union, Finset.mem_insert, Finset.mem_erase]
          tauto
      refine ⟨?_, ?_, ?_⟩
      · intro x hx
        rw [Finset.mem_erase] at hx
        obtain ⟨hxv, hxS⟩ := hx
        rw [Finset.mem_inter, Finset.mem_erase]
        refine ⟨⟨hxv, hSP hxS⟩, ?_⟩
        unfold nbN
        rw [Finset.mem_filter]
        refine ⟨hPrange (hSP hxS), ?_⟩
        exact hclq v (Finset.mem_union_right R hvS) x
          (Finset.mem_union_right R hxS) (Ne.symm hxv)
      · rw [hveq]
        exact hclq
      · have hvScard : S.card = (S.erase v).card + 1 := by
          rw [Finset.card_erase_of_mem hvS]
          have : 1 ≤ S.card := Finset.card_pos.mpr ⟨v, hvS⟩
          omega
        rw [Finset.card_insert_of_not_mem hvR]
        omega
    · intro S' hS'
      rw [mem_cliqueExts] at hS'
      obtain ⟨hS'P, hclq, hcard⟩ := hS'
      have hvS' : v ∉ S' := by
        intro hcon
        have := hS'P hcon
        rw [Finset.mem_inter, Finset.mem_erase] at this
        exact this.1.1 rfl
      rw [Finset.mem_filter, mem_cliqueExtsNE]
      have hveq : R ∪ insert v S' = insert v R ∪ S' := by
        ext x
        simp only [Finset.mem_union, Finset.mem_insert]
        tauto
      refine ⟨⟨?_, ?_, ?_, ?_⟩, Finset.mem_insert_self v S'⟩
      · intro x hx
        rw [Finset.mem_insert] at hx
        rcases hx with rfl | hx
        · exact hv
        · have := hS'P hx
          rw [Finset.mem_inter, Finset.mem_erase] at this
          exact this.1.2
      · rw [hveq]
        exact hclq
      · rw [Finset.card_insert_of_not_mem hvS']
        rw [Finset.card_insert_of_not_mem hvR] at hcard
        omega
      · exact Finset.insert_ne_empty v S'
    · intro S hS
      rw [Finset.mem_filter] at hS
      exact Finset.insert_erase hS.2
    · intro S' hS'
      rw [mem_cliqueExts] at hS'
      have hvS' : v ∉ S' := by
        intro hcon
        have := hS'.1 hcon
        rw [Finset.mem_inter, Finset.mem_erase] at this
        exact this.1.1 rfl
      exact Finset.erase_insert hvS'
  · -- sets avoiding v = nonempty extensions of (R, P.erase v)
    congr 1
    ext S
    rw [Finset.mem_filter, mem_cliqueExtsNE, mem_cliqueExtsNE,
      Finset.subset_erase]
    tauto

theorem cliqueExtsNE_empty (g : Graph) (R : Finset Nat) :
    cliqueExtsNE g R ∅ = ∅ := by
  ext S
  rw [mem_cliqueExtsNE]
  simp only [Finset.not_mem_empty, iff_false]
  rintro ⟨hsub, -, -, hne⟩
  exact hne (Finset.subset_empty.mp hsub)

theorem cliqueExts_card_split_empty (g : Graph) (R P : Finset Nat)
    (hRclq : IsCliqueSet g R) :
    (cliqueExts g R P).card =
      (cliqueExtsNE g R P).card + (if 3 ≤ R.card then 1 else 0) := by
  have hsplit := Finset.filter_card_add_filter_neg_card_eq_card
    (s := cliqueExts g R P) (fun S => S ≠ ∅)
  have hNE : (cliqueExts g R P).filter (fun S => S ≠ ∅) = cliqueExtsNE g R P :=
    rfl
  have hE : (cliqueExts g R P).filter (fun S => ¬ S ≠ ∅) =
      (if 3 ≤ R.card then ({∅} : Finset (Finset Nat)) else ∅) := by
    ext S
    rw [Finset.mem_filter, mem_cliqueExts]
    constructor
    · rintro ⟨⟨hsub, hclq, hcard⟩, hSe⟩
      rw [not_not] at hSe
      subst hSe
      rw [Finset.card_empty, Nat.add_zero] at hcard
      rw [if_pos hcard]
      exact Finset.mem_singleton_self ∅
    · intro hS
      by_cases hR3 : 3 ≤ R.card
      · rw [if_pos hR3, Finset.mem_singleton] at hS
        subst hS
        refine ⟨⟨Finset.empty_subset P, ?_, ?_⟩, by simp⟩
        · rw [Finset.union_empty]
          exact hRclq
        · simpa using hR3
      · rw [if_neg hR3] at hS
        exact absurd hS (Finset.not_mem_empty S)
  rw [← hsplit, hNE, hE]
  split
  · simp
  · simp

/-- Main counting invariant of `BK_count_all`: under the data-model and
Bron–Kerbosch invariants, a node `(R, P)` adds exactly the number of subsets
`S ⊆ P` (including `∅`) with `R ∪ S` a clique of total size ≥ 3. -/
theorem BKCount_correct (g : Graph) (hwf : WF g) :
    ∀ (f : Nat) (R P : Finset Nat) (cnt : Int),
      P ⊆ Finset.range g.V → IsCliqueSet g R →
      (∀ p ∈ P, ∀ r ∈ R, g.adj p r ≠ 0) →
      P.card ≤ f →
      BK_count_all g (f + 1) R R.card P cnt =
        cnt + ((cliqueExts g R P).card : Int) := by
  intro f
  induction f with
  | zero =>
      intro R P cnt hPr hRclq hadjPR hcard
      have hP : P = ∅ := Finset.card_eq_zero.mp (Nat.le_zero.mp hcard)
      subst hP
      rw [BKCount_succ, (bsList_nil_iff g.V ∅ (by simp)).mpr rfl,
        BKCountLoop_nil]
      rw [cliqueExts_card_split_empty g R ∅ hRclq, cliqueExtsNE_empty]
      split
      · simp
      · simp
  | succ f ih =>
      intro R P cnt hPr hRclq hadjPR hcard
      rw [BKCount_succ]
      have hloop : ∀ (vs : List Nat) (P' : Finset Nat) (cnt' : Int),
          vs = bsList g.V P' → P' ⊆ Finset.range g.V →
          (∀ p ∈ P', ∀ r ∈ R, g.adj p r ≠ 0) →
          P'.card ≤ f + 1 →
          BKCountLoopWith g (BK_count_all g (f + 1)) R R.card vs P' cnt' =
            cnt' + ((cliqueExtsNE g R P').card : Int) := by
        intro vs
        induction vs with
        | nil =>
            intro P' cnt' hvs hP'r _ _
            have hP' : P' = ∅ :=
              (bsList_nil_iff g.V P' hP'r).mp hvs.symm
            subst hP'
            rw [BKCountLoop_nil, cliqueExtsNE_empty]
            simp
        | cons v rest ihl =>
            intro P' cnt' hvs hP'r hadj' hcard'
            have hvmem : v ∈ P' ∧ v < g.V := by
              have : v ∈ bsList g.V P' := by
                rw [← hvs]
                exact List.mem_cons_self v rest
              have h := (bsList_mem g.V P' v).mp this
              exact ⟨h.2, h.1⟩
            have hvR : v ∉ R := by
              intro hcon
              exact hadj' v hvmem.1 v hcon (hwf.diag v)
            rw [BKCountLoop_cons]
            have hchild : BK_count_all g (f + 1) (insert v R) (R.card + 1)
                ((P'.erase v) ∩ nbN g v) cnt' =
                cnt' + ((cliqueExts g (insert v R)
                  ((P'.erase v) ∩ nbN g v)).card : Int) := by
              have hcardR : (insert v R).card = R.card + 1 :=
                Finset.card_insert_of_not_mem hvR
              have h := ih (insert v R) ((P'.erase v) ∩ nbN g v) cnt'
                (fun x hx => by
                  rw [Finset.mem_inter, Finset.mem_erase] at hx
                  exact hP'r hx.1.2)
                (by
                  intro a ha b hb hab
                  rw [Finset.mem_insert] at ha hb
                  rcases ha with rfl | ha
                  · rcases hb with rfl | hb
                    · exact absurd rfl hab
                    · exact hadj' a hvmem.1 b hb
                  · rcases hb with rfl | hb
                    · exact fun hcon =>
                        hadj' b hvmem.1 a ha ((hwf.symm b a).trans hcon)
                    · exact hRclq a ha b hb hab)
                (by
                  intro p hp r hr
                  rw [Finset.mem_inter, Finset.mem_erase] at hp
                  rw [Finset.mem_insert] at hr
                  rcases hr with rfl | hr
                  · have := hp.2
                    unfold nbN at this
                    rw [Finset.mem_filter] at this
                    rw [hwf.symm]
                    exact this.2
                  · exact hadj' p hp.1.2 r hr)
                (by
                  have h1 : (P'.erase v) ∩ nbN g v ⊆ P'.erase v :=
                    Finset.inter_subset_left
                  have h2 := Finset.card_le_card h1
                  have h3 : (P'.erase v).card = P'.card - 1 :=
                    Finset.card_erase_of_mem hvmem.1
                  have h4 : 1 ≤ P'.card := Finset.card_pos.mpr ⟨v, hvmem.1⟩
                  omega)
              rw [hcardR] at h
              exact h
            rw [hchild]
            have hrest := ihl (P'.erase v) (cnt' +
                ((cliqueExts g (insert v R) ((P'.erase v) ∩ nbN g v)).card : Int))
              (bsList_erase g.V P' v rest hvs.symm).symm
              (fun x hx => hP'r (Finset.erase_subset v P' hx))
              (fun p hp r hr => hadj' p (Finset.erase_subset v P' hp) r hr)
              (by
                have h3 : (P'.erase v).card = P'.card - 1 :=
                  Finset.card_erase_of_mem hvmem.1
                omega)
            rw [hrest]
            rw [cliqueExtsNE_split g R P' v hvmem.1 hP'r hvR]
            push_cast
            ring
      rw [hloop (bsList g.V P) P _ rfl hPr hadjPR (by omega)]
      rw [cliqueExts_card_split_empty g R P hRclq]
      split
      · push_cast
        ring
      · push_cast
        ring

/-- C5: `count_cliques_3plus g` equals the number of vertex subsets of size
≥ 3 whose induced subgraph is complete (all such cliques, not only maximal
ones), and it returns 0 whenever `V ≤ 2`. -/
theorem claim_C5_count_cliques (g : Graph) (hwf : WF g) :
    count_cliques_3plus g = (cliqueCount3 g : Int) ∧
    (g.V ≤ 2 → count_cliques_3plus g = 0) := by
  have hspec0 : g.V ≤ 2 → cliqueCount3 g = 0 := by
    intro hV
    unfold cliqueCount3
    rw [Finset.card_eq_zero]
    ext S
    rw [Finset.mem_filter, Finset.mem_powerset]
    simp only [Finset.not_mem_empty, iff_false]
    rintro ⟨hsub, hcard, -⟩
    have := Finset.card_le_card hsub
    rw [Finset.card_range] at this
    omega
  have hmain : count_cliques_3plus g = (cliqueCount3 g : Int) := by
    unfold count_cliques_3plus
    by_cases hV : g.V ≤ 2
    · rw [if_pos hV, hspec0 hV]
      rfl
    · rw [if_neg hV]
      have hempty_card : (∅ : Finset Nat).card = 0 := rfl
      have h := BKCount_correct g hwf g.V ∅ (Finset.range g.V) 0
        (Finset.Subset.refl _)
        (by intro a ha; exact absurd ha (Finset.not_mem_empty a))
        (by intro p _ r hr; exact absurd hr (Finset.not_mem_empty r))
        (by rw [Finset.card_range])
      rw [hempty_card] at h
      rw [h]
      have hsets : cliqueExts g ∅ (Finset.range g.V) =
          (Finset.range g.V).powerset.filter
            (fun S => 3 ≤ S.card ∧ IsCliqueSet g S) := by
        ext S
        rw [mem_cliqueExts, Finset.mem_filter, Finset.mem_powerset,
          Finset.empty_union]
        constructor
        · rintro ⟨hsub, hclq, hcard⟩
          exact ⟨hsub, by simpa using hcard, hclq⟩
        · rintro ⟨hsub, hcard, hclq⟩
          exact ⟨hsub, hclq, by simpa using hcard⟩
      rw [hsets]
      unfold cliqueCount3
      simp
  exact ⟨hmain, fun hV => by rw [hmain, hspec0 hV]; rfl⟩

theorem claim_C5_count_cliques_witness :
    WF (buildGraph 4 [(0, 1, 1), (0, 2, 1), (1, 2, 1), (1, 3, 1)]) ∧
    (count_cliques_3plus (buildGraph 4 [(0, 1, 1), (0, 2, 1), (1, 2, 1), (1, 3, 1)]) =
      (cliqueCount3 (buildGraph 4 [(0, 1, 1), (0, 2, 1), (1, 2, 1), (1, 3, 1)]) : Int) ∧
     ((buildGraph 4 [(0, 1, 1), (0, 2, 1), (1, 2, 1), (1, 3, 1)]).V ≤ 2 →
      count_cliques_3plus (buildGraph 4 [(0, 1, 1), (0, 2, 1), (1, 2, 1), (1, 3, 1)]) = 0)) :=
  ⟨buildGraph_WF 4 [(0, 1, 1), (0, 2, 1), (1, 2, 1), (1, 3, 1)],
   claim_C5_count_cliques (buildGraph 4 [(0, 1, 1), (0, 2, 1), (1, 2, 1), (1, 3, 1)])
     (buildGraph_WF 4 [(0, 1, 1), (0, 2, 1), (1, 2, 1), (1, 3, 1)])⟩

example :
    count_cliques_3plus
      (buildGraph 4 [(0, 1, 1), (0, 2, 1), (0, 3, 1), (1, 2, 1), (1, 3, 1),
        (2, 3, 1)]) = 5 := by
  decide

example :
    cliqueCount3
      (buildGraph 4 [(0, 1, 1), (0, 2, 1), (0, 3, 1), (1, 2, 1), (1, 3, 1),
        (2, 3, 1)]) = 5 := by
  decide

/-! ### Reachability, and correctness of the recursive `dfs` -/

/-- One adjacency step. -/
def adjStep (g : Graph) (a b : Nat) : Prop := g.adj a b ≠ 0

/-- `b` is reachable from `a` along edges of `g`. -/
def Reach (g : Graph) (a b : Nat) : Prop :=
  Relation.ReflTransGen (adjStep g) a b

/-- Semantic connectivity among non-isolated vertices: any two vertices of
positive degree are joined by a path. -/
def ConnectedNI (g : Graph) : Prop :=
  ∀ x y, x < g.V → y < g.V → 0 < degree g x → 0 < degree g y → Reach g x y

theorem Reach.symmetric (g : Graph) (hwf : WF g) {a b : Nat}
    (h : Reach g a b) : Reach g b a := by
  have hsym : Symmetric (adjStep g) := by
    intro x y hxy
    unfold adjStep at hxy ⊢
    rw [hwf.symm]
    exact hxy
  exact (Relation.ReflTransGen.symmetric hsym) h

/-- Positive degree means some adjacency entry of the row is nonzero. -/
theorem degree_pos_iff (g : Graph) (u : Nat) (hwf : WF g) :
    0 < degree g u ↔ ∃ v, v < g.V ∧ g.adj u v ≠ 0 := by
  have main : ∀ (l : List Nat) (c : Int), (∀ x ∈ l, 0 ≤ g.adj u x) →
      (c < l.foldl (fun d v => d + g.adj u v) c ↔ ∃ v ∈ l, g.adj u v ≠ 0) := by
    intro l
    induction l with
    | nil =>
        intro c _
        simp
    | cons x xs ih =>
        intro c hnn
        rw [List.foldl_cons]
        constructor
        · intro h
          by_cases hx : g.adj u x ≠ 0
          · exact ⟨x, List.mem_cons_self x xs, hx⟩
          · rw [not_not] at hx
            rw [hx, add_zero] at h
            obtain ⟨v, hv, hv2⟩ := (ih c (fun y hy =>
              hnn y (List.mem_cons_of_mem x hy))).mp h
            exact ⟨v, List.mem_cons_of_mem x hv, hv2⟩
        · rintro ⟨v, hv, hv2⟩
          rcases List.mem_cons.mp hv with rfl | hv
          · have hpos : 0 < g.adj u v := by
              have := hnn v (List.mem_cons_self v xs)
              omega
            have hgrow : ∀ (l' : List Nat) (c' : Int), (∀ x ∈ l', 0 ≤ g.adj u x) →
                c' ≤ l'.foldl (fun d v => d + g.adj u v) c' := by
              intro l'
              induction l' with
              | nil => intro c' _; exact le_refl c'
              | cons y ys ihy =>
                  intro c' hnn'
                  rw [List.foldl_cons]
                  calc c' ≤ c' + g.adj u y := by
                        have := hnn' y (List.mem_cons_self y ys)
                        omega
                    _ ≤ _ := ihy _ (fun z hz =>
                        hnn' z (List.mem_cons_of_mem y hz))
            calc c < c + g.adj u v := by omega
              _ ≤ _ := hgrow xs _ (fun z hz => hnn z (List.mem_cons_of_mem v hz))
          · have hstep : c ≤ c + g.adj u x := by
              have := hnn x (List.mem_cons_self x xs)
              omega
            have := (ih (c + g.adj u x) (fun y hy =>
              hnn y (List.mem_cons_of_mem x hy))).mpr ⟨v, hv, hv2⟩
            omega
  have hnn : ∀ x ∈ List.range g.V, 0 ≤ g.adj u x := by
    intro x _
    rcases hwf.binary u x with h | h <;> omega
  unfold degree
  rw [main (List.range g.V) 0 hnn]
  constructor
  · rintro ⟨v, hv, h2⟩
    exact ⟨v, List.mem_range.mp hv, h2⟩
  · rintro ⟨v, hv, h2⟩
    exact ⟨v, List.mem_range.mpr hv, h2⟩

theorem dfsScanWith_sound (g : Graph) (u : Nat)
    (rec : Nat → List Nat → List Nat)
    (hrec : ∀ v vis, ∀ x ∈ rec v vis, x ∈ vis ∨ Reach g v x) :
    ∀ (cols vis : List Nat), ∀ x ∈ dfsScanWith g u rec cols vis,
      x ∈ vis ∨ ∃ v, g.adj u v ≠ 0 ∧ Reach g v x := by
  intro cols
  induction cols with
  | nil =>
      intro vis x hx
      exact Or.inl hx
  | cons v cs ih =>
      intro vis x hx
      unfold dfsScanWith at hx
      by_cases hcond : g.adj u v ≠ 0 ∧ ¬ vis.contains v
      · rw [if_pos hcond] at hx
        rcases ih _ x hx with hx' | hx'
        · rcases hrec v vis x hx' with h | h
          · exact Or.inl h
          · exact Or.inr ⟨v, hcond.1, h⟩
        · exact Or.inr hx'
      · rw [if_neg hcond] at hx
        exact ih _ x hx

theorem dfsGo_sound (g : Graph) :
    ∀ (fuel : Nat) (u : Nat) (vis : List Nat),
      ∀ x ∈ dfsGo g fuel u vis, x ∈ vis ∨ Reach g u x := by
  intro fuel
  induction fuel with
  | zero =>
      intro u vis x hx
      exact Or.inl hx
  | succ fuel ih =>
      intro u vis x hx
      have h := dfsScanWith_sound g u (dfsGo g fuel) (ih) (List.range g.V)
        (u :: vis) x hx
      rcases h with h | ⟨v, hadj, hreach⟩
      · rcases List.mem_cons.mp h with rfl | h
        · exact Or.inr Relation.ReflTransGen.refl
        · exact Or.inl h
      · refine Or.inr ?_
        exact Relation.ReflTransGen.head hadj hreach

theorem nodup_length_ge_mem (V : Nat) (vis : List Nat) (hnd : vis.Nodup)
    (hb : ∀ x ∈ vis, x < V) (hlen : V ≤ vis.length) :
    ∀ u, u < V → u ∈ vis := by
  intro u hu
  have hsub : vis.toFinset ⊆ Finset.range V := by
    intro x hx
    rw [List.mem_toFinset] at hx
    exact Finset.mem_range.mpr (hb x hx)
  have hcard : vis.toFinset.card = vis.length := List.toFinset_card_of_nodup hnd
  have heq : vis.toFinset = Finset.range V := by
    apply Finset.eq_of_subset_of_card_le hsub
    rw [hcard, Finset.card_range]
    exact hlen
  have : u ∈ vis.toFinset := by
    rw [heq]
    exact Finset.mem_range.mpr hu
  exact List.mem_toFinset.mp this

theorem length_lt_of_subset_nodup (vis₀ vis₁ : List Nat) (v : Nat)
    (hnd₀ : vis₀.Nodup) (hnd₁ : vis₁.Nodup) (hv : v ∉ vis₀) (hv1 : v ∈ vis₁)
    (hsub : ∀ x ∈ vis₀, x ∈ vis₁) : vis₀.length + 1 ≤ vis₁.length := by
  have hsub' : insert v vis₀.toFinset ⊆ vis₁.toFinset := by
    intro x hx
    rw [Finset.mem_insert] at hx
    rw [List.mem_toFinset]
    rcases hx with rfl | hx
    · exact hv1
    · exact hsub x (List.mem_toFinset.mp hx)
  have h1 : (insert v vis₀.toFinset).card = vis₀.length + 1 := by
    rw [Finset.card_insert_of_not_mem (by
      rw [List.mem_toFinset]
      exact hv)]
    rw [List.toFinset_card_of_nodup hnd₀]
  have h2 := Finset.card_le_card hsub'
  rw [h1, List.toFinset_card_of_nodup hnd₁] at h2
  exact h2

theorem dfsGo_complete (g : Graph) :
    ∀ (fuel : Nat) (u : Nat) (vis : List Nat),
      u ∉ vis → vis.Nodup → (∀ x ∈ vis, x < g.V) → u < g.V →
      g.V ≤ fuel + vis.length →
      ((∀ x ∈ vis, x ∈ dfsGo g fuel u vis) ∧
       (dfsGo g fuel u vis).Nodup ∧
       (∀ x ∈ dfsGo g fuel u vis, x < g.V) ∧
       (∀ x ∈ dfsGo g fuel u vis, x ∉ vis →
         ∀ v, v < g.V → g.adj x v ≠ 0 → v ∈ dfsGo g fuel u vis) ∧
       u ∈ dfsGo g fuel u vis) := by
  intro fuel
  induction fuel with
  | zero =>
      intro u vis hu hnd hb huV hlen
      exact absurd (nodup_length_ge_mem g.V vis hnd hb (by omega) u huV) hu
  | succ fuel ih =>
      intro u vis hu hnd hb huV hlen
      have hscan : ∀ (cols vis₀ : List Nat), vis₀.Nodup →
          (∀ x ∈ vis₀, x < g.V) → g.V ≤ fuel + vis₀.length →
          (∀ v ∈ cols, v < g.V) →
          ((∀ x ∈ vis₀, x ∈ dfsScanWith g u (dfsGo g fuel) cols vis₀) ∧
           (dfsScanWith g u (dfsGo g fuel) cols vis₀).Nodup ∧
           (∀ x ∈ dfsScanWith g u (dfsGo g fuel) cols vis₀, x < g.V) ∧
           (∀ x ∈ dfsScanWith g u (dfsGo g fuel) cols vis₀, x ∉ vis₀ →
             ∀ v, v < g.V → g.adj x v ≠ 0 →
               v ∈ dfsScanWith g u (dfsGo g fuel) cols vis₀) ∧
           (∀ v ∈ cols, g.adj u v ≠ 0 →
             v ∈ dfsScanWith g u (dfsGo g fuel) cols vis₀)) := by
        intro cols
        induction cols with
        | nil =>
            intro vis₀ hnd₀ hb₀ hlen₀ hcols
            refine ⟨fun x hx => hx, hnd₀, hb₀, ?_, ?_⟩
            · intro x hx hxn
              exact absurd hx hxn
            · intro v hv
              exact absurd hv (List.not_mem_nil v)
        | cons v cs ihc =>
            intro vis₀ hnd₀ hb₀ hlen₀ hcols
            have hvV : v < g.V := hcols v (List.mem_cons_self v cs)
            have hcs : ∀ w ∈ cs, w < g.V := fun w hw =>
              hcols w (List.mem_cons_of_mem v hw)
            show ((∀ x ∈ _, x ∈ _) ∧ _)
            unfold dfsScanWith
            by_cases hcond : g.adj u v ≠ 0 ∧ ¬ vis₀.contains v
            · rw [if_pos hcond]
              have hvnot : v ∉ vis₀ := by
                intro hcon
                exact hcond.2 (by simpa using hcon)
              obtain ⟨hmono₁, hnd₁, hb₁, hclosed₁, hvin₁⟩ :=
                ih v vis₀ hvnot hnd₀ hb₀ hvV (by omega)
              have hlen₁ : vis₀.length + 1 ≤ (dfsGo g fuel v vis₀).length :=
                length_lt_of_subset_nodup vis₀ (dfsGo g fuel v vis₀) v hnd₀
                  hnd₁ hvnot hvin₁ hmono₁
              obtain ⟨hmono₂, hnd₂, hb₂, hclosed₂, hcov₂⟩ :=
                ihc (dfsGo g fuel v vis₀) hnd₁ hb₁ (by omega) hcs
              refine ⟨?_, hnd₂, hb₂, ?_, ?_⟩
              · intro x hx
                exact hmono₂ x (hmono₁ x hx)
              · intro x hx hxn w hwV hadj
                by_cases hx₁ : x ∈ dfsGo g fuel v vis₀
                · exact hmono₂ w (hclosed₁ x hx₁ hxn w hwV hadj)
                · exact hclosed₂ x hx hx₁ w hwV hadj
              · intro w hw hadj
                rcases List.mem_cons.mp hw with rfl | hw
                · exact hmono₂ w hvin₁
                · exact hcov₂ w hw hadj
            · rw [if_neg hcond]
              obtain ⟨hmono₂, hnd₂, hb₂, hclosed₂, hcov₂⟩ :=
                ihc vis₀ hnd₀ hb₀ hlen₀ hcs
              refine ⟨hmono₂, hnd₂, hb₂, hclosed₂, ?_⟩
              intro w hw hadj
              rcases List.mem_cons.mp hw with rfl | hw
              · by_cases hvvis : w ∈ vis₀
                · exact hmono₂ w hvvis
                · exfalso
                  apply hcond
                  refine ⟨hadj, ?_⟩
                  intro hcon
                  exact hvvis (by simpa using hcon)
              · exact hcov₂ w hw hadj
      have huvis : (u :: vis).Nodup := List.nodup_cons.mpr ⟨hu, hnd⟩
      have hbvis : ∀ x ∈ u :: vis, x < g.V := by
        intro x hx
        rcases List.mem_cons.mp hx with rfl | hx
        · exact huV
        · exact hb x hx
      obtain ⟨hmono, hnd', hb', hclosed, hcov⟩ :=
        hscan (List.range g.V) (u :: vis) huvis hbvis
          (by simp only [List.length_cons]; omega)
          (fun v hv => List.mem_range.mp hv)
      show ((∀ x ∈ vis, x ∈ dfsScanWith g u (dfsGo g fuel) (List.range g.V)
          (u :: vis)) ∧ _)
      refine ⟨?_, hnd', hb', ?_, ?_⟩
      · intro x hx
        exact hmono x (List.mem_cons_of_mem u hx)
      · intro x hx hxn w hwV hadj
        by_cases hxu : x = u
        · subst hxu
          exact hcov w (List.mem_range.mpr hwV) hadj
        · have hxn' : x ∉ u :: vis := by
            intro hcon
            rcases List.mem_cons.mp hcon with h | h
            · exact hxu h
            · exact hxn h
          exact hclosed x hx hxn' w hwV hadj
      · exact hmono u (List.mem_cons_self u vis)

/-- `connected_among_non_isolated` answers true exactly when the subgraph
induced by the non-isolated vertices is connected (spec §8, property 3). -/
theorem cam_iff_ConnectedNI (g : Graph) (hwf : WF g) :
    connected_among_non_isolated g = true ↔ ConnectedNI g := by
  unfold connected_among_non_isolated
  match hfind : (List.range g.V).find? (fun i => 0 < degree g i) with
  | none =>
      simp only
      constructor
      · intro _ x y hx hy hdx hdy
        exfalso
        have := List.find?_eq_none.mp hfind x (List.mem_range.mpr hx)
        simp only [decide_eq_true_eq] at this
        omega
      · intro _
        trivial
  | some start =>
      have hstart : 0 < degree g start := by
        have := List.find?_some hfind
        simpa using this
      have hstartV : start < g.V := by
        have := List.mem_of_find?_eq_some hfind
        exact List.mem_range.mp this
      simp only
      obtain ⟨hmono, hnd, hbnd, hclosed, hstartmem⟩ :=
        dfsGo_complete g g.V start [] (List.not_mem_nil start) List.nodup_nil
          (fun x hx => absurd hx (List.not_mem_nil x)) hstartV (by omega)
      have hreachmem : ∀ z, Reach g start z → z ∈ dfsGo g g.V start [] := by
        intro z hz
        induction hz with
        | refl => exact hstartmem
        | tail hxy hstep ihz =>
            rename_i b c
            have hcV : c < g.V := by
              by_contra hcon
              push_neg at hcon
              exact hstep (hwf.support b c (Or.inr hcon))
            exact hclosed b ihz (List.not_mem_nil b) c hcV hstep
      constructor
      · intro hall x y hx hy hdx hdy
        have hgetvis : ∀ z, z < g.V → 0 < degree g z →
            z ∈ dfsGo g g.V start [] := by
          intro z hzV hdz
          have := List.all_eq_true.mp hall z (List.mem_range.mpr hzV)
          rw [if_pos hdz] at this
          simpa using this
        have hrx : Reach g start x :=
          (dfsGo_sound g g.V start [] x (hgetvis x hx hdx)).resolve_left
            (List.not_mem_nil x)
        have hry : Reach g start y :=
          (dfsGo_sound g g.V start [] y (hgetvis y hy hdy)).resolve_left
            (List.not_mem_nil y)
        exact (Reach.symmetric g hwf hrx).trans hry
      · intro hcon
        apply List.all_eq_true.mpr
        intro i hi
        by_cases hdi : 0 < degree g i
        · rw [if_pos hdi]
          have hr : Reach g start i :=
            hcon start i hstartV (List.mem_range.mp hi) hstart hdi
          simpa using hreachmem i hr
        · rw [if_neg hdi]

/-! ### Hamiltonian cycle (backtracking), server.c 1203-1260 -/

/-- The `for (v = 0; v < g->V; ++v)` candidate loop of `ham_backtrack`: skip
non-neighbors of the previous vertex, used vertices, and vertices of degree
< 2; otherwise place `v` and recurse (through `rec`).  First success wins. -/
def hamTryWith (g : Graph) (path : List Nat)
    (rec : List Nat → Option (List Nat)) : List Nat → Option (List Nat)
  | [] => none
  | v :: cands =>
      if g.adj (path.headD 0) v ≠ 0 ∧ ¬ path.contains v ∧ 2 ≤ degree g v then
        match rec (v :: path) with
        | some p => some p
        | none => hamTryWith g path rec cands
      else hamTryWith g path rec cands

/-- `ham_backtrack` (server.c 1203-1223), with the path stored in reverse
(head = most recently placed vertex `path[pos-1]`) and the `used[]` array
represented by path membership (it always equals it in the C code);
`rem = V - pos` counts the positions still to fill.  At `rem = 0` accept iff
the last placed vertex is adjacent to `start`. -/
def ham_backtrack (g : Graph) (start : Nat) : Nat → List Nat →
    Option (List Nat)
  | 0, path => if g.adj (path.headD 0) start ≠ 0 then some path else none
  | rem + 1, path =>
      hamTryWith g path (ham_backtrack g start rem) (List.range g.V)

/-- `hamilton_cycle` (server.c 1225-1260): feasibility guards (`V ≥ 3`,
connectivity among non-isolated vertices, minimum degree 2), then backtrack
from `start = 0`; on success the output is the path (in placement order)
plus the closing `start`.  `none` models `return 0`. -/
def hamilton_cycle (g : Graph) : Option (List Nat) :=
  if g.V < 3 then none
  else if ¬ connected_among_non_isolated g then none
  else if ¬ (List.range g.V).all (fun i => 2 ≤ degree g i) then none
  else
    match ham_backtrack g 0 (g.V - 1) [0] with
    | none => none
    | some p => some (p.reverse ++ [0])

/-- `g` has a Hamiltonian cycle: a list of all `V` vertices, each exactly
once, with cyclically consecutive vertices adjacent.  A cycle has at least
three vertices (so that its edges are distinct), matching the standard
notion and spec §4.6 ("V ≥ 3 … otherwise a Hamiltonian cycle is
impossible"). -/
def HasHamCycle (g : Graph) : Prop :=
  ∃ c : List Nat, c.Nodup ∧ c.length = g.V ∧ (∀ v ∈ c, v < g.V) ∧
    3 ≤ c.length ∧ List.Chain' (fun a b => g.adj a b ≠ 0) c ∧
    g.adj (c.getLastD 0) (c.headD 0) ≠ 0

/-- Successful `hamTryWith` results come from a successful branch. -/
theorem hamTryWith_some (g : Graph) (path : List Nat)
    (rec : List Nat → Option (List Nat)) :
    ∀ (cands : List Nat) (p : List Nat),
      hamTryWith g path rec cands = some p →
      ∃ v ∈ cands, (g.adj (path.headD 0) v ≠ 0 ∧ ¬ path.contains v ∧
        2 ≤ degree g v) ∧ rec (v :: path) = some p := by
  intro cands
  induction cands with
  | nil =>
      intro p h
      exact absurd h (by simp [hamTryWith])
  | cons v cs ih =>
      intro p h
      unfold hamTryWith at h
      by_cases hcond : g.adj (path.headD 0) v ≠ 0 ∧ ¬ path.contains v ∧
          2 ≤ degree g v
      · rw [if_pos hcond] at h
        match hrec : rec (v :: path) with
        | some q =>
            rw [hrec] at h
            injection h with h
            exact ⟨v, List.mem_cons_self v cs, hcond, by rw [hrec, h]⟩
        | none =>
            rw [hrec] at h
            obtain ⟨w, hw, hc, hr⟩ := ih p h
            exact ⟨w, List.mem_cons_of_mem v hw, hc, hr⟩
      · rw [if_neg hcond] at h
        obtain ⟨w, hw, hc, hr⟩ := ih p h
        exact ⟨w, List.mem_cons_of_mem v hw, hc, hr⟩

/-- Soundness of `ham_backtrack`: a successful result extends the given path
by `rem` fresh in-range vertices of degree ≥ 2, stays duplicate-free and
chained, keeps the bottom of the path, and its head closes back to start
0. -/
theorem ham_backtrack_sound (g : Graph) :
    ∀ (rem : Nat) (path p : List Nat), path ≠ [] →
      ham_backtrack g 0 rem path = some p →
      p.length = path.length + rem ∧ p ≠ [] ∧
      (path.Nodup → p.Nodup) ∧
      (∀ v ∈ p, v ∈ path ∨ (v < g.V ∧ 2 ≤ degree g v)) ∧
      (List.Chain' (fun a b => g.adj b a ≠ 0) path →
        List.Chain' (fun a b => g.adj b a ≠ 0) p) ∧
      p.getLast? = path.getLast? ∧
      g.adj (p.headD 0) 0 ≠ 0 := by
  intro rem
  induction rem with
  | zero =>
      intro path p hne h
      unfold ham_backtrack at h
      by_cases hc : g.adj (path.headD 0) 0 ≠ 0
      · rw [if_pos hc] at h
        injection h with h
        subst h
        exact ⟨rfl, hne, fun h => h, fun v hv => Or.inl hv, fun h => h, rfl, hc⟩
      · rw [if_neg hc] at h
        exact absurd h (by simp)
  | succ rem ih =>
      intro path p hne h
      obtain ⟨v, hv, ⟨hadj, hnotin, hdeg⟩, hrec⟩ :=
        hamTryWith_some g path (ham_backtrack g 0 rem) (List.range g.V) p h
      have hvV : v < g.V := List.mem_range.mp hv
      have hvnotin : v ∉ path := by
        intro hcon
        exact hnotin (by simpa using hcon)
      obtain ⟨hlen, hpne, hnd, hmem, hchain, hlast, hclose⟩ :=
        ih (v :: path) p (by simp) hrec
      refine ⟨by simp at hlen ⊢; omega, hpne, ?_, ?_, ?_, ?_, hclose⟩
      · intro hpathnd
        exact hnd (List.nodup_cons.mpr ⟨hvnotin, hpathnd⟩)
      · intro x hx
        rcases hmem x hx with hx' | hx'
        · rcases List.mem_cons.mp hx' with rfl | hx''
          · exact Or.inr ⟨hvV, hdeg⟩
          · exact Or.inl hx''
        · exact Or.inr hx'
      · intro hpc
        apply hchain
        rw [List.chain'_cons']
        refine ⟨?_, hpc⟩
        intro y hy
        have : y = path.headD 0 := by
          match path, hne with
          | z :: zs, _ =>
              simp only [List.head?_cons] at hy
              injection hy with hy
              simp [hy.symm]
        rw [this]
        exact hadj
      · rw [hlast]
        match path, hne with
        | z :: zs, _ => simp

theorem foldl_add_ge_init (g : Graph) (u : Nat) :
    ∀ (l : List Nat) (c : Int), (∀ x ∈ l, 0 ≤ g.adj u x) →
      c ≤ l.foldl (fun d v => d + g.adj u v) c := by
  intro l
  induction l with
  | nil => intro c _; exact le_refl c
  | cons y ys ih =>
      intro c hnn
      rw [List.foldl_cons]
      calc c ≤ c + g.adj u y := by
            have := hnn y (List.mem_cons_self y ys)
            omega
        _ ≤ _ := ih _ (fun z hz => hnn z (List.mem_cons_of_mem y hz))

theorem foldl_add_ge_one (g : Graph) (u : Nat) :
    ∀ (l : List Nat) (c : Int), (∀ x ∈ l, 0 ≤ g.adj u x) →
      ∀ a ∈ l, 1 ≤ g.adj u a →
      c + 1 ≤ l.foldl (fun d v => d + g.adj u v) c := by
  intro l
  induction l with
  | nil =>
      intro c _ a ha
      exact absurd ha (List.not_mem_nil a)
  | cons y ys ih =>
      intro c hnn a ha h1
      rw [List.foldl_cons]
      rcases List.mem_cons.mp ha with rfl | ha
      · calc c + 1 ≤ c + g.adj u a := by omega
          _ ≤ _ := foldl_add_ge_init g u ys _
              (fun z hz => hnn z (List.mem_cons_of_mem a hz))
      · calc c + 1 ≤ c + g.adj u y + 1 := by
              have := hnn y (List.mem_cons_self y ys)
              omega
          _ ≤ _ := ih _ (fun z hz => hnn z (List.mem_cons_of_mem y hz)) a ha h1

theorem degree_ge_two (g : Graph) (hwf : WF g) (u a b : Nat) (hab : a ≠ b)
    (haV : a < g.V) (hbV : b < g.V) (ha : g.adj u a ≠ 0)
    (hb : g.adj u b ≠ 0) : 2 ≤ degree g u := by
  have hnn : ∀ x ∈ List.range g.V, 0 ≤ g.adj u x := by
    intro x _
    rcases hwf.binary u x with h | h <;> omega
  have h1a : 1 ≤ g.adj u a := by
    rcases hwf.binary u a with h | h <;> omega
  have h1b : 1 ≤ g.adj u b := by
    rcases hwf.binary u b with h | h <;> omega
  have main : ∀ (l : List Nat) (c : Int), (∀ x ∈ l, 0 ≤ g.adj u x) →
      a ∈ l → b ∈ l →
      c + 2 ≤ l.foldl (fun d v => d + g.adj u v) c := by
    intro l
    induction l with
    | nil =>
        intro c _ ha' _
        exact absurd ha' (List.not_mem_nil a)
    | cons y ys ih =>
        intro c hnn' ha' hb'
        rw [List.foldl_cons]
        rcases List.mem_cons.mp ha' with rfl | ha''
        · have hbys : b ∈ ys := by
            rcases List.mem_cons.mp hb' with h | h
            · exact absurd h.symm hab
            · exact h
          calc c + 2 ≤ (c + g.adj u a) + 1 := by omega
            _ ≤ _ := foldl_add_ge_one g u ys _
                (fun z hz => hnn' z (List.mem_cons_of_mem a hz)) b hbys h1b
        · rcases List.mem_cons.mp hb' with rfl | hb''
          · calc c + 2 ≤ (c + g.adj u b) + 1 := by omega
              _ ≤ _ := foldl_add_ge_one g u ys _
                  (fun z hz => hnn' z (List.mem_cons_of_mem b hz)) a ha'' h1a
          · calc c + 2 ≤ (c + g.adj u y) + 2 := by
                  have := hnn' y (List.mem_cons_self y ys)
                  omega
              _ ≤ _ := ih _ (fun z hz => hnn' z (List.mem_cons_of_mem y hz))
                  ha'' hb''
  unfold degree
  have := main (List.range g.V) 0 hnn (List.mem_range.mpr haV)
    (List.mem_range.mpr hbV)
  omega

/-- All members of an adjacency chain are reachable from its head. -/
theorem chain_reach_head (g : Graph) :
    ∀ (t : List Nat) (h : Nat),
      List.Chain' (fun a b => g.adj a b ≠ 0) (h :: t) →
      ∀ a ∈ h :: t, Reach g h a := by
  intro t
  induction t with
  | nil =>
      intro h _ a ha
      rcases List.mem_cons.mp ha with rfl | ha
      · exact Relation.ReflTransGen.refl
      · exact absurd ha (List.not_mem_nil a)
  | cons h' t' ih =>
      intro h hc a ha
      have hstep : g.adj h h' ≠ 0 := (List.chain'_cons.mp hc).1
      have hc' : List.Chain' (fun a b => g.adj a b ≠ 0) (h' :: t') :=
        (List.chain'_cons.mp hc).2
      rcases List.mem_cons.mp ha with rfl | ha
      · exact Relation.ReflTransGen.refl
      · exact Relation.ReflTransGen.head hstep (ih h' hc' a ha)

/-- In a duplicate-free list of length ≥ 2 the default head and last
differ. -/
theorem headD_ne_getLastD (l : List Nat) (hnd : l.Nodup) (hlen : 2 ≤ l.length) :
    l.headD 0 ≠ l.getLastD 0 := by
  match l, hlen with
  | x :: y :: rest, _ =>
      simp only [List.headD_cons]
      have hlast : (x :: y :: rest).getLastD 0 = (y :: rest).getLast (by simp) := by
        rw [List.getLastD_cons]
        rw [List.getLastD_eq_getLast?]
        rw [List.getLast?_eq_getLast (y :: rest) (by simp)]
        rfl
      rw [hlast]
      intro hcon
      have : x ∈ y :: rest := by
        rw [hcon]
        exact List.getLast_mem _
      exact (List.nodup_cons.mp hnd).1 this

/-- Cyclic rotation of a Hamiltonian cycle: any member can be brought to the
front. -/
theorem cycle_rotate (g : Graph) (c : List Nat) (x : Nat) (hx : x ∈ c)
    (hnd : c.Nodup) (hlen : 3 ≤ c.length)
    (hchain : List.Chain' (fun a b => g.adj a b ≠ 0) c)
    (hwrap : g.adj (c.getLastD 0) (c.headD 0) ≠ 0) :
    ∃ c', c'.Nodup ∧ c'.length = c.length ∧ (∀ v, v ∈ c' ↔ v ∈ c) ∧
      3 ≤ c'.length ∧ List.Chain' (fun a b => g.adj a b ≠ 0) c' ∧
      g.adj (c'.getLastD 0) (c'.headD 0) ≠ 0 ∧ c'.headD 0 = x := by
  obtain ⟨l1, l2, rfl⟩ := List.append_of_mem hx
  match l1 with
  | [] =>
      refine ⟨x :: l2, hnd, rfl, fun v => Iff.rfl, hlen, hchain, ?_, rfl⟩
      simpa using hwrap
  | h1 :: t1 =>
      have hchain' : List.Chain' (fun a b => g.adj a b ≠ 0)
          ((h1 :: t1) ++ (x :: l2)) := hchain
      obtain ⟨hc1, hc2, hbd⟩ := List.chain'_append.mp hchain'
      obtain ⟨z, hz⟩ : ∃ z, (h1 :: t1).getLast? = some z :=
        ⟨(h1 :: t1).getLast (by simp), List.getLast?_eq_getLast _ (by simp)⟩
      obtain ⟨a2, ha2⟩ : ∃ a2, (x :: l2).getLast? = some a2 :=
        ⟨(x :: l2).getLast (by simp), List.getLast?_eq_getLast _ (by simp)⟩
      refine ⟨(x :: l2) ++ (h1 :: t1), ?_, ?_, ?_, ?_, ?_, ?_, ?_⟩
      · exact (List.perm_append_comm.nodup_iff).mpr hnd
      · simp only [List.length_append, List.length_cons]
        omega
      · intro v
        constructor
        · intro hv
          rcases List.mem_append.mp hv with h | h
          · exact List.mem_append.mpr (Or.inr h)
          · exact List.mem_append.mpr (Or.inl h)
        · intro hv
          rcases List.mem_append.mp hv with h | h
          · exact List.mem_append.mpr (Or.inr h)
          · exact List.mem_append.mpr (Or.inl h)
      · simp only [List.length_append, List.length_cons] at hlen ⊢
        omega
      · rw [List.chain'_append]
        refine ⟨hc2, hc1, ?_⟩
        intro a ha b hb
        have haa : a = a2 := by
          rw [ha2] at ha
          exact (Option.mem_some_iff.mp ha).symm
        have hbb : b = h1 := by
          have := hb
          simp only [List.head?_cons] at this
          exact (Option.mem_some_iff.mp this).symm
        have hw1 : (h1 :: t1 ++ x :: l2).getLastD 0 = a2 := by
          show ((h1 :: t1) ++ (x :: l2)).getLastD 0 = a2
          rw [List.getLastD_eq_getLast?, List.getLast?_append, ha2]
          rfl
        have hw2 : (h1 :: t1 ++ x :: l2).headD 0 = h1 := by simp
        rw [hw1, hw2] at hwrap
        rw [haa, hbb]
        exact hwrap
      · have hl' : ((x :: l2) ++ (h1 :: t1)).getLastD 0 = z := by
          rw [List.getLastD_eq_getLast?, List.getLast?_append, hz]
          rfl
        have hh' : ((x :: l2) ++ (h1 :: t1)).headD 0 = x := by simp
        show g.adj (((x :: l2) ++ (h1 :: t1)).getLastD 0)
          (((x :: l2) ++ (h1 :: t1)).headD 0) ≠ 0
        rw [hl', hh']
        exact hbd z (by simp [hz]) x (by simp)
      · simp

theorem hamTryWith_complete (g : Graph) (path : List Nat)
    (rec : List Nat → Option (List Nat)) :
    ∀ (cands : List Nat) (v : Nat), v ∈ cands →
      (g.adj (path.headD 0) v ≠ 0 ∧ ¬ path.contains v ∧ 2 ≤ degree g v) →
      (rec (v :: path)).isSome →
      (hamTryWith g path rec cands).isSome := by
  intro cands
  induction cands with
  | nil =>
      intro v hv _ _
      exact absurd hv (List.not_mem_nil v)
  | cons u cs ih =>
      intro v hv hguard hrec
      unfold hamTryWith
      by_cases hcond : g.adj (path.headD 0) u ≠ 0 ∧ ¬ path.contains u ∧
          2 ≤ degree g u
      · rw [if_pos hcond]
        match hru : rec (u :: path) with
        | some q => rfl
        | none =>
            rcases List.mem_cons.mp hv with rfl | hv'
            · rw [hru] at hrec
              exact absurd hrec (by simp)
            · exact ih v hv' hguard hrec
      · rw [if_neg hcond]
        rcases List.mem_cons.mp hv with rfl | hv'
        · exact absurd hguard hcond
        · exact ih v hv' hguard hrec

/-- Completeness of `ham_backtrack`: if the current path extends (by the
reversed extension `w`) to a full Hamiltonian closed walk, the search
succeeds. -/
theorem ham_backtrack_complete (g : Graph) :
    ∀ (rem : Nat) (path w : List Nat), w.length = rem → path ≠ [] →
      (w ++ path).Nodup → (∀ v ∈ w, v < g.V) → (∀ v ∈ w, 2 ≤ degree g v) →
      List.Chain' (fun a b => g.adj b a ≠ 0) (w ++ path) →
      g.adj ((w ++ path).headD 0) 0 ≠ 0 →
      (ham_backtrack g 0 rem path).isSome := by
  intro rem
  induction rem with
  | zero =>
      intro path w hw hne hnd hb hdeg hchain hclose
      have hwnil : w = [] := List.eq_nil_of_length_eq_zero hw
      subst hwnil
      rw [List.nil_append] at hclose
      unfold ham_backtrack
      rw [if_pos hclose]
      rfl
  | succ rem ih =>
      intro path w hw hne hnd hb hdeg hchain hclose
      obtain ⟨w', v, rfl⟩ : ∃ w' v, w = w' ++ [v] := by
        match w, hw with
        | h :: t, _ =>
            exact ⟨(h :: t).dropLast, (h :: t).getLast (by simp),
              (List.dropLast_append_getLast (by simp)).symm⟩
      have hassoc : (w' ++ [v]) ++ path = w' ++ (v :: path) := by simp
      have hvw : v ∈ w' ++ [v] := List.mem_append.mpr (Or.inr (by simp))
      have hvV : v < g.V := hb v hvw
      have hvdeg : 2 ≤ degree g v := hdeg v hvw
      have hvpath : v ∉ path := by
        have := (List.nodup_append.mp hnd).2.2
        intro hcon
        exact this hvw hcon
      have hguardadj : g.adj (path.headD 0) v ≠ 0 := by
        have hchain2 : List.Chain' (fun a b => g.adj b a ≠ 0)
            ((w' ++ [v]) ++ path) := hchain
        obtain ⟨-, -, hbd⟩ := List.chain'_append.mp hchain2
        have hlastv : (w' ++ [v]).getLast? = some v := by
          rw [List.getLast?_append]
          rfl
        have hheadp : path.head? = some (path.headD 0) := by
          match path, hne with
          | z :: zs, _ => rfl
        exact hbd v (by rw [hlastv]; exact rfl) (path.headD 0)
          (by rw [hheadp]; exact rfl)
      rw [hassoc] at hnd hchain hclose
      have hih := ih (v :: path) w'
        (by
          have : (w' ++ [v]).length = rem + 1 := hw
          simp at this
          omega)
        (by simp) hnd
        (fun x hx => hb x (List.mem_append.mpr (Or.inl hx)))
        (fun x hx => hdeg x (List.mem_append.mpr (Or.inl hx)))
        hchain hclose
      show (hamTryWith g path (ham_backtrack g 0 rem) (List.range g.V)).isSome
      exact hamTryWith_complete g path (ham_backtrack g 0 rem)
        (List.range g.V) v (List.mem_range.mpr hvV)
        ⟨hguardadj, by simpa using hvpath, hvdeg⟩ hih

/-- Unpacking a successful `hamilton_cycle` run. -/
theorem hamilton_some_props (g : Graph) (c : List Nat)
    (hc : hamilton_cycle g = some c) :
    c.length = g.V + 1 ∧ c.headD 0 = c.getLastD 0 ∧
    (c.take g.V).Nodup ∧ (∀ v, v < g.V → v ∈ c.take g.V) ∧
    (∀ v ∈ c, v < g.V) ∧
    List.Chain' (fun a b => g.adj a b ≠ 0) c ∧ HasHamCycle g := by
  unfold hamilton_cycle at hc
  by_cases h1 : g.V < 3
  · rw [if_pos h1] at hc
    exact absurd hc (by simp)
  rw [if_neg h1] at hc
  by_cases h2 : ¬ connected_among_non_isolated g
  · rw [if_pos h2] at hc
    exact absurd hc (by simp)
  rw [if_neg h2] at hc
  by_cases h3 : ¬ (List.range g.V).all (fun i => 2 ≤ degree g i)
  · rw [if_pos h3] at hc
    exact absurd hc (by simp)
  rw [if_neg h3] at hc
  match hp : ham_backtrack g 0 (g.V - 1) [0] with
  | none =>
      rw [hp] at hc
      exact absurd hc (by simp)
  | some p =>
      rw [hp] at hc
      have hceq : c = p.reverse ++ [0] := by
        injection hc with h
        exact h.symm
      obtain ⟨hlen, hpne, hnd, hmem, hchain, hlast, hclose⟩ :=
        ham_backtrack_sound g (g.V - 1) [0] p (by simp) hp
      have hndp : p.Nodup := hnd (by simp)
      have hchp : List.Chain' (fun a b => g.adj b a ≠ 0) p :=
        hchain (by simp)
      have hplen : p.length = g.V := by
        simp at hlen
        omega
      have hbnd : ∀ v ∈ p, v < g.V := by
        intro v hv
        rcases hmem v hv with hv' | hv'
        · have : v = 0 := by simpa using hv'
          omega
        · exact hv'.1
      have hplast : p.getLast? = some 0 := by
        rw [hlast]
        rfl
      have hrevne : p.reverse ≠ [] := by
        intro hcon
        have := List.length_eq_zero.mpr hcon
        rw [List.length_reverse] at this
        omega
      have hheadrev : (p.reverse).headD 0 = p.getLastD 0 := by
        rw [List.headD_eq_head?, List.head?_reverse, List.getLastD_eq_getLast?]
      have hlastrev : (p.reverse).getLast? = p.head? := List.getLast?_reverse p
      have hpheadD : p.head? = some (p.headD 0) := by
        match p, hpne with
        | z :: zs, _ => rfl
      have htake : c.take g.V = p.reverse := by
        rw [hceq]
        apply List.take_left'
        rw [List.length_reverse]
        exact hplen
      have hchainrev : List.Chain' (fun a b => g.adj a b ≠ 0) p.reverse := by
        rw [List.chain'_reverse]
        exact hchp
      have hchainc : List.Chain' (fun a b => g.adj a b ≠ 0) c := by
        rw [hceq, List.chain'_append]
        refine ⟨hchainrev, by simp, ?_⟩
        intro a ha b hb
        rw [hlastrev, hpheadD] at ha
        have haa : a = p.headD 0 := (Option.mem_some_iff.mp ha).symm
        have hbb : b = 0 := by
          simp only [List.head?_cons] at hb
          exact (Option.mem_some_iff.mp hb).symm
        rw [haa, hbb]
        exact hclose
      have hheadc : c.headD 0 = 0 := by
        rw [hceq]
        match hq : p.reverse, hrevne with
        | y :: ys, _ =>
            simp only [List.cons_append, List.headD_cons]
            have : (y :: ys).headD 0 = p.getLastD 0 := by
              rw [← hq]
              exact hheadrev
            simp only [List.headD_cons] at this
            rw [this, List.getLastD_eq_getLast?, hplast]
            rfl
      have hlastc : c.getLastD 0 = 0 := by
        rw [hceq, List.getLastD_eq_getLast?, List.getLast?_append]
        rfl
      have hboundc : ∀ v ∈ c, v < g.V := by
        intro v hv
        rw [hceq] at hv
        rcases List.mem_append.mp hv with hv' | hv'
        · exact hbnd v (List.mem_reverse.mp hv')
        · have : v = 0 := by simpa using hv'
          omega
      have hcovers : ∀ v, v < g.V → v ∈ c.take g.V := by
        rw [htake]
        intro v hv
        exact nodup_length_ge_mem g.V p.reverse
          (List.nodup_reverse.mpr hndp)
          (fun x hx => hbnd x (List.mem_reverse.mp hx))
          (by rw [List.length_reverse, hplen]) v hv
      refine ⟨by rw [hceq]; simp [hplen], by rw [hheadc, hlastc],
        by rw [htake]; exact List.nodup_reverse.mpr hndp, hcovers, hboundc,
        hchainc, ?_⟩
      refine ⟨p.reverse, List.nodup_reverse.mpr hndp,
        by rw [List.length_reverse]; exact hplen,
        fun v hv => hbnd v (List.mem_reverse.mp hv),
        by rw [List.length_reverse, hplen]; omega, hchainrev, ?_⟩
      have h1' : (p.reverse).getLastD 0 = p.headD 0 := by
        rw [List.getLastD_eq_getLast?, hlastrev, hpheadD]
        rfl
      have h2' : (p.reverse).headD 0 = 0 := by
        rw [hheadrev, List.getLastD_eq_getLast?, hplast]
        rfl
      rw [h1', h2']
      exact hclose

/-- If a Hamiltonian cycle exists, every vertex has degree at least 2. -/
theorem hamcycle_degrees (g : Graph) (hwf : WF g) (h : HasHamCycle g) :
    ∀ i, i < g.V → 2 ≤ degree g i := by
  obtain ⟨c, hnd, hlenV, hbnd, hlen3, hchain, hwrap⟩ := h
  intro i hi
  have hic : i ∈ c :=
    nodup_length_ge_mem g.V c hnd hbnd (by omega) i hi
  obtain ⟨c', hnd', hlen', hmemiff, hlen3', hchain', hwrap', hhead'⟩ :=
    cycle_rotate g c i hic hnd (by omega) hchain hwrap
  match hc' : c', hlen3' with
  | a :: y :: rest, _ =>
      have hai : a = i := by simpa using hhead'
      subst hai
      have hadjy : g.adj a y ≠ 0 := (List.chain'_cons.mp hchain').1
      have hlastmem : (y :: rest).getLast (by simp) ∈ y :: rest :=
        List.getLast_mem _
      have hlasteq : (a :: y :: rest).getLastD 0 =
          (y :: rest).getLast (by simp) := by
        rw [List.getLastD_eq_getLast?,
          List.getLast?_eq_getLast (a :: y :: rest) (by simp)]
        simp only [Option.getD_some]
        rw [List.getLast_cons (by simp)]
      have hadjlast : g.adj a ((y :: rest).getLast (by simp)) ≠ 0 := by
        rw [hwf.symm]
        rw [hlasteq] at hwrap'
        simpa using hwrap'
      have hylast : y ≠ (y :: rest).getLast (by simp) := by
        have hlen2 : 2 ≤ (y :: rest).length := by
          have h := hlen'
          simp only [List.length_cons] at h ⊢
          omega
        have := headD_ne_getLastD (y :: rest) (List.nodup_cons.mp hnd').2 hlen2
        simp only [List.headD_cons] at this
        rw [List.getLastD_eq_getLast?,
          List.getLast?_eq_getLast (y :: rest) (by simp)] at this
        simpa using this
      have hyV : y < g.V := hbnd y ((hmemiff y).mp (by simp))
      have hlastV : (y :: rest).getLast (by simp) < g.V :=
        hbnd _ ((hmemiff _).mp (by simp [hlastmem]))
      exact degree_ge_two g hwf a y ((y :: rest).getLast (by simp))
        hylast hyV hlastV hadjy hadjlast

/-- If a Hamiltonian cycle exists, the graph is connected among non-isolated
vertices. -/
theorem hamcycle_connected (g : Graph) (hwf : WF g) (h : HasHamCycle g) :
    ConnectedNI g := by
  obtain ⟨c, hnd, hlenV, hbnd, hlen3, hchain, hwrap⟩ := h
  intro x y hx hy _ _
  have hxc : x ∈ c := nodup_length_ge_mem g.V c hnd hbnd (by omega) x hx
  have hyc : y ∈ c := nodup_length_ge_mem g.V c hnd hbnd (by omega) y hy
  match hc : c, hlen3 with
  | h0 :: t, _ =>
      have hrx : Reach g h0 x := chain_reach_head g t h0 hchain x hxc
      have hry : Reach g h0 y := chain_reach_head g t h0 hchain y hyc
      exact (Reach.symmetric g hwf hrx).trans hry

/-- If a Hamiltonian cycle exists, `hamilton_cycle` finds one. -/
theorem hamilton_complete (g : Graph) (hwf : WF g) (h : HasHamCycle g) :
    (hamilton_cycle g).isSome := by
  have hV3 : 3 ≤ g.V := by
    obtain ⟨c, -, hlenV, -, hlen3, -, -⟩ := h
    omega
  have hdeg := hamcycle_degrees g hwf h
  have hconn := hamcycle_connected g hwf h
  obtain ⟨c, hnd, hlenV, hbnd, hlen3, hchain, hwrap⟩ := h
  have h0c : (0 : Nat) ∈ c :=
    nodup_length_ge_mem g.V c hnd hbnd (by omega) 0 (by omega)
  obtain ⟨c', hnd', hlen', hmemiff, hlen3', hchain', hwrap', hhead'⟩ :=
    cycle_rotate g c 0 h0c hnd (by omega) hchain hwrap
  match hc' : c', hlen3' with
  | a :: rest, _ =>
      have ha0 : a = 0 := by simpa using hhead'
      subst ha0
      have hbacktrack : (ham_backtrack g 0 (g.V - 1) [0]).isSome := by
        apply ham_backtrack_complete g (g.V - 1) [0] rest.reverse
        · rw [List.length_reverse]
          simp only [List.length_cons] at hlen'
          omega
        · simp
        · have : rest.reverse ++ [0] = (0 :: rest).reverse := by simp
          rw [this]
          exact List.nodup_reverse.mpr hnd'
        · intro v hv
          exact hbnd v ((hmemiff v).mp
            (List.mem_cons_of_mem 0 (List.mem_reverse.mp hv)))
        · intro v hv
          exact hdeg v (hbnd v ((hmemiff v).mp
            (List.mem_cons_of_mem 0 (List.mem_reverse.mp hv))))
        · have : rest.reverse ++ [0] = (0 :: rest).reverse := by simp
          rw [this, List.chain'_reverse]
          exact hchain'
        · have heq : rest.reverse ++ [0] = (0 :: rest).reverse := by simp
          rw [heq]
          have hhd : ((0 :: rest).reverse).headD 0 = (0 :: rest).getLastD 0 := by
            rw [List.headD_eq_head?, List.head?_reverse,
              List.getLastD_eq_getLast?]
          rw [hhd]
          have : (0 :: rest).headD 0 = 0 := by simp
          rw [← this]
          exact hwrap'
      unfold hamilton_cycle
      rw [if_neg (by omega), if_neg (by
          rw [(cam_iff_ConnectedNI g hwf).mpr hconn]
          simp),
        if_neg (by
          rw [List.all_eq_true.mpr (by
            intro i hi
            simpa using hdeg i (List.mem_range.mp hi))]
          simp)]
      obtain ⟨p, hp⟩ := Option.isSome_iff_exists.mp hbacktrack
      rw [hp]
      rfl

/-- C4: `hamilton_cycle` returns a cycle iff `g` has a Hamiltonian cycle;
on success the output has length `V + 1`, starts and ends at the same
vertex, visits every vertex exactly once (its first `V` entries are
duplicate-free and cover `0..V-1`), and every consecutive pair — including
the wrap-around — is an edge of `g`. -/
theorem claim_C4_hamilton (g : Graph) (hwf : WF g) :
    ((hamilton_cycle g).isSome ↔ HasHamCycle g) ∧
    (∀ c, hamilton_cycle g = some c →
      c.length = g.V + 1 ∧ c.headD 0 = c.getLastD 0 ∧
      (c.take g.V).Nodup ∧ (∀ v, v < g.V → v ∈ c.take g.V) ∧
      (∀ v ∈ c, v < g.V) ∧
      List.Chain' (fun a b => g.adj a b ≠ 0) c) := by
  constructor
  · constructor
    · intro hs
      obtain ⟨c, hc⟩ := Option.isSome_iff_exists.mp hs
      exact (hamilton_some_props g c hc).2.2.2.2.2.2
    · intro h
      exact hamilton_complete g hwf h
  · intro c hc
    obtain ⟨h1, h2, h3, h4, h5, h6, -⟩ := hamilton_some_props g c hc
    exact ⟨h1, h2, h3, h4, h5, h6⟩

theorem claim_C4_hamilton_witness :
    WF (buildGraph 5 [(0, 1, 1), (1, 2, 1), (2, 3, 1), (3, 4, 1), (0, 4, 1),
      (0, 2, 1)]) ∧
    (((hamilton_cycle (buildGraph 5 [(0, 1, 1), (1, 2, 1), (2, 3, 1),
        (3, 4, 1), (0, 4, 1), (0, 2, 1)])).isSome ↔
      HasHamCycle (buildGraph 5 [(0, 1, 1), (1, 2, 1), (2, 3, 1), (3, 4, 1),
        (0, 4, 1), (0, 2, 1)]))) :=
  ⟨buildGraph_WF 5 [(0, 1, 1), (1, 2, 1), (2, 3, 1), (3, 4, 1), (0, 4, 1),
      (0, 2, 1)],
   (claim_C4_hamilton (buildGraph 5 [(0, 1, 1), (1, 2, 1), (2, 3, 1),
      (3, 4, 1), (0, 4, 1), (0, 2, 1)])
     (buildGraph_WF 5 [(0, 1, 1), (1, 2, 1), (2, 3, 1), (3, 4, 1), (0, 4, 1),
      (0, 2, 1)])).1⟩

example :
    hamilton_cycle (buildGraph 5 [(0, 1, 1), (1, 2, 1), (2, 3, 1), (3, 4, 1),
      (0, 4, 1), (0, 2, 1)]) = some [0, 1, 2, 3, 4, 0] := by
  decide

example :
    hamilton_cycle (buildGraph 4 [(0, 1, 1), (1, 2, 1), (2, 3, 1)]) =
      none := by
  decide

/-! ### C3: correctness of `max_clique` (server.c 1019-1136) -/

/-- Spec-side clique number: the largest cardinality of a pairwise-adjacent
vertex subset of `0..V-1`. -/
def cliqueNumber (g : Graph) : Nat :=
  ((Finset.range g.V).powerset.filter (fun S => IsCliqueSet g S)).sup
    Finset.card

theorem IsCliqueSet_empty (g : Graph) : IsCliqueSet g ∅ :=
  fun a ha => absurd ha (Finset.not_mem_empty a)

theorem cliqueNumber_ge (g : Graph) (S : Finset Nat)
    (hS : S ⊆ Finset.range g.V) (hclq : IsCliqueSet g S) :
    S.card ≤ cliqueNumber g := by
  apply Finset.le_sup
  rw [Finset.mem_filter, Finset.mem_powerset]
  exact ⟨hS, hclq⟩

theorem cliqueNumber_attained (g : Graph) :
    ∃ Q, Q ⊆ Finset.range g.V ∧ IsCliqueSet g Q ∧
      Q.card = cliqueNumber g := by
  have hne : ((Finset.range g.V).powerset.filter
      (fun S => IsCliqueSet g S)).Nonempty := by
    refine ⟨∅, ?_⟩
    rw [Finset.mem_filter, Finset.mem_powerset]
    exact ⟨Finset.empty_subset _, IsCliqueSet_empty g⟩
  obtain ⟨Q, hQ, hsup⟩ := Finset.exists_mem_eq_sup _ hne Finset.card
  rw [Finset.mem_filter, Finset.mem_powerset] at hQ
  exact ⟨Q, hQ.1, hQ.2, hsup.symm⟩

theorem mem_nbN (g : Graph) (v x : Nat) :
    x ∈ nbN g v ↔ x < g.V ∧ g.adj v x ≠ 0 := by
  unfold nbN
  rw [Finset.mem_filter, Finset.mem_range]

theorem not_mem_nbN_self (g : Graph) (hwf : WF g) (v : Nat) :
    v ∉ nbN g v := by
  rw [mem_nbN]
  intro h
  exact h.2 (hwf.diag v)

/-- A vertex adjacent to every member of a maximum clique already belongs to
it: otherwise inserting it would beat the clique number. -/
theorem max_clique_closed (g : Graph) (Q : Finset Nat)
    (hQr : Q ⊆ Finset.range g.V) (hQc : IsCliqueSet g Q)
    (hQmax : Q.card = cliqueNumber g) (x : Nat) (hx : x < g.V)
    (hadjx : ∀ q ∈ Q, g.adj x q ≠ 0)
    (hsymm : ∀ i j, g.adj i j = g.adj j i) : x ∈ Q := by
  by_contra hxQ
  have hclq : IsCliqueSet g (insert x Q) := by
    intro a ha b hb hab
    rw [Finset.mem_insert] at ha hb
    rcases ha with rfl | ha
    · rcases hb with rfl | hb
      · exact absurd rfl hab
      · exact hadjx b hb
    · rcases hb with rfl | hb
      · rw [hsymm a b]
        exact hadjx a ha
      · exact hQc a ha b hb hab
  have hsub : insert x Q ⊆ Finset.range g.V := by
    intro y hy
    rw [Finset.mem_insert] at hy
    rcases hy with rfl | hy
    · exact Finset.mem_range.mpr hx
    · exact hQr hy
  have hle := cliqueNumber_ge g (insert x Q) hsub hclq
  rw [Finset.card_insert_of_not_mem hxQ, hQmax] at hle
  omega

/-- The best-so-far pair of `BKState` is well-formed: `best_R` is a clique
inside the vertex range and `best_size` is its cardinality. -/
def GoodBest (g : Graph) (best : Nat × Finset Nat) : Prop :=
  best.2 ⊆ Finset.range g.V ∧ IsCliqueSet g best.2 ∧ best.2.card = best.1

/-- The per-vertex accumulator update of `choose_pivot`
(server.c 1025-1039). -/
def pivotStep (g : Graph) (P : Finset Nat) (acc : Int × Int) (u : Nat) :
    Int × Int :=
  if acc.2 < ((P ∩ nbN g u).card : Int) then
    ((u : Int), ((P ∩ nbN g u).card : Int))
  else acc

theorem choose_pivot_eq (g : Graph) (P X : Finset Nat) :
    choose_pivot g P X =
      ((bsList g.V (P ∪ X)).foldl (pivotStep g P) (-1, -1)).1 := rfl

theorem pivotStep_inv (g : Graph) (P X : Finset Nat) :
    ∀ (l : List Nat) (acc : Int × Int),
      (∀ x ∈ l, x ∈ P ∪ X) →
      0 ≤ acc.1 → acc.1.toNat ∈ P ∪ X →
      0 ≤ (l.foldl (pivotStep g P) acc).1 ∧
        (l.foldl (pivotStep g P) acc).1.toNat ∈ P ∪ X := by
  intro l
  induction l with
  | nil => intro acc _ h1 h2; exact ⟨h1, h2⟩
  | cons v rest ih =>
      intro acc hl h1 h2
      rw [List.foldl_cons]
      have hst : 0 ≤ (pivotStep g P acc v).1 ∧
          (pivotStep g P acc v).1.toNat ∈ P ∪ X := by
        unfold pivotStep
        by_cases hc : acc.2 < ((P ∩ nbN g v).card : Int)
        · rw [if_pos hc]
          refine ⟨Int.natCast_nonneg v, ?_⟩
          have hvt : ((v : Int)).toNat = v := Int.toNat_natCast v
          rw [hvt]
          exact hl v (List.mem_cons_self v rest)
        · rw [if_neg hc]
          exact ⟨h1, h2⟩
      exact ih (pivotStep g P acc v)
        (fun x hx => hl x (List.mem_cons_of_mem v hx)) hst.1 hst.2

theorem choose_pivot_nonneg_mem (g : Graph) (P X : Finset Nat)
    (hsub : P ∪ X ⊆ Finset.range g.V) (hne : (P ∪ X).Nonempty) :
    0 ≤ choose_pivot g P X ∧ (choose_pivot g P X).toNat ∈ P ∪ X := by
  rw [choose_pivot_eq]
  obtain ⟨v, rest, hvr⟩ : ∃ v rest, bsList g.V (P ∪ X) = v :: rest := by
    cases hl : bsList g.V (P ∪ X) with
    | nil =>
        rw [bsList_nil_iff g.V (P ∪ X) hsub] at hl
        exact absurd hl hne.ne_empty
    | cons v rest => exact ⟨v, rest, rfl⟩
  have hvmem : v ∈ P ∪ X := by
    have hv : v ∈ bsList g.V (P ∪ X) := by
      rw [hvr]
      exact List.mem_cons_self v rest
    exact ((bsList_mem g.V _ v).mp hv).2
  rw [hvr, List.foldl_cons]
  have hst : pivotStep g P (-1, -1) v =
      ((v : Int), ((P ∩ nbN g v).card : Int)) := by
    unfold pivotStep
    rw [if_pos (show ((-1 : Int), (-1 : Int)).2 <
        ((P ∩ nbN g v).card : Int) from by
      show (-1 : Int) < ((P ∩ nbN g v).card : Int)
      have h0 : (0 : Int) ≤ ((P ∩ nbN g v).card : Int) :=
        Int.natCast_nonneg _
      omega)]
  rw [hst]
  apply pivotStep_inv g P X rest _ ?_ ?_ ?_
  · intro x hx
    have hx' : x ∈ bsList g.V (P ∪ X) := by
      rw [hvr]
      exact List.mem_cons_of_mem v hx
    exact ((bsList_mem g.V _ x).mp hx').2
  · exact Int.natCast_nonneg v
  · show ((v : Int)).toNat ∈ P ∪ X
    rw [Int.toNat_natCast]
    exact hvmem

theorem BKLoop_mono (g : Graph)
    (rec : Finset Nat → Finset Nat → Finset Nat → Nat × Finset Nat →
      Nat × Finset Nat)
    (hrec : ∀ R P X best, best.1 ≤ (rec R P X best).1) :
    ∀ (vs : List Nat) (R P X : Finset Nat) (best : Nat × Finset Nat),
      best.1 ≤ (BKLoopWith g rec R vs P X best).1 := by
  intro vs
  induction vs with
  | nil => intro R P X best; exact le_refl _
  | cons v rest ih =>
      intro R P X best
      rw [BKLoop_cons]
      exact le_trans (hrec (insert v R) (P ∩ nbN g v) (X ∩ nbN g v) best)
        (ih R (P.erase v) (insert v X) _)

/-- The best size never decreases: `BK_recurse` only overwrites the record on
strict improvement. -/
theorem BK_mono (g : Graph) :
    ∀ (fuel : Nat) (R P X : Finset Nat) (best : Nat × Finset Nat),
      best.1 ≤ (BK_recurse g fuel R P X best).1 := by
  intro fuel
  induction fuel with
  | zero => intro R P X best; exact le_refl _
  | succ f ih =>
      intro R P X best
      rw [BK_succ]
      by_cases hbase : P = ∅ ∧ X = ∅
      · rw [if_pos hbase]
        by_cases himp : best.1 < R.card
        · rw [if_pos himp]
          exact le_of_lt himp
        · rw [if_neg himp]
      · rw [if_neg hbase]
        exact BKLoop_mono g (BK_recurse g f) ih _ R P X best

/-- Invariants of the recursive call branched at a candidate `v`: the grown
clique `R ∪ {v}` stays a clique in range, and the restricted `P ∩ N(v)`,
`X ∩ N(v)` keep every member adjacent to all of `R ∪ {v}`. -/
theorem BK_child_inv (g : Graph) (hwf : WF g) (R P' X' : Finset Nat)
    (v : Nat) (hRr : R ⊆ Finset.range g.V) (hRc : IsCliqueSet g R)
    (hP'r : P' ⊆ Finset.range g.V) (hX'r : X' ⊆ Finset.range g.V)
    (hadj' : ∀ x ∈ P' ∪ X', ∀ r ∈ R, g.adj x r ≠ 0) (hvP' : v ∈ P') :
    insert v R ⊆ Finset.range g.V ∧ IsCliqueSet g (insert v R) ∧
    (P' ∩ nbN g v) ⊆ Finset.range g.V ∧
    (X' ∩ nbN g v) ⊆ Finset.range g.V ∧
    (∀ x ∈ (P' ∩ nbN g v) ∪ (X' ∩ nbN g v), ∀ r ∈ insert v R,
      g.adj x r ≠ 0) := by
  have hvV : v < g.V := Finset.mem_range.mp (hP'r hvP')
  have hvadjR : ∀ r ∈ R, g.adj v r ≠ 0 := fun r hr =>
    hadj' v (Finset.mem_union_left X' hvP') r hr
  refine ⟨?_, ?_, ?_, ?_, ?_⟩
  · intro y hy
    rw [Finset.mem_insert] at hy
    rcases hy with rfl | hy
    · exact Finset.mem_range.mpr hvV
    · exact hRr hy
  · intro a ha b hb hab
    rw [Finset.mem_insert] at ha hb
    rcases ha with rfl | ha
    · rcases hb with rfl | hb
      · exact absurd rfl hab
      · exact hvadjR b hb
    · rcases hb with rfl | hb
      · rw [hwf.symm a b]
        exact hvadjR a ha
      · exact hRc a ha b hb hab
  · exact fun y hy => hP'r (Finset.mem_of_mem_inter_left hy)
  · exact fun y hy => hX'r (Finset.mem_of_mem_inter_left hy)
  · intro x hx r hr
    rw [Finset.mem_union] at hx
    rw [Finset.mem_insert] at hr
    rcases hr with rfl | hr
    · have hxN : x ∈ nbN g r := by
        rcases hx with hx | hx
        · exact Finset.mem_of_mem_inter_right hx
        · exact Finset.mem_of_mem_inter_right hx
      rw [hwf.symm x r]
      exact ((mem_nbN g r x).mp hxN).2
    · rcases hx with hx | hx
      · exact hadj' x (Finset.mem_union_left _
          (Finset.mem_of_mem_inter_left hx)) r hr
      · exact hadj' x (Finset.mem_union_right _
          (Finset.mem_of_mem_inter_left hx)) r hr

/-- Invariants of the loop continuation after processing `v` (the C
`P = P \ \x7bv\x7d; X = X ∪ \x7bv\x7d` step). -/
theorem BK_next_inv (g : Graph) (R P' X' : Finset Nat) (v : Nat)
    (hP'r : P' ⊆ Finset.range g.V) (hX'r : X' ⊆ Finset.range g.V)
    (hadj' : ∀ x ∈ P' ∪ X', ∀ r ∈ R, g.adj x r ≠ 0) (hvP' : v ∈ P') :
    P'.erase v ⊆ Finset.range g.V ∧ insert v X' ⊆ Finset.range g.V ∧
    (∀ x ∈ P'.erase v ∪ insert v X', ∀ r ∈ R, g.adj x r ≠ 0) := by
  have hvV : v < g.V := Finset.mem_range.mp (hP'r hvP')
  refine ⟨?_, ?_, ?_⟩
  · exact fun y hy => hP'r (Finset.mem_of_mem_erase hy)
  · intro y hy
    rw [Finset.mem_insert] at hy
    rcases hy with rfl | hy
    · exact Finset.mem_range.mpr hvV
    · exact hX'r hy
  · intro x hx r hr
    rw [Finset.mem_union] at hx
    rcases hx with hx | hx
    · exact hadj' x (Finset.mem_union_left _
        (Finset.mem_of_mem_erase hx)) r hr
    · rw [Finset.mem_insert] at hx
      rcases hx with rfl | hx
      · exact hadj' x (Finset.mem_union_left _ hvP') r hr
      · exact hadj' x (Finset.mem_union_right _ hx) r hr

/-- Soundness invariant of `BK_recurse`: whenever `R` is a clique in range
and every candidate/excluded vertex is adjacent to all of `R`, a well-formed
best-so-far stays well-formed. -/
theorem BK_sound (g : Graph) (hwf : WF g) :
    ∀ (fuel : Nat) (R P X : Finset Nat) (best : Nat × Finset Nat),
      R ⊆ Finset.range g.V → IsCliqueSet g R →
      P ⊆ Finset.range g.V → X ⊆ Finset.range g.V →
      (∀ x ∈ P ∪ X, ∀ r ∈ R, g.adj x r ≠ 0) →
      GoodBest g best →
      GoodBest g (BK_recurse g fuel R P X best) := by
  intro fuel
  induction fuel with
  | zero => intro R P X best _ _ _ _ _ hgood; exact hgood
  | succ f ih =>
      intro R P X best hRr hRc hPr hXr hadj hgood
      rw [BK_succ]
      by_cases hbase : P = ∅ ∧ X = ∅
      · rw [if_pos hbase]
        by_cases himp : best.1 < R.card
        · rw [if_pos himp]
          exact ⟨hRr, hRc, rfl⟩
        · rw [if_neg himp]
          exact hgood
      · rw [if_neg hbase]
        have loop : ∀ (vs : List Nat) (P' X' : Finset Nat)
            (best' : Nat × Finset Nat),
            vs.Nodup → (∀ x ∈ vs, x ∈ P') →
            P' ⊆ Finset.range g.V → X' ⊆ Finset.range g.V →
            (∀ x ∈ P' ∪ X', ∀ r ∈ R, g.adj x r ≠ 0) →
            GoodBest g best' →
            GoodBest g (BKLoopWith g (BK_recurse g f) R vs P' X' best') := by
          intro vs
          induction vs with
          | nil => intro P' X' best' _ _ _ _ _ hg'; exact hg'
          | cons v rest ihl =>
              intro P' X' best' hnd hvs hP'r hX'r hadj' hg'
              rw [BKLoop_cons]
              have hvP' : v ∈ P' := hvs v (List.mem_cons_self v rest)
              obtain ⟨hc1, hc2, hc3, hc4, hc5⟩ :=
                BK_child_inv g hwf R P' X' v hRr hRc hP'r hX'r hadj' hvP'
              obtain ⟨hn1, hn2, hn3⟩ :=
                BK_next_inv g R P' X' v hP'r hX'r hadj' hvP'
              refine ihl (P'.erase v) (insert v X') _
                (List.nodup_cons.mp hnd).2 ?_ hn1 hn2 hn3 ?_
              · intro x hx
                rw [Finset.mem_erase]
                exact ⟨fun hxv => (List.nodup_cons.mp hnd).1 (hxv ▸ hx),
                  hvs x (List.mem_cons_of_mem v hx)⟩
              · exact ih (insert v R) _ _ best' hc1 hc2 hc3 hc4 hc5 hg'
        refine loop _ P X best (bsList_nodup g.V _) ?_ hPr hXr hadj hgood
        intro x hx
        rw [bsList_mem] at hx
        by_cases hpiv : 0 ≤ choose_pivot g P X
        · rw [if_pos hpiv] at hx
          exact (Finset.mem_sdiff.mp hx.2).1
        · rw [if_neg hpiv] at hx
          exact hx.2

/-- Completeness of `BK_recurse`: a maximum clique `Q` for which the call is
still responsible (`R ⊆ Q` and the missing part of `Q` is still available in
`P`) forces the returned best size up to `|Q|`.  The pivot cannot lose `Q`:
some vertex of `Q` survives in `P \ N(u)`, because otherwise the pivot `u`
itself would extend `Q` past the clique number (Tomita's argument). -/
theorem BK_complete (g : Graph) (hwf : WF g) (Q : Finset Nat)
    (hQr : Q ⊆ Finset.range g.V) (hQc : IsCliqueSet g Q)
    (hQmax : Q.card = cliqueNumber g) :
    ∀ (fuel : Nat) (R P X : Finset Nat) (best : Nat × Finset Nat),
      P.card < fuel →
      R ⊆ Finset.range g.V → IsCliqueSet g R →
      P ⊆ Finset.range g.V → X ⊆ Finset.range g.V →
      (∀ x ∈ P ∪ X, ∀ r ∈ R, g.adj x r ≠ 0) →
      GoodBest g best →
      R ⊆ Q → Q \ R ⊆ P →
      Q.card ≤ (BK_recurse g fuel R P X best).1 := by
  intro fuel
  induction fuel with
  | zero => intro R P X best hf; exact absurd hf (Nat.not_lt_zero _)
  | succ f ih =>
      intro R P X best hfuel hRr hRc hPr hXr hadj hgood hRQ hQRP
      rw [BK_succ]
      by_cases hbase : P = ∅ ∧ X = ∅
      · rw [if_pos hbase]
        have hQR : Q = R := by
          apply Finset.Subset.antisymm _ hRQ
          intro q hq
          by_contra hqR
          have hqP : q ∈ P := hQRP (Finset.mem_sdiff.mpr ⟨hq, hqR⟩)
          rw [hbase.1] at hqP
          exact absurd hqP (Finset.not_mem_empty q)
        by_cases himp : best.1 < R.card
        · rw [if_pos himp]
          exact le_of_eq (congrArg Finset.card hQR)
        · rw [if_neg himp]
          have h1 : R.card ≤ best.1 := Nat.le_of_not_lt himp
          have h2 : Q.card = R.card := congrArg Finset.card hQR
          omega
      · rw [if_neg hbase]
        have hPXne : (P ∪ X).Nonempty := by
          by_contra hcon
          rw [Finset.not_nonempty_iff_eq_empty, Finset.union_eq_empty]
            at hcon
          exact hbase hcon
        have hPXr : P ∪ X ⊆ Finset.range g.V := Finset.union_subset hPr hXr
        have hpiv := choose_pivot_nonneg_mem g P X hPXr hPXne
        rw [if_pos hpiv.1]
        have huV : (choose_pivot g P X).toNat < g.V :=
          Finset.mem_range.mp (hPXr hpiv.2)
        have hmeets : ∃ q, q ∈ Q ∧
            q ∈ P \ nbN g (choose_pivot g P X).toNat := by
          by_contra hno
          push_neg at hno
          have huadjQ : ∀ q ∈ Q,
              g.adj (choose_pivot g P X).toNat q ≠ 0 := by
            intro q hq
            by_cases hqR : q ∈ R
            · exact hadj _ hpiv.2 q hqR
            · have hqP : q ∈ P := hQRP (Finset.mem_sdiff.mpr ⟨hq, hqR⟩)
              have hqN : q ∈ nbN g (choose_pivot g P X).toNat := by
                by_contra hqN
                exact (hno q hq) (Finset.mem_sdiff.mpr ⟨hqP, hqN⟩)
              exact ((mem_nbN g _ q).mp hqN).2
          have huQ : (choose_pivot g P X).toNat ∈ Q :=
            max_clique_closed g Q hQr hQc hQmax _ huV huadjQ hwf.symm
          exact huadjQ _ huQ (hwf.diag _)
        obtain ⟨w0, hw0Q, hw0P⟩ := hmeets
        have hPf : P.card ≤ f := Nat.lt_succ_iff.mp hfuel
        have loopC : ∀ (vs : List Nat) (P' X' : Finset Nat)
            (best' : Nat × Finset Nat),
            vs.Nodup → (∀ x ∈ vs, x ∈ P') →
            P' ⊆ Finset.range g.V → X' ⊆ Finset.range g.V →
            P'.card ≤ f →
            (∀ x ∈ P' ∪ X', ∀ r ∈ R, g.adj x r ≠ 0) →
            GoodBest g best' →
            Q \ R ⊆ P' →
            (∃ v, v ∈ vs ∧ v ∈ Q) →
            Q.card ≤ (BKLoopWith g (BK_recurse g f) R vs P' X' best').1 := by
          intro vs
          induction vs with
          | nil =>
              intro P' X' best' _ _ _ _ _ _ _ _ hex
              obtain ⟨v, hv, -⟩ := hex
              exact absurd hv (List.not_mem_nil v)
          | cons v rest ihl =>
              intro P' X' best' hnd hvs hP'r hX'r hP'f hadj' hg' hQRP' hex
              rw [BKLoop_cons]
              have hvP' : v ∈ P' := hvs v (List.mem_cons_self v rest)
              obtain ⟨hc1, hc2, hc3, hc4, hc5⟩ :=
                BK_child_inv g hwf R P' X' v hRr hRc hP'r hX'r hadj' hvP'
              obtain ⟨hn1, hn2, hn3⟩ :=
                BK_next_inv g R P' X' v hP'r hX'r hadj' hvP'
              have hcard : (P' ∩ nbN g v).card < f := by
                have hsub : P' ∩ nbN g v ⊆ P'.erase v := by
                  intro y hy
                  rw [Finset.mem_erase]
                  refine ⟨?_, Finset.mem_of_mem_inter_left hy⟩
                  intro hyv
                  have hmem := Finset.mem_of_mem_inter_right hy
                  rw [hyv] at hmem
                  exact not_mem_nbN_self g hwf v hmem
                have h1 := Finset.card_le_card hsub
                have h2 : (P'.erase v).card = P'.card - 1 :=
                  Finset.card_erase_of_mem hvP'
                have h3 : 1 ≤ P'.card := Finset.card_pos.mpr ⟨v, hvP'⟩
                omega
              by_cases hvQ : v ∈ Q
              · have hchild : Q.card ≤ (BK_recurse g f (insert v R)
                    (P' ∩ nbN g v) (X' ∩ nbN g v) best').1 := by
                  refine ih (insert v R) _ _ best' hcard hc1 hc2 hc3 hc4 hc5
                    hg' ?_ ?_
                  · intro y hy
                    rw [Finset.mem_insert] at hy
                    rcases hy with rfl | hy
                    · exact hvQ
                    · exact hRQ hy
                  · intro q hq
                    rw [Finset.mem_sdiff, Finset.mem_insert] at hq
                    push_neg at hq
                    obtain ⟨hqQ, hqv, hqR⟩ := hq
                    rw [Finset.mem_inter]
                    refine ⟨hQRP' (Finset.mem_sdiff.mpr ⟨hqQ, hqR⟩), ?_⟩
                    rw [mem_nbN]
                    exact ⟨Finset.mem_range.mp (hQr hqQ),
                      hQc v hvQ q hqQ (Ne.symm hqv)⟩
                exact le_trans hchild
                  (BKLoop_mono g (BK_recurse g f) (BK_mono g f) rest R
                    (P'.erase v) (insert v X') _)
              · have hg'' : GoodBest g (BK_recurse g f (insert v R)
                    (P' ∩ nbN g v) (X' ∩ nbN g v) best') :=
                  BK_sound g hwf f (insert v R) _ _ best' hc1 hc2 hc3 hc4
                    hc5 hg'
                refine ihl (P'.erase v) (insert v X') _
                  (List.nodup_cons.mp hnd).2 ?_ hn1 hn2 ?_ hn3 hg'' ?_ ?_
                · intro x hx
                  rw [Finset.mem_erase]
                  exact ⟨fun hxv => (List.nodup_cons.mp hnd).1 (hxv ▸ hx),
                    hvs x (List.mem_cons_of_mem v hx)⟩
                · have h2 : (P'.erase v).card = P'.card - 1 :=
                    Finset.card_erase_of_mem hvP'
                  omega
                · intro q hq
                  rw [Finset.mem_erase]
                  refine ⟨?_, hQRP' hq⟩
                  intro hqv
                  exact hvQ (hqv ▸ (Finset.mem_sdiff.mp hq).1)
                · obtain ⟨x, hx, hxQ⟩ := hex
                  rcases List.mem_cons.mp hx with rfl | hxrest
                  · exact absurd hxQ hvQ
                  · exact ⟨x, hxrest, hxQ⟩
        refine loopC _ P X best (bsList_nodup g.V _) ?_ hPr hXr hPf hadj
          hgood hQRP ?_
        · intro x hx
          rw [bsList_mem] at hx
          exact (Finset.mem_sdiff.mp hx.2).1
        · refine ⟨w0, ?_, hw0Q⟩
          rw [bsList_mem]
          exact ⟨Finset.mem_range.mp (hPr (Finset.mem_sdiff.mp hw0P).1), hw0P⟩

theorem bsList_length_card (V : Nat) (S : Finset Nat)
    (hS : S ⊆ Finset.range V) : (bsList V S).length = S.card := by
  have hft : (bsList V S).toFinset = S := by
    ext x
    rw [List.mem_toFinset, bsList_mem]
    constructor
    · exact fun h => h.2
    · intro hx
      exact ⟨Finset.mem_range.mp (hS hx), hx⟩
  calc (bsList V S).length = (bsList V S).toFinset.card :=
    (List.toFinset_card_of_nodup (bsList_nodup V S)).symm
  _ = S.card := by rw [hft]

theorem bsList_pairwise_lt (V : Nat) (S : Finset Nat) :
    List.Pairwise (fun a b => a < b) (bsList V S) := by
  unfold bsList
  exact List.Pairwise.filter _ (List.pairwise_lt_range V)

/-- C3: `max_clique` returns `k` equal to the clique number of the graph,
and its member list is a clique of exactly `k` distinct vertices, written in
strictly ascending index order. -/
theorem claim_C3_max_clique (g : Graph) (hwf : WF g) :
    (max_clique g).1 = cliqueNumber g ∧
    (max_clique g).2.length = (max_clique g).1 ∧
    List.Pairwise (fun a b => a < b) (max_clique g).2 ∧
    (∀ a ∈ (max_clique g).2, ∀ b ∈ (max_clique g).2,
      a ≠ b → g.adj a b ≠ 0) := by
  have hgood0 : GoodBest g ((0 : Nat), (∅ : Finset Nat)) :=
    ⟨Finset.empty_subset _, IsCliqueSet_empty g, rfl⟩
  have hadj0 : ∀ x ∈ Finset.range g.V ∪ (∅ : Finset Nat),
      ∀ r ∈ (∅ : Finset Nat), g.adj x r ≠ 0 := by
    intro x hx r hr
    exact absurd hr (Finset.not_mem_empty r)
  have hsound : GoodBest g
      (BK_recurse g (g.V + 1) ∅ (Finset.range g.V) ∅ (0, ∅)) :=
    BK_sound g hwf (g.V + 1) ∅ (Finset.range g.V) ∅ (0, ∅)
      (Finset.empty_subset _) (IsCliqueSet_empty g)
      (fun y hy => hy) (Finset.empty_subset _) hadj0 hgood0
  obtain ⟨Q, hQr, hQc, hQmax⟩ := cliqueNumber_attained g
  have hcomp : Q.card ≤
      (BK_recurse g (g.V + 1) ∅ (Finset.range g.V) ∅ (0, ∅)).1 := by
    apply BK_complete g hwf Q hQr hQc hQmax (g.V + 1) ∅ (Finset.range g.V)
      ∅ (0, ∅)
    · rw [Finset.card_range]
      omega
    · exact Finset.empty_subset _
    · exact IsCliqueSet_empty g
    · exact fun y hy => hy
    · exact Finset.empty_subset _
    · exact hadj0
    · exact hgood0
    · exact Finset.empty_subset _
    · rw [Finset.sdiff_empty]
      exact hQr
  obtain ⟨hr1, hr2, hr3⟩ := hsound
  have hub : (BK_recurse g (g.V + 1) ∅ (Finset.range g.V) ∅ (0, ∅)).1 ≤
      cliqueNumber g := by
    rw [← hr3]
    exact cliqueNumber_ge g _ hr1 hr2
  have hk : (BK_recurse g (g.V + 1) ∅ (Finset.range g.V) ∅ (0, ∅)).1 =
      cliqueNumber g :=
    le_antisymm hub (by rw [← hQmax]; exact hcomp)
  refine ⟨hk, ?_, ?_, ?_⟩
  · show (bsList g.V
        (BK_recurse g (g.V + 1) ∅ (Finset.range g.V) ∅ (0, ∅)).2).length =
      (BK_recurse g (g.V + 1) ∅ (Finset.range g.V) ∅ (0, ∅)).1
    rw [bsList_length_card g.V _ hr1, hr3]
  · exact bsList_pairwise_lt g.V _
  · intro a ha b hb hab
    have haS : a ∈ (BK_recurse g (g.V + 1) ∅ (Finset.range g.V) ∅
        (0, ∅)).2 := ((bsList_mem g.V _ a).mp ha).2
    have hbS : b ∈ (BK_recurse g (g.V + 1) ∅ (Finset.range g.V) ∅
        (0, ∅)).2 := ((bsList_mem g.V _ b).mp hb).2
    exact hr2 a haS b hbS hab

theorem claim_C3_max_clique_witness :
    WF (buildGraph 4 [(0, 1, 1), (0, 2, 1), (1, 2, 1), (2, 3, 1)]) ∧
    ((max_clique (buildGraph 4 [(0, 1, 1), (0, 2, 1), (1, 2, 1),
        (2, 3, 1)])).1 =
      cliqueNumber (buildGraph 4 [(0, 1, 1), (0, 2, 1), (1, 2, 1),
        (2, 3, 1)]) ∧
     (max_clique (buildGraph 4 [(0, 1, 1), (0, 2, 1), (1, 2, 1),
        (2, 3, 1)])).2.length =
      (max_clique (buildGraph 4 [(0, 1, 1), (0, 2, 1), (1, 2, 1),
        (2, 3, 1)])).1 ∧
     List.Pairwise (fun a b => a < b)
      (max_clique (buildGraph 4 [(0, 1, 1), (0, 2, 1), (1, 2, 1),
        (2, 3, 1)])).2 ∧
     (∀ a ∈ (max_clique (buildGraph 4 [(0, 1, 1), (0, 2, 1), (1, 2, 1),
        (2, 3, 1)])).2,
      ∀ b ∈ (max_clique (buildGraph 4 [(0, 1, 1), (0, 2, 1), (1, 2, 1),
        (2, 3, 1)])).2,
      a ≠ b →
        (buildGraph 4 [(0, 1, 1), (0, 2, 1), (1, 2, 1), (2, 3, 1)]).adj a b
          ≠ 0)) :=
  ⟨buildGraph_WF 4 [(0, 1, 1), (0, 2, 1), (1, 2, 1), (2, 3, 1)],
   claim_C3_max_clique (buildGraph 4 [(0, 1, 1), (0, 2, 1), (1, 2, 1),
      (2, 3, 1)])
    (buildGraph_WF 4 [(0, 1, 1), (0, 2, 1), (1, 2, 1), (2, 3, 1)])⟩

example :
    max_clique (buildGraph 4 [(0, 1, 1), (0, 2, 1), (1, 2, 1), (2, 3, 1)]) =
      (3, [0, 1, 2]) := by
  decide

example :
    max_clique (buildGraph 4 [(0, 1, 1), (0, 2, 1), (0, 3, 1), (1, 2, 1),
      (1, 3, 1), (2, 3, 1)]) = (4, [0, 1, 2, 3]) := by
  decide

/-! ### C1: correctness of `euler_circuit` (graph.c 113-173)

The `while (top > 0)` loop is analysed through its step function `stepE`:
`stepN` iterates it, and the master lemma `euler_pop` describes — by strong
induction on the number of remaining edges — how the loop processes the top
of the stack down to its pop, consuming a closed excursion of edges. -/

/-- `n` iterations of the Euler loop body. -/
def stepN (V : Nat) : Nat → EState → EState
  | 0, s => s
  | n + 1, s => stepN V n (stepE V s)

theorem stepN_add (V : Nat) (a b : Nat) (s : EState) :
    stepN V (a + b) s = stepN V b (stepN V a s) := by
  induction a generalizing s with
  | zero =>
      rw [Nat.zero_add]
      rfl
  | succ a iha =>
      have h1 : a + 1 + b = (a + b) + 1 := by omega
      rw [h1]
      show stepN V (a + b) (stepE V s) = _
      rw [iha (stepE V s)]
      rfl

theorem eulerGo_empty (V : Nat) : ∀ (fuel : Nat) (s : EState),
    s.stack = [] → eulerGo V fuel s = s := by
  intro fuel
  induction fuel with
  | zero => intro s _; rfl
  | succ f _ =>
      intro s hs
      show (if s.stack = [] then s else eulerGo V f (stepE V s)) = s
      rw [if_pos hs]

/-- As long as the stack stays nonempty, the fuelled loop agrees with plain
step iteration. -/
theorem eulerGo_stepN (V : Nat) : ∀ (n fuel : Nat) (s : EState),
    n ≤ fuel → (∀ m, m < n → (stepN V m s).stack ≠ []) →
    eulerGo V fuel s = eulerGo V (fuel - n) (stepN V n s) := by
  intro n
  induction n with
  | zero => intro fuel s _ _; rfl
  | succ n ih =>
      intro fuel s hle hne
      obtain ⟨f, rfl⟩ : ∃ f, fuel = f + 1 := ⟨fuel - 1, by omega⟩
      have hs : s.stack ≠ [] := hne 0 (by omega)
      show (if s.stack = [] then s else eulerGo V f (stepE V s)) = _
      rw [if_neg hs]
      have harith : f + 1 - (n + 1) = f - n := by omega
      rw [harith]
      have hstep : stepN V (n + 1) s = stepN V n (stepE V s) := rfl
      rw [hstep]
      apply ih f (stepE V s) (by omega)
      intro m hm
      exact hne (m + 1) (by omega)

/-- Row sum over `0..V-1`: the working degree of `u` in matrix `A` (the C
`deg[u]`, kept in sync with the working adjacency copy). -/
def degA (V : Nat) (A : Nat → Nat → Int) (u : Nat) : Int :=
  (List.range V).foldl (fun d v => d + A u v) 0

theorem foldl_add_eq_sum (f : Nat → Int) :
    ∀ (l : List Nat) (c : Int),
      l.foldl (fun d v => d + f v) c = c + (l.map f).sum := by
  intro l
  induction l with
  | nil => intro c; simp
  | cons x xs ih =>
      intro c
      rw [List.foldl_cons, List.map_cons, List.sum_cons, ih]
      ring

theorem degA_eq_sum (V : Nat) (A : Nat → Nat → Int) (u : Nat) :
    degA V A u = ((List.range V).map (A u)).sum := by
  unfold degA
  rw [foldl_add_eq_sum]
  ring

theorem sum_map_congr (f g : Nat → Int) :
    ∀ (l : List Nat), (∀ v ∈ l, f v = g v) →
      (l.map f).sum = (l.map g).sum := by
  intro l
  induction l with
  | nil => intro _; rfl
  | cons x xs ih =>
      intro h
      rw [List.map_cons, List.map_cons, List.sum_cons, List.sum_cons,
        h x (List.mem_cons_self x xs),
        ih (fun v hv => h v (List.mem_cons_of_mem x hv))]

theorem sum_map_update (f : Nat → Int) (t : Nat) (x : Int) :
    ∀ (l : List Nat), l.Nodup → t ∈ l →
      (l.map (setF f t x)).sum = (l.map f).sum + (x - f t) := by
  intro l
  induction l with
  | nil => intro _ h; exact absurd h (List.not_mem_nil t)
  | cons a as ih =>
      intro hnd hmem
      rw [List.map_cons, List.map_cons, List.sum_cons, List.sum_cons]
      rcases List.mem_cons.mp hmem with rfl | hmem'
      · have hhead : setF f t x t = x := by simp [setF]
        rw [hhead]
        have htail : (as.map (setF f t x)).sum = (as.map f).sum := by
          apply sum_map_congr
          intro v hv
          have hvt : v ≠ t := by
            intro h
            exact (List.nodup_cons.mp hnd).1 (h ▸ hv)
          simp [setF, hvt]
        rw [htail]
        ring
      · have ha : setF f t x a = f a := by
          have hat : a ≠ t := by
            intro h
            apply (List.nodup_cons.mp hnd).1
            rw [h]
            exact hmem'
          simp [setF, hat]
        rw [ha, ih (List.nodup_cons.mp hnd).2 hmem']
        ring

theorem sum_map_nonneg (f : Nat → Int) :
    ∀ (l : List Nat), (∀ x ∈ l, 0 ≤ f x) → 0 ≤ (l.map f).sum := by
  intro l
  induction l with
  | nil => intro _; exact le_refl 0
  | cons x xs ih =>
      intro h
      rw [List.map_cons, List.sum_cons]
      have h1 := h x (List.mem_cons_self x xs)
      have h2 := ih (fun v hv => h v (List.mem_cons_of_mem x hv))
      omega

theorem sum_ge_single (f : Nat → Int) :
    ∀ (l : List Nat), (∀ x ∈ l, 0 ≤ f x) → ∀ t ∈ l, f t ≤ (l.map f).sum := by
  intro l
  induction l with
  | nil => intro _ t ht; exact absurd ht (List.not_mem_nil t)
  | cons a as ih =>
      intro h t ht
      rw [List.map_cons, List.sum_cons]
      rcases List.mem_cons.mp ht with rfl | hmem
      · have h2 := sum_map_nonneg f as
          (fun v hv => h v (List.mem_cons_of_mem t hv))
        omega
      · have h1 := h a (List.mem_cons_self a as)
        have h2 := ih (fun v hv => h v (List.mem_cons_of_mem a hv)) t hmem
        omega

/-- The data-model invariant of the Euler loop: a symmetric 0/1 working
matrix supported below `V`, with `deg` in sync (`deg[u]` is row `u`'s sum,
cf. graph.c 124-126 and the paired decrements at 146-147). -/
structure InvE (V : Nat) (A : Nat → Nat → Int) (D : Nat → Int) : Prop where
  symmA : ∀ i j, A i j = A j i
  diagA : ∀ i, A i i = 0
  binA : ∀ i j, A i j = 0 ∨ A i j = 1
  supA : ∀ i j, V ≤ i ∨ V ≤ j → A i j = 0
  degD : ∀ x, D x = degA V A x

theorem degA_nonneg (V : Nat) (A : Nat → Nat → Int)
    (hbin : ∀ i j, A i j = 0 ∨ A i j = 1) (u : Nat) : 0 ≤ degA V A u := by
  rw [degA_eq_sum]
  apply sum_map_nonneg
  intro x _
  rcases hbin u x with h | h <;> omega

theorem degA_zero_of_row (V : Nat) (A : Nat → Nat → Int) (u : Nat)
    (h : ∀ j, j < V → A u j = 0) : degA V A u = 0 := by
  rw [degA_eq_sum]
  rw [sum_map_congr (A u) (fun _ => 0) (List.range V)
    (fun j hj => h j (List.mem_range.mp hj))]
  simp

theorem degA_pos_of_entry (V : Nat) (A : Nat → Nat → Int)
    (hbin : ∀ i j, A i j = 0 ∨ A i j = 1) (u y : Nat) (hyV : y < V)
    (h1 : A u y = 1) : 0 < degA V A u := by
  rw [degA_eq_sum]
  have := sum_ge_single (A u) (List.range V)
    (fun x _ => by rcases hbin u x with h | h <;> omega)
    y (List.mem_range.mpr hyV)
  omega

/-- The paired matrix decrement of one consumed edge (graph.c 146). -/
def consume (A : Nat → Nat → Int) (u v : Nat) : Nat → Nat → Int :=
  setCell (setCell A u v (A u v - 1)) v u
    ((setCell A u v (A u v - 1)) v u - 1)

/-- The paired degree decrement of one consumed edge (graph.c 147). -/
def consumeD (D : Nat → Int) (u v : Nat) : Nat → Int :=
  setF (setF D u (D u - 1)) v ((setF D u (D u - 1)) v - 1)

theorem consume_spec (A : Nat → Nat → Int) (u v : Nat) (huv : u ≠ v)
    (i j : Nat) :
    consume A u v i j =
      if i = u ∧ j = v then A u v - 1
      else if i = v ∧ j = u then A v u - 1
      else A i j := by
  unfold consume
  by_cases h2 : i = v ∧ j = u
  · obtain ⟨rfl, rfl⟩ := h2
    rw [setCell_eq]
    have hvu : ¬(i = j ∧ j = i) := fun h => huv h.2
    rw [setCell_ne _ _ _ _ _ _ hvu]
    rw [if_neg hvu, if_pos ⟨rfl, rfl⟩]
  · rw [setCell_ne _ _ _ _ _ _ h2]
    by_cases h1 : i = u ∧ j = v
    · obtain ⟨rfl, rfl⟩ := h1
      rw [setCell_eq, if_pos ⟨rfl, rfl⟩]
    · rw [setCell_ne _ _ _ _ _ _ h1, if_neg h1, if_neg h2]

theorem consumeD_spec (D : Nat → Int) (u v : Nat) (huv : u ≠ v) (x : Nat) :
    consumeD D u v x =
      if x = u then D u - 1 else if x = v then D v - 1 else D x := by
  simp only [consumeD, setF]
  by_cases hxu : x = u
  · subst hxu
    have hxv : ¬ (x = v) := huv
    simp [hxv, huv]
  · by_cases hxv : x = v
    · subst hxv
      have hvu : ¬ (x = u) := hxu
      simp [hvu, fun h => hxu h]
    · simp [hxu, hxv]

/-- One consumed edge keeps the loop's data-model invariant. -/
theorem InvE_consume (V : Nat) (A : Nat → Nat → Int) (D : Nat → Int)
    (hinv : InvE V A D) (u v : Nat) (h1 : A u v = 1) :
    InvE V (consume A u v) (consumeD D u v) := by
  have huv : u ≠ v := by
    intro h
    rw [h, hinv.diagA v] at h1
    exact absurd h1 (by norm_num)
  have huV : u < V := by
    by_contra hc
    push_neg at hc
    rw [hinv.supA u v (Or.inl hc)] at h1
    exact absurd h1 (by norm_num)
  have hvV : v < V := by
    by_contra hc
    push_neg at hc
    rw [hinv.supA u v (Or.inr hc)] at h1
    exact absurd h1 (by norm_num)
  refine ⟨?_, ?_, ?_, ?_, ?_⟩
  · intro i j
    rw [consume_spec A u v huv i j, consume_spec A u v huv j i]
    by_cases hij1 : i = u ∧ j = v
    · obtain ⟨rfl, rfl⟩ := hij1
      rw [if_pos ⟨rfl, rfl⟩]
      rw [if_neg (fun hc => huv hc.2), if_pos ⟨rfl, rfl⟩]
      rw [hinv.symmA i j]
    · by_cases hij2 : i = v ∧ j = u
      · obtain ⟨rfl, rfl⟩ := hij2
        rw [if_neg (fun hc => huv hc.2), if_pos ⟨rfl, rfl⟩]
        rw [if_pos ⟨rfl, rfl⟩]
        rw [hinv.symmA j i]
      · have hji1 : ¬(j = u ∧ i = v) := fun hc => hij2 ⟨hc.2, hc.1⟩
        have hji2 : ¬(j = v ∧ i = u) := fun hc => hij1 ⟨hc.2, hc.1⟩
        rw [if_neg hij1, if_neg hij2, if_neg hji1, if_neg hji2]
        exact hinv.symmA i j
  · intro i
    rw [consume_spec A u v huv i i]
    rw [if_neg (fun hc => huv (by rw [← hc.1, hc.2])),
      if_neg (fun hc => huv (by rw [← hc.2, hc.1]))]
    exact hinv.diagA i
  · intro i j
    rw [consume_spec A u v huv i j]
    by_cases hij1 : i = u ∧ j = v
    · rw [if_pos hij1]
      obtain ⟨rfl, rfl⟩ := hij1
      rw [h1]
      norm_num
    · rw [if_neg hij1]
      by_cases hij2 : i = v ∧ j = u
      · rw [if_pos hij2]
        obtain ⟨rfl, rfl⟩ := hij2
        rw [show A i j = 1 from by rw [hinv.symmA i j]; exact h1]
        norm_num
      · rw [if_neg hij2]
        exact hinv.binA i j
  · intro i j hV
    rw [consume_spec A u v huv i j]
    have hc1 : ¬(i = u ∧ j = v) := by
      rintro ⟨rfl, rfl⟩
      rcases hV with h | h <;> omega
    have hc2 : ¬(i = v ∧ j = u) := by
      rintro ⟨rfl, rfl⟩
      rcases hV with h | h <;> omega
    rw [if_neg hc1, if_neg hc2]
    exact hinv.supA i j hV
  · intro x
    rw [consumeD_spec D u v huv x]
    by_cases hxu : x = u
    · subst hxu
      rw [if_pos rfl, hinv.degD x]
      rw [degA_eq_sum, degA_eq_sum]
      have hrow : ∀ j ∈ List.range V,
          consume A x v x j = setF (A x) v (A x v - 1) j := by
        intro j _
        rw [consume_spec A x v huv x j]
        by_cases hjv : j = v
        · rw [if_pos ⟨rfl, hjv⟩]
          simp [setF, hjv]
        · rw [if_neg (fun hc => hjv hc.2), if_neg (fun hc => huv hc.1)]
          simp [setF, hjv]
      have hcg := sum_map_congr (consume A x v x)
        (setF (A x) v (A x v - 1)) (List.range V) hrow
      rw [hcg]
      rw [sum_map_update (A x) v (A x v - 1) (List.range V)
        (List.nodup_range V) (List.mem_range.mpr hvV)]
      ring
    · by_cases hxv : x = v
      · subst hxv
        rw [if_neg hxu, if_pos rfl, hinv.degD x]
        rw [degA_eq_sum, degA_eq_sum]
        have hrow : ∀ j ∈ List.range V,
            consume A u x x j = setF (A x) u (A x u - 1) j := by
          intro j _
          rw [consume_spec A u x huv x j]
          by_cases hju : j = u
          · rw [if_neg (fun hc => hxu hc.1), if_pos ⟨rfl, hju⟩]
            simp [setF, hju]
          · rw [if_neg (fun hc => hxu hc.1), if_neg (fun hc => hju hc.2)]
            simp [setF, hju]
        have hcg := sum_map_congr (consume A u x x)
          (setF (A x) u (A x u - 1)) (List.range V) hrow
        rw [hcg]
        rw [sum_map_update (A x) u (A x u - 1) (List.range V)
          (List.nodup_range V) (List.mem_range.mpr huV)]
        ring
      · rw [if_neg hxu, if_neg hxv, hinv.degD x]
        rw [degA_eq_sum, degA_eq_sum]
        have hrow : ∀ j ∈ List.range V, consume A u v x j = A x j := by
          intro j _
          rw [consume_spec A u v huv x j]
          rw [if_neg (fun hc => hxu hc.1), if_neg (fun hc => hxv hc.1)]
        exact (sum_map_congr (consume A u v x) (A x)
          (List.range V) hrow).symm

/-- Consuming the edge `\x7bu, v\x7d` moves the odd-degree pair from
`\x7bu, b\x7d` to `\x7bv, b\x7d`: the parity debt follows the stack top. -/
theorem par_consume (D : Nat → Int) (u v b : Nat) (huv : u ≠ v)
    (hpar : ∀ x, ¬ Even (D x) ↔ (u ≠ b ∧ (x = u ∨ x = b))) :
    ∀ x, ¬ Even (consumeD D u v x) ↔ (v ≠ b ∧ (x = v ∨ x = b)) := by
  intro x
  rw [consumeD_spec D u v huv x]
  by_cases hxu : x = u
  · subst hxu
    rw [if_pos rfl]
    have h1 : ¬ Even (D x - 1) ↔ Even (D x) := by
      rw [Int.even_sub_one]
      tauto
    rw [h1]
    have h3 : ¬ Even (D x) ↔ x ≠ b := by
      rw [hpar x]
      tauto
    constructor
    · intro hE
      have hub : x = b := by
        by_contra hub
        exact (h3.mpr hub) hE
      refine ⟨?_, Or.inr hub⟩
      rw [← hub]
      exact Ne.symm huv
    · rintro ⟨hvb, hcase⟩
      rcases hcase with h | h
      · exact absurd h huv
      · by_contra hne
        exact (h3.mp hne) h
  · by_cases hxv : x = v
    · subst hxv
      rw [if_neg hxu, if_pos rfl]
      have h1 : ¬ Even (D x - 1) ↔ Even (D x) := by
        rw [Int.even_sub_one]
        tauto
      rw [h1]
      constructor
      · intro hE
        refine ⟨?_, Or.inl rfl⟩
        intro hvb
        have hub : u ≠ b := by
          rw [← hvb]
          exact huv
        exact (hpar x).mpr ⟨hub, Or.inr hvb⟩ hE
      · rintro ⟨hvb, -⟩
        by_contra hne
        obtain ⟨hub, hcase⟩ := (hpar x).mp hne
        rcases hcase with h | h
        · exact hxu h
        · exact hvb h
    · rw [if_neg hxu, if_neg hxv]
      rw [hpar x]
      constructor
      · rintro ⟨hub, hcase⟩
        rcases hcase with h | h
        · exact absurd h hxu
        · refine ⟨?_, Or.inr h⟩
          intro hvb
          exact hxv (h.trans hvb.symm)
      · rintro ⟨hvb, hcase⟩
        rcases hcase with h | h
        · exact absurd h hxv
        · refine ⟨?_, Or.inr h⟩
          intro hub
          exact hxu (h.trans hub.symm)

/-- The multiset of (unordered) edges of a working matrix: one `s(i, j)` per
strictly-above-diagonal 1-entry. -/
def EdgesM (V : Nat) (A : Nat → Nat → Int) : Multiset (Sym2 Nat) :=
  ((Finset.range V ×ˢ Finset.range V).filter
    (fun p => p.1 < p.2 ∧ A p.1 p.2 = 1)).val.map (fun p => s(p.1, p.2))

theorem EdgesM_mem_iff (V : Nat) (A : Nat → Nat → Int)
    (hsymm : ∀ i j, A i j = A j i) (a b : Nat) (hab : a ≠ b) :
    s(a, b) ∈ EdgesM V A ↔ a < V ∧ b < V ∧ A a b = 1 := by
  unfold EdgesM
  rw [Multiset.mem_map]
  constructor
  · rintro ⟨p, hp, heq⟩
    rw [Finset.mem_val, Finset.mem_filter, Finset.mem_product] at hp
    obtain ⟨⟨hp1, hp2⟩, _, hA⟩ := hp
    rw [Finset.mem_range] at hp1 hp2
    rcases Sym2.eq_iff.mp heq with ⟨h1, h2⟩ | ⟨h1, h2⟩
    · exact ⟨h1 ▸ hp1, h2 ▸ hp2, by rw [← h1, ← h2]; exact hA⟩
    · refine ⟨h2 ▸ hp2, h1 ▸ hp1, ?_⟩
      rw [hsymm a b, ← h1, ← h2]
      exact hA
  · rintro ⟨haV, hbV, hA⟩
    rcases Nat.lt_or_ge a b with hlt | hge
    · refine ⟨(a, b), ?_, rfl⟩
      rw [Finset.mem_val, Finset.mem_filter, Finset.mem_product]
      exact ⟨⟨Finset.mem_range.mpr haV, Finset.mem_range.mpr hbV⟩, hlt, hA⟩
    · have hblt : b < a := by
        rcases Nat.lt_or_ge b a with h | h
        · exact h
        · exact absurd (Nat.le_antisymm hge h) (Ne.symm hab)
      refine ⟨(b, a), ?_, Sym2.eq_swap⟩
      rw [Finset.mem_val, Finset.mem_filter, Finset.mem_product]
      refine ⟨⟨Finset.mem_range.mpr hbV, Finset.mem_range.mpr haV⟩, hblt, ?_⟩
      rw [hsymm b a]
      exact hA

theorem consume_comm (A : Nat → Nat → Int) (u v : Nat) (huv : u ≠ v) :
    consume A u v = consume A v u := by
  funext i j
  rw [consume_spec A u v huv i j, consume_spec A v u (Ne.symm huv) i j]
  by_cases h1 : i = u ∧ j = v
  · obtain ⟨rfl, rfl⟩ := h1
    rw [if_pos ⟨rfl, rfl⟩, if_neg (fun hc => huv hc.1), if_pos ⟨rfl, rfl⟩]
  · rw [if_neg h1]
    by_cases h2 : i = v ∧ j = u
    · obtain ⟨rfl, rfl⟩ := h2
      rw [if_pos ⟨rfl, rfl⟩, if_pos ⟨rfl, rfl⟩]
    · rw [if_neg h2, if_neg h2, if_neg h1]

/-- Consuming an existing edge removes exactly one copy of `s(a, b)` from
the edge multiset (directed version: `a < b`). -/
theorem EdgesM_consume_lt (V : Nat) (A : Nat → Nat → Int)
    (hsup : ∀ i j, V ≤ i ∨ V ≤ j → A i j = 0)
    (a b : Nat) (hab : a < b) (h1 : A a b = 1) :
    EdgesM V A = s(a, b) ::ₘ EdgesM V (consume A a b) := by
  have hne : a ≠ b := Nat.ne_of_lt hab
  have haV : a < V := by
    by_contra hc
    push_neg at hc
    rw [hsup a b (Or.inl hc)] at h1
    exact absurd h1 (by norm_num)
  have hbV : b < V := by
    by_contra hc
    push_neg at hc
    rw [hsup a b (Or.inr hc)] at h1
    exact absurd h1 (by norm_num)
  have hqmem : (a, b) ∈ (Finset.range V ×ˢ Finset.range V).filter
      (fun p => p.1 < p.2 ∧ A p.1 p.2 = 1) := by
    rw [Finset.mem_filter, Finset.mem_product]
    exact ⟨⟨Finset.mem_range.mpr haV, Finset.mem_range.mpr hbV⟩, hab, h1⟩
  have hFeq : (Finset.range V ×ˢ Finset.range V).filter
      (fun p => p.1 < p.2 ∧ consume A a b p.1 p.2 = 1) =
      ((Finset.range V ×ˢ Finset.range V).filter
        (fun p => p.1 < p.2 ∧ A p.1 p.2 = 1)).erase (a, b) := by
    ext p
    rw [Finset.mem_erase, Finset.mem_filter, Finset.mem_filter]
    constructor
    · rintro ⟨hmem, hlt, hA⟩
      rw [consume_spec A a b hne p.1 p.2] at hA
      by_cases hp1 : p.1 = a ∧ p.2 = b
      · rw [if_pos hp1] at hA
        rw [h1] at hA
        exact absurd hA (by norm_num)
      · by_cases hp2 : p.1 = b ∧ p.2 = a
        · exfalso
          obtain ⟨he1, he2⟩ := hp2
          rw [he1, he2] at hlt
          omega
        · rw [if_neg hp1, if_neg hp2] at hA
          refine ⟨?_, hmem, hlt, hA⟩
          intro hpq
          apply hp1
          rw [hpq]
          exact ⟨rfl, rfl⟩
    · rintro ⟨hpq, hmem, hlt, hA⟩
      refine ⟨hmem, hlt, ?_⟩
      rw [consume_spec A a b hne p.1 p.2]
      have hp1 : ¬(p.1 = a ∧ p.2 = b) := by
        rintro ⟨he1, he2⟩
        apply hpq
        rw [Prod.ext_iff]
        exact ⟨he1, he2⟩
      have hp2 : ¬(p.1 = b ∧ p.2 = a) := by
        rintro ⟨he1, he2⟩
        rw [he1, he2] at hlt
        omega
      rw [if_neg hp1, if_neg hp2]
      exact hA
  unfold EdgesM
  rw [hFeq]
  have hins : (Finset.range V ×ˢ Finset.range V).filter
      (fun p => p.1 < p.2 ∧ A p.1 p.2 = 1) =
      insert (a, b) (((Finset.range V ×ˢ Finset.range V).filter
        (fun p => p.1 < p.2 ∧ A p.1 p.2 = 1)).erase (a, b)) :=
    (Finset.insert_erase hqmem).symm
  conv_lhs => rw [hins]
  rw [Finset.insert_val_of_not_mem (Finset.not_mem_erase (a, b) _)]
  rw [Multiset.map_cons]

/-- Consuming an existing edge removes exactly one copy of `s(u, v)` from
the edge multiset. -/
theorem EdgesM_consume (V : Nat) (A : Nat → Nat → Int)
    (hsymm : ∀ i j, A i j = A j i)
    (hsup : ∀ i j, V ≤ i ∨ V ≤ j → A i j = 0)
    (u v : Nat) (huv : u ≠ v) (h1 : A u v = 1) :
    EdgesM V A = s(u, v) ::ₘ EdgesM V (consume A u v) := by
  rcases Nat.lt_or_ge u v with hlt | hge
  · exact EdgesM_consume_lt V A hsup u v hlt h1
  · have hvu : v < u := by
      rcases Nat.lt_or_ge v u with h | h
      · exact h
      · exact absurd (Nat.le_antisymm hge h) (Ne.symm huv)
    have h1' : A v u = 1 := by
      rw [hsymm v u]
      exact h1
    rw [consume_comm A u v huv]
    rw [EdgesM_consume_lt V A hsup v u hvu h1']
    rw [Sym2.eq_swap]

/-- The multiset of consecutive unordered pairs of a vertex list (the edges
traversed by the output path). -/
def CPm (l : List Nat) : Multiset (Sym2 Nat) :=
  (((l.zip l.tail).map (fun q => s(q.1, q.2)) : List (Sym2 Nat)) :
    Multiset (Sym2 Nat))

theorem CPm_cons₂ (a h : Nat) (t : List Nat) :
    CPm (a :: h :: t) = s(a, h) ::ₘ CPm (h :: t) := rfl

theorem CPm_card (l : List Nat) : (CPm l).card = l.length - 1 := by
  unfold CPm
  rw [Multiset.coe_card, List.length_map, List.length_zip, List.length_tail]
  rw [Nat.min_eq_right (Nat.sub_le _ _)]

theorem CPm_mem_pair (l : List Nat) (a b : Nat) (h : s(a, b) ∈ CPm l) :
    a ∈ l ∧ b ∈ l := by
  unfold CPm at h
  rw [Multiset.mem_coe, List.mem_map] at h
  obtain ⟨q, hq, heq⟩ := h
  have hq1 := (List.of_mem_zip hq).1
  have hq2 := List.mem_of_mem_tail (List.of_mem_zip hq).2
  rcases Sym2.eq_iff.mp heq with ⟨h1, h2⟩ | ⟨h1, h2⟩
  · exact ⟨h1 ▸ hq1, h2 ▸ hq2⟩
  · exact ⟨h2 ▸ hq2, h1 ▸ hq1⟩

theorem getLastD_indep (t : List Nat) :
    ∀ (c d d' : Nat), (c :: t).getLastD d = (c :: t).getLastD d' := by
  induction t with
  | nil => intro c d d'; rfl
  | cons x t' ih => intro c d d'; exact ih x d d'

theorem getLastD_cons_of_ne (a : Nat) (l : List Nat) (h : l ≠ []) (d : Nat) :
    (a :: l).getLastD d = l.getLastD d := by
  cases l with
  | nil => exact absurd rfl h
  | cons c t =>
      show (c :: t).getLastD a = (c :: t).getLastD d
      exact getLastD_indep t c a d

theorem headD_append_left (l₁ l₂ : List Nat) (h : l₁ ≠ []) :
    (l₁ ++ l₂).headD 0 = l₁.headD 0 := by
  cases l₁ with
  | nil => exact absurd rfl h
  | cons a t => rfl

theorem CPm_append (l₁ : List Nat) (h₁ : l₁ ≠ []) (l₂ : List Nat)
    (h₂ : l₂ ≠ []) :
    CPm (l₁ ++ l₂) =
      CPm l₁ + (s(l₁.getLastD 0, l₂.headD 0) ::ₘ CPm l₂) := by
  induction l₁ with
  | nil => exact absurd rfl h₁
  | cons a l₁' ih =>
      cases hl : l₁' with
      | nil =>
          subst hl
          cases l₂ with
          | nil => exact absurd rfl h₂
          | cons b t₂ =>
              show CPm (a :: b :: t₂) = CPm [a] + (s(a, b) ::ₘ CPm (b :: t₂))
              rw [CPm_cons₂]
              rw [show CPm [a] = 0 from rfl, zero_add]
      | cons c l₁'' =>
          subst hl
          have hne : c :: l₁'' ≠ [] := by simp
          rw [show (a :: c :: l₁'') ++ l₂ = a :: c :: (l₁'' ++ l₂) from rfl]
          rw [CPm_cons₂ a c (l₁'' ++ l₂)]
          rw [show (c :: (l₁'' ++ l₂) : List Nat) = (c :: l₁'') ++ l₂
            from rfl]
          rw [ih hne]
          rw [CPm_cons₂ a c l₁'', getLastD_cons_of_ne a (c :: l₁'') hne 0,
            Multiset.cons_add]

/-- Master lemma for the Hierholzer loop: with the invariant and the parity
debt `b` on the stack top `u`, the loop processes `u` down to its pop in
`2c + 1` steps (`c` edges consumed), appending a pop chunk `w ++ [u]` to the
output whose consecutive pairs are exactly the consumed edges and whose
first element is the debt vertex `b`; afterwards every degree is even, the
chunk's vertices are exhausted, and no degree ever increased.  By strong
induction on the number of remaining edges. -/
theorem euler_pop (V : Nat) :
    ∀ (k : Nat) (A : Nat → Nat → Int) (D : Nat → Int) (u b : Nat),
      (EdgesM V A).card = k →
      InvE V A D →
      (∀ x, ¬ Even (D x) ↔ (u ≠ b ∧ (x = u ∨ x = b))) →
      ∃ (n : Nat) (w : List Nat) (A2 : Nat → Nat → Int) (D2 : Nat → Int),
        (∀ rest out, stepN V n (EState.mk A D (u :: rest) out) =
          EState.mk A2 D2 rest (out ++ (w ++ [u]))) ∧
        (∀ m, m < n → ∀ rest out, ∃ σ, σ ≠ [] ∧
          (stepN V m (EState.mk A D (u :: rest) out)).stack = σ ++ rest) ∧
        InvE V A2 D2 ∧
        (∀ x, Even (D2 x)) ∧
        (∀ x, D2 x ≤ D x) ∧
        n = 2 * w.length + 1 ∧
        EdgesM V A = CPm (w ++ [u]) + EdgesM V A2 ∧
        (w ++ [u]).headD 0 = b ∧
        (∀ x ∈ w ++ [u], D2 x = 0) := by
  intro k
  induction k using Nat.strong_induction_on with
  | h k ih =>
      intro A D u b hk hinv hpar
      by_cases hDu : 0 < D u
      · -- 0 < deg[u]: consume the lowest-indexed remaining edge and push
        cases hfind : (List.range V).find? (fun w => A u w ≠ 0) with
        | none =>
            exfalso
            have hall : ∀ j, j < V → A u j = 0 := by
              intro j hj
              have hj2 := List.find?_eq_none.mp hfind j (List.mem_range.mpr hj)
              simpa using hj2
            have h0 := degA_zero_of_row V A u hall
            rw [hinv.degD u, h0] at hDu
            exact absurd hDu (by norm_num)
        | some v =>
            have hvV : v < V :=
              List.mem_range.mp (List.mem_of_find?_eq_some hfind)
            have hvadj : A u v ≠ 0 := by
              have hs := List.find?_some hfind
              simpa using hs
            have hA1 : A u v = 1 := by
              rcases hinv.binA u v with h | h
              · exact absurd h hvadj
              · exact h
            have huv : u ≠ v := by
              intro h
              rw [h, hinv.diagA v] at hA1
              exact absurd hA1 (by norm_num)
            have hstep1 : ∀ rest out,
                stepE V (EState.mk A D (u :: rest) out) =
                EState.mk (consume A u v) (consumeD D u v) (v :: u :: rest)
                  out := by
              intro rest out
              exact stepE_cons_some V A D u v rest out
                (by rw [if_pos hDu]; exact hfind)
            have hinv1 : InvE V (consume A u v) (consumeD D u v) :=
              InvE_consume V A D hinv u v hA1
            have hpar1 : ∀ x, ¬ Even (consumeD D u v x) ↔
                (v ≠ b ∧ (x = v ∨ x = b)) :=
              par_consume D u v b huv hpar
            have hacc0 : EdgesM V A =
                s(u, v) ::ₘ EdgesM V (consume A u v) :=
              EdgesM_consume V A hinv.symmA hinv.supA u v huv hA1
            have hk1 : (EdgesM V (consume A u v)).card + 1 = k := by
              rw [← hk, hacc0, Multiset.card_cons]
            obtain ⟨n₂, w₂, A₂, D₂, hi₂, hii₂, hinv₂, heven₂, hle₂, hn₂,
                hacc₂, hhead₂, hzero₂⟩ :=
              ih (EdgesM V (consume A u v)).card (by omega)
                (consume A u v) (consumeD D u v) v b rfl hinv1 hpar1
            have hk2lt : (EdgesM V A₂).card < k := by
              have hc := congrArg Multiset.card hacc₂
              rw [Multiset.card_add] at hc
              omega
            have hpar2 : ∀ x, ¬ Even (D₂ x) ↔
                (u ≠ u ∧ (x = u ∨ x = u)) := by
              intro x
              constructor
              · intro h
                exact absurd (heven₂ x) h
              · rintro ⟨h, -⟩
                exact absurd rfl h
            obtain ⟨n₃, w₃, A₃, D₃, hi₃, hii₃, hinv₃, heven₃, hle₃, hn₃,
                hacc₃, hhead₃, hzero₃⟩ :=
              ih (EdgesM V A₂).card hk2lt A₂ D₂ u u rfl hinv₂ hpar2
            refine ⟨1 + n₂ + n₃, w₂ ++ [v] ++ w₃, A₃, D₃, ?_, ?_, hinv₃,
              heven₃, ?_, ?_, ?_, ?_, ?_⟩
            · intro rest out
              rw [stepN_add V (1 + n₂) n₃, stepN_add V 1 n₂]
              rw [show stepN V 1 (EState.mk A D (u :: rest) out) =
                EState.mk (consume A u v) (consumeD D u v) (v :: u :: rest)
                  out from hstep1 rest out]
              rw [hi₂ (u :: rest) out]
              rw [hi₃ rest (out ++ (w₂ ++ [v]))]
              congr 1
              simp [List.append_assoc]
            · intro m hm rest out
              by_cases hm0 : m = 0
              · subst hm0
                exact ⟨[u], by simp, rfl⟩
              · by_cases hm2 : m < 1 + n₂
                · obtain ⟨m₂, rfl⟩ : ∃ m₂, m = 1 + m₂ :=
                    ⟨m - 1, by omega⟩
                  have hm₂ : m₂ < n₂ := by omega
                  rw [stepN_add V 1 m₂]
                  rw [show stepN V 1 (EState.mk A D (u :: rest) out) =
                    EState.mk (consume A u v) (consumeD D u v)
                      (v :: u :: rest) out from hstep1 rest out]
                  obtain ⟨σ₂, hσne, hσ⟩ := hii₂ m₂ hm₂ (u :: rest) out
                  refine ⟨σ₂ ++ [u], by simp, ?_⟩
                  rw [hσ]
                  simp
                · obtain ⟨m₃, rfl⟩ : ∃ m₃, m = 1 + n₂ + m₃ :=
                    ⟨m - 1 - n₂, by omega⟩
                  have hm₃ : m₃ < n₃ := by omega
                  rw [stepN_add V (1 + n₂) m₃, stepN_add V 1 n₂]
                  rw [show stepN V 1 (EState.mk A D (u :: rest) out) =
                    EState.mk (consume A u v) (consumeD D u v)
                      (v :: u :: rest) out from hstep1 rest out]
                  rw [hi₂ (u :: rest) out]
                  exact hii₃ m₃ hm₃ rest (out ++ (w₂ ++ [v]))
            · intro x
              have h3 := hle₃ x
              have h2 := hle₂ x
              have h1 : consumeD D u v x ≤ D x := by
                rw [consumeD_spec D u v huv x]
                by_cases hxu : x = u
                · rw [if_pos hxu]
                  rw [hxu]
                  omega
                · by_cases hxv : x = v
                  · rw [if_neg hxu, if_pos hxv]
                    rw [hxv]
                    omega
                  · rw [if_neg hxu, if_neg hxv]
              omega
            · have hlen : (w₂ ++ [v] ++ w₃).length =
                  w₂.length + 1 + w₃.length := by
                simp only [List.length_append, List.length_cons,
                  List.length_nil]
              rw [hn₂, hn₃, hlen]
              omega
            · rw [hacc0, hacc₂, hacc₃]
              have happ : ((w₂ ++ [v] ++ w₃) ++ [u] : List Nat) =
                  (w₂ ++ [v]) ++ (w₃ ++ [u]) := by simp
              rw [happ]
              rw [CPm_append (w₂ ++ [v]) (by simp) (w₃ ++ [u]) (by simp)]
              rw [List.getLastD_concat, hhead₃]
              have hsw : s(v, u) = s(u, v) := Sym2.eq_swap
              rw [hsw]
              simp only [← Multiset.singleton_add]
              abel
            · have happ : ((w₂ ++ [v] ++ w₃) ++ [u] : List Nat) =
                  (w₂ ++ [v]) ++ (w₃ ++ [u]) := by simp
              rw [happ]
              rw [headD_append_left (w₂ ++ [v]) (w₃ ++ [u]) (by simp)]
              exact hhead₂
            · intro x hx
              have happ : ((w₂ ++ [v] ++ w₃) ++ [u] : List Nat) =
                  (w₂ ++ [v]) ++ (w₃ ++ [u]) := by simp
              rw [happ] at hx
              rcases List.mem_append.mp hx with hx | hx
              · have h0 := hzero₂ x hx
                have h3 := hle₃ x
                have hnn : 0 ≤ D₃ x := by
                  rw [hinv₃.degD x]
                  exact degA_nonneg V A₃ hinv₃.binA x
                omega
              · exact hzero₃ x hx
      · -- deg[u] = 0: immediate pop
        have hDu0 : D u = 0 := by
          have h0 := hinv.degD u
          have hnn := degA_nonneg V A hinv.binA u
          omega
        have hub : u = b := by
          by_contra hub
          have hodd := (hpar u).mpr ⟨hub, Or.inl rfl⟩
          rw [hDu0] at hodd
          exact hodd even_zero
        have heven : ∀ x, Even (D x) := by
          intro x
          by_contra hodd
          exact ((hpar x).mp hodd).1 hub
        refine ⟨1, [], A, D, ?_, ?_, hinv, heven, fun x => le_refl _, rfl,
          ?_, ?_, ?_⟩
        · intro rest out
          show stepE V (EState.mk A D (u :: rest) out) = _
          rw [stepE_cons_none V A D u rest out (by rw [if_neg hDu])]
          rfl
        · intro m hm rest out
          have hm0 : m = 0 := by omega
          subst hm0
          exact ⟨[u], by simp, rfl⟩
        · rw [show CPm ([] ++ [u]) = 0 from rfl, zero_add]
        · exact hub
        · intro x hx
          rw [List.nil_append, List.mem_singleton] at hx
          rw [hx, hDu0]

theorem all_even_degrees_iff (g : Graph) (hwf : WF g) :
    all_even_degrees g = true ↔ ∀ x, Even (degree g x) := by
  unfold all_even_degrees
  rw [List.all_eq_true]
  constructor
  · intro h x
    by_cases hx : x < g.V
    · have h2 := h x (List.mem_range.mpr hx)
      rw [Int.even_iff]
      simpa using h2
    · push_neg at hx
      have h0 : degree g x = 0 :=
        degree_eq_zero_of_row_zero g x (fun j => hwf.support x j (Or.inl hx))
      rw [h0]
      exact even_zero
  · intro h i _
    have h2 := h i
    rw [Int.even_iff] at h2
    simpa using h2

theorem eulerInit_InvE (g : Graph) (hwf : WF g) :
    InvE g.V (fun i j => g.adj i j) (fun i => degree g i) :=
  ⟨fun i j => hwf.symm i j, fun i => hwf.diag i, fun i j => hwf.binary i j,
   fun i j h => hwf.support i j h, fun _ => rfl⟩

theorem EdgesM_adj (g : Graph) :
    EdgesM g.V (fun i j => g.adj i j) =
      (edgePairs g).val.map (fun q => s(q.1, q.2)) := rfl

/-- When both preconditions hold, `euler_circuit` succeeds and the output
is a closed walk from `start` whose consecutive pairs are exactly the edge
set: connectivity forces the Hierholzer run to consume every edge. -/
theorem euler_circuit_success (g : Graph) (hwf : WF g)
    (hconn : ConnectedNI g) (heven : ∀ x, Even (degree g x)) :
    ∃ w, euler_circuit g = some (w ++ [eulerStart g]) ∧
      (w ++ [eulerStart g]).length = (edgePairs g).card + 1 ∧
      (w ++ [eulerStart g]).headD 0 = eulerStart g ∧
      CPm (w ++ [eulerStart g]) =
        (edgePairs g).val.map (fun q => s(q.1, q.2)) := by
  obtain ⟨n, w, A2, D2, hi, hii, hinv2, heven2, hle, hn, hacc, hhead,
      hzero⟩ :=
    euler_pop g.V (EdgesM g.V (fun i j => g.adj i j)).card
      (fun i j => g.adj i j) (fun i => degree g i) (eulerStart g)
      (eulerStart g) rfl (eulerInit_InvE g hwf)
      (by
        intro x
        constructor
        · intro h
          exact absurd (heven x) h
        · rintro ⟨h, -⟩
          exact absurd rfl h)
  have hrem : EdgesM g.V A2 = 0 := by
    by_contra hne
    obtain ⟨e, he⟩ := Multiset.exists_mem_of_ne_zero hne
    obtain ⟨p, hpv, hpe⟩ := Multiset.mem_map.mp he
    rw [Finset.mem_val, Finset.mem_filter, Finset.mem_product] at hpv
    obtain ⟨⟨hp1, hp2⟩, hplt, hpA⟩ := hpv
    rw [Finset.mem_range] at hp1 hp2
    have hD2pos : 0 < D2 p.1 := by
      rw [hinv2.degD p.1]
      exact degA_pos_of_entry g.V A2 hinv2.binA p.1 p.2 hp2 hpA
    have hDorig : 0 < degree g p.1 := by
      have hlep := hle p.1
      omega
    obtain ⟨st, hst⟩ : ∃ st,
        (List.range g.V).find? (fun i => 0 < degree g i) = some st := by
      cases hf : (List.range g.V).find? (fun i => 0 < degree g i) with
      | none =>
          exfalso
          have hq := List.find?_eq_none.mp hf p.1 (List.mem_range.mpr hp1)
          simp only [decide_eq_true_eq] at hq
          exact hq hDorig
      | some st => exact ⟨st, rfl⟩
    have hstart : eulerStart g = st := by
      unfold eulerStart
      rw [hst]
      rfl
    have hstpos : 0 < degree g st := by
      have hs := List.find?_some hst
      simpa using hs
    have hstV : st < g.V :=
      List.mem_range.mp (List.mem_of_find?_eq_some hst)
    have hreach : Reach g st p.1 := hconn st p.1 hstV hp1 hstpos hDorig
    have hzero_reach : ∀ z, Reach g st z → D2 z = 0 := by
      intro z hz
      induction hz with
      | refl =>
          apply hzero
          rw [hstart]
          exact List.mem_append_right _ (List.mem_singleton_self st)
      | tail hxy hstep ihz =>
          rename_i bb cc
          have hbc : bb ≠ cc := by
            intro h
            rw [h] at hstep
            exact hstep (hwf.diag cc)
          have hccV : cc < g.V := by
            by_contra hc
            push_neg at hc
            exact hstep (hwf.support bb cc (Or.inr hc))
          have hbbV : bb < g.V := by
            by_contra hc
            push_neg at hc
            exact hstep (hwf.support bb cc (Or.inl hc))
          have hedge : s(bb, cc) ∈ EdgesM g.V (fun i j => g.adj i j) := by
            rw [EdgesM_mem_iff g.V _ (fun i j => hwf.symm i j) bb cc hbc]
            refine ⟨hbbV, hccV, ?_⟩
            rcases hwf.binary bb cc with h | h
            · exact absurd h hstep
            · exact h
          rw [hacc] at hedge
          rcases Multiset.mem_add.mp hedge with hmem | hmem
          · exact hzero cc (CPm_mem_pair _ bb cc hmem).2
          · exfalso
            rw [EdgesM_mem_iff g.V A2 hinv2.symmA bb cc hbc] at hmem
            have hpos : 0 < D2 bb := by
              rw [hinv2.degD bb]
              exact degA_pos_of_entry g.V A2 hinv2.binA bb cc hmem.2.1
                hmem.2.2
            omega
    have hfin := hzero_reach p.1 hreach
    omega
  rw [hrem, add_zero] at hacc
  have hCP : CPm (w ++ [eulerStart g]) =
      (edgePairs g).val.map (fun q => s(q.1, q.2)) := by
    rw [← hacc]
    exact EdgesM_adj g
  have hwlen : w.length = (edgePairs g).card := by
    have h1 : (CPm (w ++ [eulerStart g])).card = (edgePairs g).card := by
      rw [hCP, Multiset.card_map]
      rfl
    rw [CPm_card] at h1
    have h2 : (w ++ [eulerStart g]).length = w.length + 1 := by simp
    omega
  have hplen : (w ++ [eulerStart g]).length = (edgePairs g).card + 1 := by
    rw [show (w ++ [eulerStart g]).length = w.length + 1 from by simp,
      hwlen]
  have hEtoNat : g.E.toNat = (edgePairs g).card := by
    rw [hwf.ecount]
    exact Int.toNat_natCast _
  have hnle : n ≤ 2 * g.E.toNat + 2 := by
    rw [hn, hwlen, hEtoNat]
    omega
  have hne2 : ∀ m, m < n →
      (stepN g.V m (EState.mk (fun i j => g.adj i j)
        (fun i => degree g i) (eulerStart g :: []) [])).stack ≠ [] := by
    intro m hm
    obtain ⟨σ, hσne, hσ⟩ := hii m hm [] []
    rw [hσ]
    simpa using hσne
  have hgo := eulerGo_stepN g.V n (2 * g.E.toNat + 2)
    (EState.mk (fun i j => g.adj i j) (fun i => degree g i)
      (eulerStart g :: []) []) hnle hne2
  rw [hi [] []] at hgo
  rw [eulerGo_empty g.V ((2 * g.E.toNat + 2) - n)
    (EState.mk A2 D2 [] ([] ++ (w ++ [eulerStart g]))) rfl] at hgo
  have hrun : (eulerGo g.V (2 * g.E.toNat + 2) (eulerInit g)).out =
      w ++ [eulerStart g] := by
    have hinit : eulerInit g = EState.mk (fun i j => g.adj i j)
        (fun i => degree g i) (eulerStart g :: []) [] := rfl
    rw [hinit, hgo]
    rfl
  refine ⟨w, ?_, hplen, hhead, hCP⟩
  unfold euler_circuit
  rw [if_neg (by rw [(cam_iff_ConnectedNI g hwf).mpr hconn]; simp),
    if_neg (by rw [(all_even_degrees_iff g hwf).mpr heven]; simp)]
  rw [hrun]

theorem euler_none_iff (g : Graph) (hwf : WF g) :
    euler_circuit g = none ↔
      ¬ ConnectedNI g ∨ ∃ i, i < g.V ∧ ¬ Even (degree g i) := by
  unfold euler_circuit
  by_cases hc : ¬ (connected_among_non_isolated g = true)
  · rw [if_pos hc]
    constructor
    · intro _
      left
      intro hcon
      exact hc ((cam_iff_ConnectedNI g hwf).mpr hcon)
    · intro _
      rfl
  · rw [if_neg hc]
    push_neg at hc
    by_cases he : ¬ (all_even_degrees g = true)
    · rw [if_pos he]
      constructor
      · intro _
        right
        by_contra hcon
        push_neg at hcon
        apply he
        apply List.all_eq_true.mpr
        intro i hi
        rw [List.mem_range] at hi
        have hev := hcon i hi
        rw [Int.even_iff] at hev
        simpa using hev
      · intro _
        rfl
    · rw [if_neg he]
      push_neg at he
      constructor
      · intro h
        exact absurd h (by simp)
      · intro hcase
        exfalso
        rcases hcase with h | ⟨i, hiV, hodd⟩
        · exact h ((cam_iff_ConnectedNI g hwf).mp hc)
        · have hall := List.all_eq_true.mp he i (List.mem_range.mpr hiV)
          rw [Int.even_iff] at hodd
          exact hodd (by simpa using hall)

/-- C1: when `euler_circuit` succeeds with path `p`, then `p` has `E + 1`
entries, its first and last entries coincide, and the multiset of unordered
consecutive pairs of `p` is exactly the edge set of the graph; and it
returns 0 (`none`) exactly when the graph is not connected among its
non-isolated vertices or some vertex has odd degree. -/
theorem claim_C1_euler_circuit (g : Graph) (hwf : WF g) :
    (∀ p, euler_circuit g = some p →
      p.length = g.E.toNat + 1 ∧
      p.headD 0 = p.getLastD 0 ∧
      CPm p = (edgePairs g).val.map (fun q => s(q.1, q.2))) ∧
    (euler_circuit g = none ↔
      ¬ ConnectedNI g ∨ ∃ i, i < g.V ∧ ¬ Even (degree g i)) := by
  constructor
  · intro p hp
    have hconn : ConnectedNI g := by
      by_contra hcon
      have hcam : ¬ (connected_among_non_isolated g = true) := by
        intro h
        exact hcon ((cam_iff_ConnectedNI g hwf).mp h)
      unfold euler_circuit at hp
      rw [if_pos hcam] at hp
      exact Option.noConfusion hp
    have heven : ∀ x, Even (degree g x) := by
      by_contra hcon
      have hev : ¬ (all_even_degrees g = true) := by
        intro h
        exact hcon ((all_even_degrees_iff g hwf).mp h)
      unfold euler_circuit at hp
      rw [if_neg (by rw [(cam_iff_ConnectedNI g hwf).mpr hconn]; simp),
        if_pos hev] at hp
      exact Option.noConfusion hp
    obtain ⟨w, hw, hlen, hhead, hCP⟩ :=
      euler_circuit_success g hwf hconn heven
    rw [hp] at hw
    have hpw : p = w ++ [eulerStart g] := Option.some.inj hw
    rw [hpw]
    refine ⟨?_, ?_, hCP⟩
    · rw [hlen, hwf.ecount, Int.toNat_natCast]
    · rw [hhead, List.getLastD_concat]
  · exact euler_none_iff g hwf

theorem claim_C1_euler_circuit_witness :
    WF (buildGraph 3 [(0, 1, 1), (1, 2, 1), (0, 2, 1)]) ∧
    ((∀ p, euler_circuit (buildGraph 3 [(0, 1, 1), (1, 2, 1), (0, 2, 1)]) =
        some p →
      p.length =
        (buildGraph 3 [(0, 1, 1), (1, 2, 1), (0, 2, 1)]).E.toNat + 1 ∧
      p.headD 0 = p.getLastD 0 ∧
      CPm p = (edgePairs (buildGraph 3 [(0, 1, 1), (1, 2, 1),
        (0, 2, 1)])).val.map (fun q => s(q.1, q.2))) ∧
     (euler_circuit (buildGraph 3 [(0, 1, 1), (1, 2, 1), (0, 2, 1)]) =
        none ↔
      ¬ ConnectedNI (buildGraph 3 [(0, 1, 1), (1, 2, 1), (0, 2, 1)]) ∨
      ∃ i, i < (buildGraph 3 [(0, 1, 1), (1, 2, 1), (0, 2, 1)]).V ∧
        ¬ Even (degree (buildGraph 3 [(0, 1, 1), (1, 2, 1), (0, 2, 1)])
          i))) :=
  ⟨buildGraph_WF 3 [(0, 1, 1), (1, 2, 1), (0, 2, 1)],
   claim_C1_euler_circuit (buildGraph 3 [(0, 1, 1), (1, 2, 1), (0, 2, 1)])
    (buildGraph_WF 3 [(0, 1, 1), (1, 2, 1), (0, 2, 1)])⟩

example :
    euler_circuit (buildGraph 3 [(0, 1, 1), (1, 2, 1), (0, 2, 1)]) =
      some [0, 2, 1, 0] := by
  decide

example :
    euler_circuit (buildGraph 2 [(0, 1, 1)]) = none := by
  decide

end OSP
